import Mathlib

/-!
Verification of the qsolog repository: a shallow embedding of the core
in-memory QSO store (`src/core/store.rs`), the patch/op domain model
(`src/qso.rs`, `src/op.rs`), the incremental scoring projector
(`src/engine/projector.rs`) and the runtime command handling slice relevant
to backpressure (`src/runtime/handle.rs`), together with proofs and
refutations of the specified properties.

Modelling conventions, recorded once here:
* Rust `u64`/`u32` counters are modelled as `Nat`.  No claim exercises
  wraparound; `saturating_add`/`saturating_sub` are modelled explicitly.
* Rust `HashMap`s are modelled as association lists (`List (k × v)`), with
  insertion appending a fresh entry and updates mapping in place.  All store
  code paths are deterministic, so this fixes the iteration-order
  nondeterminism of `HashMap` without changing any observable behaviour.
* The `pos: HashMap<QsoId, usize>` field of `QsoStore` always maps an id to
  its index in `order` (it is written exactly at the sites that extend or
  rebuild `order`), so it is modelled as the derived function `posOf`.
* `Vec` used as a stack (`undo`, `redo`): Rust pushes/pops at the end; we
  model the stack as a `List` whose head is the stack top.  The pending-ops
  buffer keeps emission order, so there pushes append at the end.
* `Vec::binary_search_by_key` on a bucket sorted by canonical position with
  pairwise-distinct keys returns the unique sorted insertion point, which is
  the number of elements with a smaller key; `insert_id_ordered` is modelled
  that way.
* `now_ms()` reads the wall clock; no claim observes the `ts_ms` field of an
  emitted op, so it is modelled as the constant `0`.
* Rust `Result` is `Except`; store errors mirror `StoreError`.
-/

namespace Qsolog

/-- HF contest band bucket (`src/types.rs`). -/
inductive Band where
  | b160m | b80m | b40m | b20m | b15m | b10m | other
deriving DecidableEq, Repr

/-- Emission mode bucket (`src/types.rs`). -/
inductive Mode where
  | cw | ssb | digital | other
deriving DecidableEq, Repr

/-- Opaque serialized exchange payload (`src/qso.rs`). -/
structure ExchangeBlob where
  bytes : List Nat
deriving DecidableEq, Repr

/-- Record flags that affect scoring and visibility (`src/qso.rs`). -/
structure QsoFlags where
  is_void : Bool
  dupe_override : Bool
deriving DecidableEq, Repr

/-- Fully materialized, authoritative QSO record (`src/qso.rs`). -/
structure QsoRecord where
  id : Nat
  contest_instance_id : Nat
  callsign_raw : String
  callsign_norm : String
  band : Band
  mode : Mode
  freq_hz : Nat
  ts_ms : Nat
  radio_id : Nat
  operator_id : Nat
  exchange : ExchangeBlob
  flags : QsoFlags
deriving DecidableEq, Repr

/-- Insert payload used to create a new `QsoRecord` (`src/qso.rs`). -/
structure QsoDraft where
  contest_instance_id : Nat
  callsign_raw : String
  callsign_norm : String
  band : Band
  mode : Mode
  freq_hz : Nat
  ts_ms : Nat
  radio_id : Nat
  operator_id : Nat
  exchange : ExchangeBlob
  flags : QsoFlags
deriving DecidableEq, Repr

/-- Sparse patch where each `some` field overwrites the record value
(`src/qso.rs`). -/
structure QsoPatch where
  contest_instance_id : Option Nat := none
  callsign_raw : Option String := none
  callsign_norm : Option String := none
  band : Option Band := none
  mode : Option Mode := none
  freq_hz : Option Nat := none
  ts_ms : Option Nat := none
  radio_id : Option Nat := none
  operator_id : Option Nat := none
  exchange : Option ExchangeBlob := none
  is_void : Option Bool := none
  dupe_override : Option Bool := none
deriving DecidableEq, Repr

/-- Captures an inverse patch for all fields present in `self`
(`QsoPatch::capture_inverse_for`). -/
def QsoPatch.capture_inverse_for (p : QsoPatch) (rec : QsoRecord) : QsoPatch where
  contest_instance_id := p.contest_instance_id.map fun _ => rec.contest_instance_id
  callsign_raw := p.callsign_raw.map fun _ => rec.callsign_raw
  callsign_norm := p.callsign_norm.map fun _ => rec.callsign_norm
  band := p.band.map fun _ => rec.band
  mode := p.mode.map fun _ => rec.mode
  freq_hz := p.freq_hz.map fun _ => rec.freq_hz
  ts_ms := p.ts_ms.map fun _ => rec.ts_ms
  radio_id := p.radio_id.map fun _ => rec.radio_id
  operator_id := p.operator_id.map fun _ => rec.operator_id
  exchange := p.exchange.map fun _ => rec.exchange
  is_void := p.is_void.map fun _ => rec.flags.is_void
  dupe_override := p.dupe_override.map fun _ => rec.flags.dupe_override

/-- Applies this patch to `rec` (`QsoPatch::apply_to`; the Rust code mutates
the record field by field with independent `if let Some` updates, which is the
same as this simultaneous record update). -/
def QsoPatch.apply_to (p : QsoPatch) (rec : QsoRecord) : QsoRecord where
  id := rec.id
  contest_instance_id := p.contest_instance_id.getD rec.contest_instance_id
  callsign_raw := p.callsign_raw.getD rec.callsign_raw
  callsign_norm := p.callsign_norm.getD rec.callsign_norm
  band := p.band.getD rec.band
  mode := p.mode.getD rec.mode
  freq_hz := p.freq_hz.getD rec.freq_hz
  ts_ms := p.ts_ms.getD rec.ts_ms
  radio_id := p.radio_id.getD rec.radio_id
  operator_id := p.operator_id.getD rec.operator_id
  exchange := p.exchange.getD rec.exchange
  flags := {
    is_void := p.is_void.getD rec.flags.is_void
    dupe_override := p.dupe_override.getD rec.flags.dupe_override }

/-- Immutable operation appended to the journal (`src/op.rs`). -/
inductive Op where
  | insert (qso : QsoRecord)
  | patch (id : Nat) (patch : QsoPatch) (prev : QsoPatch)
  | void (id : Nat) (prev_is_void : Bool)
deriving DecidableEq, Repr

/-- Journal row metadata plus operation payload (`src/op.rs`). -/
structure StoredOp where
  seq : Nat
  ts_ms : Nat
  op : Op
deriving DecidableEq, Repr

/-- Error type for in-memory store operations (`src/core/store.rs`). -/
inductive StoreError where
  | missingQso (id : Nat)
  | alreadyExists (id : Nat)
  | nothingToUndo
  | nothingToRedo
deriving DecidableEq, Repr

end Qsolog

namespace Qsolog

/-- The constant-map of an option is `some` exactly when the option is. -/
theorem optMapConst_isSome {α β : Type} (o : Option α) (v : β) :
    (o.map fun _ => v).isSome = o.isSome := by
  cases o <;> rfl

/-- The constant-map of a present option is the constant. -/
theorem optMapConst_eq_some {α β : Type} (o : Option α) (v : β)
    (h : o.isSome = true) : (o.map fun _ => v) = some v := by
  cases o with
  | none => simp at h
  | some _ => rfl

/-- Applying a captured constant after the patched value restores the old
value, fieldwise. -/
theorem optMapConst_getD_roundtrip {α : Type} (o : Option α) (w : α) :
    (o.map fun _ => w).getD (o.getD w) = w := by
  cases o <;> rfl

/-- C6: for every record `r` and patch `p`, the inverse patch
`prev = p.capture_inverse_for r` has each field present exactly when `p` has
it present, each present field of `prev` holds `r`'s pre-patch value, and
applying `p` to `r` followed by applying `prev` restores `r` exactly. -/
theorem capture_inverse_exact (r : QsoRecord) (p : QsoPatch) :
    ((p.capture_inverse_for r).contest_instance_id.isSome
        = p.contest_instance_id.isSome
      ∧ (p.capture_inverse_for r).callsign_raw.isSome = p.callsign_raw.isSome
      ∧ (p.capture_inverse_for r).callsign_norm.isSome = p.callsign_norm.isSome
      ∧ (p.capture_inverse_for r).band.isSome = p.band.isSome
      ∧ (p.capture_inverse_for r).mode.isSome = p.mode.isSome
      ∧ (p.capture_inverse_for r).freq_hz.isSome = p.freq_hz.isSome
      ∧ (p.capture_inverse_for r).ts_ms.isSome = p.ts_ms.isSome
      ∧ (p.capture_inverse_for r).radio_id.isSome = p.radio_id.isSome
      ∧ (p.capture_inverse_for r).operator_id.isSome = p.operator_id.isSome
      ∧ (p.capture_inverse_for r).exchange.isSome = p.exchange.isSome
      ∧ (p.capture_inverse_for r).is_void.isSome = p.is_void.isSome
      ∧ (p.capture_inverse_for r).dupe_override.isSome = p.dupe_override.isSome)
    ∧ ((p.contest_instance_id.isSome →
          (p.capture_inverse_for r).contest_instance_id
            = some r.contest_instance_id)
      ∧ (p.callsign_raw.isSome →
          (p.capture_inverse_for r).callsign_raw = some r.callsign_raw)
      ∧ (p.callsign_norm.isSome →
          (p.capture_inverse_for r).callsign_norm = some r.callsign_norm)
      ∧ (p.band.isSome → (p.capture_inverse_for r).band = some r.band)
      ∧ (p.mode.isSome → (p.capture_inverse_for r).mode = some r.mode)
      ∧ (p.freq_hz.isSome → (p.capture_inverse_for r).freq_hz = some r.freq_hz)
      ∧ (p.ts_ms.isSome → (p.capture_inverse_for r).ts_ms = some r.ts_ms)
      ∧ (p.radio_id.isSome →
          (p.capture_inverse_for r).radio_id = some r.radio_id)
      ∧ (p.operator_id.isSome →
          (p.capture_inverse_for r).operator_id = some r.operator_id)
      ∧ (p.exchange.isSome →
          (p.capture_inverse_for r).exchange = some r.exchange)
      ∧ (p.is_void.isSome →
          (p.capture_inverse_for r).is_void = some r.flags.is_void)
      ∧ (p.dupe_override.isSome →
          (p.capture_inverse_for r).dupe_override = some r.flags.dupe_override))
    ∧ (p.capture_inverse_for r).apply_to (p.apply_to r) = r := by
  refine ⟨?_, ?_, ?_⟩
  · simp only [QsoPatch.capture_inverse_for]
    exact ⟨optMapConst_isSome .., optMapConst_isSome .., optMapConst_isSome ..,
      optMapConst_isSome .., optMapConst_isSome .., optMapConst_isSome ..,
      optMapConst_isSome .., optMapConst_isSome .., optMapConst_isSome ..,
      optMapConst_isSome .., optMapConst_isSome .., optMapConst_isSome ..⟩
  · simp only [QsoPatch.capture_inverse_for]
    exact ⟨fun h => optMapConst_eq_some _ _ h, fun h => optMapConst_eq_some _ _ h,
      fun h => optMapConst_eq_some _ _ h, fun h => optMapConst_eq_some _ _ h,
      fun h => optMapConst_eq_some _ _ h, fun h => optMapConst_eq_some _ _ h,
      fun h => optMapConst_eq_some _ _ h, fun h => optMapConst_eq_some _ _ h,
      fun h => optMapConst_eq_some _ _ h, fun h => optMapConst_eq_some _ _ h,
      fun h => optMapConst_eq_some _ _ h, fun h => optMapConst_eq_some _ _ h⟩
  · cases r
    simp [QsoPatch.apply_to, QsoPatch.capture_inverse_for,
      optMapConst_getD_roundtrip]

/-! ## Association lists standing in for `hashbrown::HashMap` -/

/-- Lookup in an association list (`HashMap::get`). -/
def alookup {κ β : Type} [DecidableEq κ] : List (κ × β) → κ → Option β
  | [], _ => none
  | (k', v) :: rest, k => if k' = k then some v else alookup rest k

/-- Update the value stored at a key in place (`HashMap::get_mut` followed by
a write). -/
def aupdate {κ β : Type} [DecidableEq κ] (l : List (κ × β)) (k : κ)
    (f : β → β) : List (κ × β) :=
  l.map fun e => if e.1 = k then (e.1, f e.2) else e

/-- Insert-or-replace (`HashMap::insert`): replaces the value at an existing
key, otherwise appends a fresh entry. -/
def ains {κ β : Type} [DecidableEq κ] (l : List (κ × β)) (k : κ) (v : β) :
    List (κ × β) :=
  if (alookup l k).isSome then aupdate l k fun _ => v else l ++ [(k, v)]

/-- Remove a key (`HashMap::remove`). -/
def aremove {κ β : Type} [DecidableEq κ] (l : List (κ × β)) (k : κ) :
    List (κ × β) :=
  l.filter fun e => e.1 ≠ k

/-- Insert an element at an index of a list (`Vec::insert`; appends when the
index is at or past the end). -/
def insertAt {α : Type} : Nat → α → List α → List α
  | 0, a, l => a :: l
  | _ + 1, a, [] => [a]
  | n + 1, a, x :: xs => x :: insertAt n a xs

/-! ## The store core

`StoreCore` groups the fields of `QsoStore` that the `apply_*_with_seq`
helpers read and write (`records`, `order`, the two secondary indices and the
two counters); the undo/redo stacks and the pending-op buffer are managed one
level up, in `QsoStore`, exactly as in the Rust methods. -/

/-- Value of `usize::MAX` / `u64::MAX` used by `insert_id_ordered` for ids
missing from `pos`, and as the saturation bound. -/
def usizeMax : Nat := 2 ^ 64 - 1

/-- Saturating `u64` addition. -/
def satAdd (x y : Nat) : Nat := min (x + y) usizeMax

/-- The mutable fields of `QsoStore` touched by the `apply_*_with_seq`
helpers (`src/core/store.rs`). -/
structure StoreCore where
  records : List (Nat × QsoRecord)
  order : List Nat
  by_call : List (String × List Nat)
  by_contest : List (Nat × List Nat)
  next_op_seq : Nat
  next_qso_id : Nat
deriving DecidableEq, Repr

/-- Authoritative mutable QSO store (`src/core/store.rs`). -/
structure QsoStore where
  core : StoreCore
  undo : List Op
  redo : List Op
  pending_ops : List StoredOp
deriving DecidableEq, Repr

/-- Creates an empty store (`QsoStore::new`). -/
def QsoStore.new : QsoStore where
  core := {
    records := []
    order := []
    by_call := []
    by_contest := []
    next_op_seq := 1
    next_qso_id := 1 }
  undo := []
  redo := []
  pending_ops := []

/-- The `pos` map of the store: `pos[id]` is always the index of `id` in
`order` (written at every site that extends or rebuilds `order`), with
`usize::MAX` standing in for an absent entry. -/
def posOf (order : List Nat) (id : Nat) : Nat :=
  if id ∈ order then order.indexOf id else usizeMax

/-- Reads a bucket of a secondary index, empty when the key is absent. -/
def bucketRead {κ : Type} [DecidableEq κ] (idx : List (κ × List Nat))
    (k : κ) : List Nat :=
  (alookup idx k).getD []

/-- Pushes an id at the end of a bucket, creating the bucket when absent
(`entry(..).or_default().push(id)` in `insert_indices`). -/
def bucketPush {κ : Type} [DecidableEq κ] (idx : List (κ × List Nat))
    (k : κ) (id : Nat) : List (κ × List Nat) :=
  if (alookup idx k).isSome then aupdate idx k fun ids => ids ++ [id]
  else idx ++ [(k, [id])]

/-- Removes an id from a bucket and drops the bucket when it becomes empty
(the `retain`/`remove` step of `update_call_index` / `remove_indices`). -/
def bucketRemoveId {κ : Type} [DecidableEq κ] (idx : List (κ × List Nat))
    (k : κ) (id : Nat) : List (κ × List Nat) :=
  match alookup idx k with
  | none => idx
  | some ids =>
    let ids' := ids.filter fun v => v ≠ id
    if ids' = [] then aremove idx k else aupdate idx k fun _ => ids'

/-- Inserts an id into a bucket at the position that keeps the bucket sorted
by canonical order position (`QsoStore::insert_id_ordered`; the Rust code
binary-searches the bucket, whose keys are pairwise distinct, so the
insertion point is the number of entries with a smaller position). -/
def insert_id_ordered (ids : List Nat) (id : Nat) (order : List Nat) :
    List Nat :=
  insertAt (ids.countP fun e => posOf order e < posOf order id) id ids

/-- Inserts an id into a possibly-new bucket at its sorted position
(the `entry(..).or_default()` + `insert_id_ordered` step of the
`update_*_index` functions). -/
def bucketInsertOrdered {κ : Type} [DecidableEq κ]
    (idx : List (κ × List Nat)) (k : κ) (id : Nat) (order : List Nat) :
    List (κ × List Nat) :=
  if (alookup idx k).isSome then
    aupdate idx k fun ids => insert_id_ordered ids id order
  else idx ++ [(k, insert_id_ordered [] id order)]

/-- Installs a record into both secondary indices
(`QsoStore::insert_indices`). -/
def insert_indices (c : StoreCore) (rec : QsoRecord) : StoreCore :=
  { c with
    by_call := bucketPush c.by_call rec.callsign_norm rec.id
    by_contest := bucketPush c.by_contest rec.contest_instance_id rec.id }

/-- Moves an id between callsign buckets (`QsoStore::update_call_index`). -/
def update_call_index (c : StoreCore) (id : Nat) (old_call new_call : String) :
    StoreCore :=
  { c with by_call := (
      bucketInsertOrdered (bucketRemoveId c.by_call old_call id) new_call id
        c.order) }

/-- Moves an id between contest buckets (`QsoStore::update_contest_index`). -/
def update_contest_index (c : StoreCore) (id : Nat) (old new : Nat) :
    StoreCore :=
  { c with by_contest := (
      bucketInsertOrdered (bucketRemoveId c.by_contest old id) new id
        c.order) }

/-- Clock reading used for the `ts_ms` field of emitted ops (`now_ms`); no
claim observes it, so it is the constant 0. -/
def nowMs : Nat := 0

/-- Returns the next op sequence and increments the counter
(`QsoStore::take_next_op_seq`). -/
def take_next_op_seq (c : StoreCore) : StoreCore × Nat :=
  ({ c with next_op_seq := c.next_op_seq + 1 }, c.next_op_seq)

/-- Advances `next_op_seq` past a sequence (`QsoStore::bump_next_seq_from`). -/
def bump_next_seq_from (c : StoreCore) (seq : Nat) : StoreCore :=
  { c with next_op_seq := max c.next_op_seq (satAdd seq 1) }

/-- Applies an insert at a fixed sequence
(`QsoStore::apply_insert_with_seq`); returns the mutated core, the emitted
stored op and the inverse op. -/
def apply_insert_with_seq (c : StoreCore) (qso : QsoRecord) (seq : Nat) :
    Except StoreError (StoreCore × StoredOp × Op) :=
  if (alookup c.records qso.id).isSome then
    .error (.alreadyExists qso.id)
  else
    let c1 := { c with next_qso_id := max c.next_qso_id (satAdd qso.id 1) }
    let c2 := insert_indices c1 qso
    let c3 := { c2 with
      order := c2.order ++ [qso.id]
      records := ains c2.records qso.id qso }
    let c4 := bump_next_seq_from c3 seq
    .ok (c4, { seq := seq, ts_ms := nowMs, op := .insert qso },
      .void qso.id false)

/-- Applies a patch at a fixed sequence (`QsoStore::apply_patch_with_seq`). -/
def apply_patch_with_seq (c : StoreCore) (id : Nat) (patch : QsoPatch)
    (seq : Nat) : Except StoreError (StoreCore × StoredOp × Op) :=
  match alookup c.records id with
  | none => .error (.missingQso id)
  | some rec =>
    let old_call := rec.callsign_norm
    let old_contest := rec.contest_instance_id
    let prev := patch.capture_inverse_for rec
    let rec' := patch.apply_to rec
    let c1 := { c with records := aupdate c.records id fun _ => rec' }
    let c2 := if old_call ≠ rec'.callsign_norm then
        update_call_index c1 id old_call rec'.callsign_norm
      else c1
    let c3 := if old_contest ≠ rec'.contest_instance_id then
        update_contest_index c2 id old_contest rec'.contest_instance_id
      else c2
    let c4 := bump_next_seq_from c3 seq
    .ok (c4, { seq := seq, ts_ms := nowMs, op := .patch id patch prev },
      .patch id prev patch)

/-- Applies a void toggle at a fixed sequence
(`QsoStore::apply_void_with_seq`). -/
def apply_void_with_seq (c : StoreCore) (id : Nat) (prev_is_void : Bool)
    (seq : Nat) : Except StoreError (StoreCore × StoredOp × Op) :=
  match alookup c.records id with
  | none => .error (.missingQso id)
  | some rec =>
    let new_is_void := !prev_is_void
    let rec' := { rec with flags := { rec.flags with is_void := new_is_void } }
    let c1 := { c with records := aupdate c.records id fun _ => rec' }
    let c2 := bump_next_seq_from c1 seq
    .ok (c2, { seq := seq, ts_ms := nowMs, op := .void id prev_is_void },
      .void id new_is_void)

/-- Applies an insert taking a fresh sequence (`QsoStore::apply_insert`). -/
def apply_insert (c : StoreCore) (qso : QsoRecord) :
    Except StoreError (StoreCore × StoredOp × Op) :=
  let (c', seq) := take_next_op_seq c
  apply_insert_with_seq c' qso seq

/-- Applies a patch taking a fresh sequence (`QsoStore::apply_patch`). -/
def apply_patch (c : StoreCore) (id : Nat) (patch : QsoPatch) :
    Except StoreError (StoreCore × StoredOp × Op) :=
  let (c', seq) := take_next_op_seq c
  apply_patch_with_seq c' id patch seq

/-- Applies a void taking a fresh sequence (`QsoStore::apply_void`). -/
def apply_void (c : StoreCore) (id : Nat) (prev_is_void : Bool) :
    Except StoreError (StoreCore × StoredOp × Op) :=
  let (c', seq) := take_next_op_seq c
  apply_void_with_seq c' id prev_is_void seq

/-- Dispatches an op to its apply function (`QsoStore::apply_op`). -/
def apply_op (c : StoreCore) (op : Op) :
    Except StoreError (StoreCore × StoredOp × Op) :=
  match op with
  | .insert qso => apply_insert c qso
  | .patch id patch _ => apply_patch c id patch
  | .void id prev_is_void => apply_void c id prev_is_void

/-- Materializes a draft into a record with a given id (the record literal in
`QsoStore::insert`). -/
def draftToRecord (draft : QsoDraft) (id : Nat) : QsoRecord where
  id := id
  contest_instance_id := draft.contest_instance_id
  callsign_raw := draft.callsign_raw
  callsign_norm := draft.callsign_norm
  band := draft.band
  mode := draft.mode
  freq_hz := draft.freq_hz
  ts_ms := draft.ts_ms
  radio_id := draft.radio_id
  operator_id := draft.operator_id
  exchange := draft.exchange
  flags := draft.flags

/-- Inserts a new QSO (`QsoStore::insert`); returns the id and emitted op. -/
def QsoStore.insert (s : QsoStore) (draft : QsoDraft) :
    Except StoreError (QsoStore × Nat × StoredOp) :=
  let id := s.core.next_qso_id
  let c0 := { s.core with next_qso_id := s.core.next_qso_id + 1 }
  let qso := draftToRecord draft id
  match apply_insert c0 qso with
  | .error e => .error e
  | .ok (c', stored, inverse) =>
    .ok ({ core := c', undo := inverse :: s.undo, redo := [],
           pending_ops := s.pending_ops ++ [stored] }, id, stored)

/-- Applies a patch to an existing QSO (`QsoStore::patch`). -/
def QsoStore.patch (s : QsoStore) (id : Nat) (patch : QsoPatch) :
    Except StoreError (QsoStore × StoredOp) :=
  match apply_patch s.core id patch with
  | .error e => .error e
  | .ok (c', stored, inverse) =>
    .ok ({ core := c', undo := inverse :: s.undo, redo := [],
           pending_ops := s.pending_ops ++ [stored] }, stored)

/-- Toggles void status for a QSO (`QsoStore::void`). -/
def QsoStore.void (s : QsoStore) (id : Nat) :
    Except StoreError (QsoStore × StoredOp) :=
  match alookup s.core.records id with
  | none => .error (.missingQso id)
  | some rec =>
    match apply_void s.core id rec.flags.is_void with
    | .error e => .error e
    | .ok (c', stored, inverse) =>
      .ok ({ core := c', undo := inverse :: s.undo, redo := [],
             pending_ops := s.pending_ops ++ [stored] }, stored)

/-- Applies one undo step (`QsoStore::undo`). -/
def QsoStore.undo_step (s : QsoStore) :
    Except StoreError (QsoStore × StoredOp) :=
  match s.undo with
  | [] => .error .nothingToUndo
  | op :: rest =>
    match apply_op s.core op with
    | .error e => .error e
    | .ok (c', stored, inverse) =>
      .ok ({ core := c', undo := rest, redo := inverse :: s.redo,
             pending_ops := s.pending_ops ++ [stored] }, stored)

/-- Applies one redo step (`QsoStore::redo`). -/
def QsoStore.redo_step (s : QsoStore) :
    Except StoreError (QsoStore × StoredOp) :=
  match s.redo with
  | [] => .error .nothingToRedo
  | op :: rest =>
    match apply_op s.core op with
    | .error e => .error e
    | .ok (c', stored, inverse) =>
      .ok ({ core := c', undo := inverse :: s.undo, redo := rest,
             pending_ops := s.pending_ops ++ [stored] }, stored)

/-- Applies a stored operation during journal replay
(`QsoStore::apply_replayed_op`); clears both history stacks. -/
def QsoStore.apply_replayed_op (s : QsoStore) (stored : StoredOp) :
    Except StoreError QsoStore :=
  let seq := stored.seq
  let applied : Except StoreError (StoreCore × StoredOp × Op) :=
    match stored.op with
    | .insert qso => apply_insert_with_seq s.core qso seq
    | .patch id patch _ => apply_patch_with_seq s.core id patch seq
    | .void id prev_is_void => apply_void_with_seq s.core id prev_is_void seq
  match applied with
  | .error e => .error e
  | .ok (c', _, _) =>
    .ok { core := c', undo := [], redo := [], pending_ops := s.pending_ops }

/-- Returns a record by id (`QsoStore::get` / `get_cloned`). -/
def QsoStore.get (s : QsoStore) (id : Nat) : Option QsoRecord :=
  alookup s.core.records id

/-- Returns up to `n` most-recent records in insertion order
(`QsoStore::recent`). -/
def QsoStore.recent (s : QsoStore) (n : Nat) : List QsoRecord :=
  ((s.core.order.drop (s.core.order.length - n)).filterMap fun id =>
    alookup s.core.records id)

/-- Returns all records for a normalized callsign in insertion order
(`QsoStore::by_call`). -/
def QsoStore.by_call_records (s : QsoStore) (call_norm : String) :
    List QsoRecord :=
  (bucketRead s.core.by_call call_norm).filterMap fun id =>
    alookup s.core.records id

/-- Returns canonical insertion-order ids (`QsoStore::ordered_ids`). -/
def QsoStore.ordered_ids (s : QsoStore) : List Nat :=
  s.core.order

/-- Latest emitted sequence number, or 0 when none
(`QsoStore::latest_op_seq`, via `saturating_sub`). -/
def QsoStore.latest_op_seq (s : QsoStore) : Nat :=
  s.core.next_op_seq - 1

/-- Drains pending emitted ops (`QsoStore::drain_pending_ops`). -/
def QsoStore.drain_pending_ops (s : QsoStore) : List StoredOp × QsoStore :=
  (s.pending_ops, { s with pending_ops := [] })

/-- Serializable store snapshot (`StoreSnapshotV1`). -/
structure StoreSnapshotV1 where
  next_qso_id : Nat
  next_op_seq : Nat
  order : List Nat
  records : List QsoRecord
deriving DecidableEq, Repr

/-- Exports a snapshot (`QsoStore::export_snapshot`). -/
def QsoStore.export_snapshot (s : QsoStore) : StoreSnapshotV1 where
  next_qso_id := s.core.next_qso_id
  next_op_seq := s.core.next_op_seq
  order := s.core.order
  records := s.core.order.filterMap fun id => alookup s.core.records id

/-- One iteration of the `from_snapshot` record loop: install indices, then
store the record. -/
def snapshotStep (c : StoreCore) (rec : QsoRecord) : StoreCore :=
  let c' := insert_indices c rec
  { c' with records := ains c'.records rec.id rec }

/-- Restores store state from a snapshot (`QsoStore::from_snapshot`); the
`pos` map it builds is the derived `posOf`. -/
def QsoStore.from_snapshot (snapshot : StoreSnapshotV1) :
    Except StoreError QsoStore :=
  let c0 : StoreCore := {
    records := []
    by_call := []
    by_contest := []
    order := snapshot.order
    next_qso_id := snapshot.next_qso_id
    next_op_seq := snapshot.next_op_seq }
  let c1 := snapshot.records.foldl snapshotStep c0
  .ok { core := c1, undo := [], redo := [], pending_ops := [] }

/-! ## Command sequences -/

/-- One public mutation command. -/
inductive Cmd where
  | ins (draft : QsoDraft)
  | pat (id : Nat) (patch : QsoPatch)
  | vd (id : Nat)
  | und
  | red
deriving DecidableEq, Repr

/-- Runs one public mutation on the store. -/
def execCmd (s : QsoStore) : Cmd → Except StoreError QsoStore
  | .ins draft => (s.insert draft).map fun r => r.1
  | .pat id patch => (s.patch id patch).map fun r => r.1
  | .vd id => (s.void id).map fun r => r.1
  | .und => (s.undo_step).map fun r => r.1
  | .red => (s.redo_step).map fun r => r.1

/-- Runs a sequence of public mutations, failing if any step fails. -/
def execList (s : QsoStore) : List Cmd → Except StoreError QsoStore
  | [] => .ok s
  | cmd :: rest =>
    match execCmd s cmd with
    | .error e => .error e
    | .ok s' => execList s' rest

/-- Calls `undo` repeatedly until it returns an error; each successful undo
removes one undo-stack entry, so `undo.length` steps reach `NothingToUndo`. -/
def undoAllFuel : Nat → QsoStore → QsoStore
  | 0, s => s
  | n + 1, s =>
    match s.undo_step with
    | .error _ => s
    | .ok (s', _) => undoAllFuel n s'

/-- Undoes everything (`undo()` until `NothingToUndo`). -/
def undoAllStore (s : QsoStore) : QsoStore :=
  undoAllFuel s.undo.length s

/-- Calls `redo` repeatedly until it returns an error. -/
def redoAllFuel : Nat → QsoStore → QsoStore
  | 0, s => s
  | n + 1, s =>
    match s.redo_step with
    | .error _ => s
    | .ok (s', _) => redoAllFuel n s'

/-- Redoes everything (`redo()` until `NothingToRedo`). -/
def redoAllStore (s : QsoStore) : QsoStore :=
  redoAllFuel s.redo.length s

/-! ## Runtime command-handling slice (`src/runtime/handle.rs`)

Only the store-facing behaviour of the writer loop's `Command::Insert` arm is
modelled: event broadcasting has no effect on the store, and the bounded
`try_send` to the persistence worker is modelled by the boolean `queueFull`.
The source's `RuntimeError` has exactly the variants below; in particular it
has no `PersistQueueFull` variant and `handle_command` never calls
`QsoStore::mutation_checkpoint` / `rollback_mutation` (which have no callers
anywhere in the crate). -/

/-- Persistence-layer error (`src/persist/mod.rs`; the sqlite/serde payloads
are irrelevant to the runtime slice and collapse to the message variant). -/
inductive PersistError where
  | message (msg : String)
deriving DecidableEq, Repr

/-- Runtime error type (`src/runtime/handle.rs`). -/
inductive RuntimeError where
  | store (e : StoreError)
  | persist (e : PersistError)
  | channelClosed
deriving DecidableEq, Repr

/-- Queues an op to the persistence worker (`enqueue_persist`);
`queueFull = true` models `try_send` failing on the bounded channel. -/
def enqueue_persist (queueFull : Bool) : Except RuntimeError Unit :=
  if queueFull then
    .error (.persist (.message "persist queue error"))
  else .ok ()

/-- The `Command::Insert` arm of `handle_command`: the store insert runs
first, then the op is handed to the persistence queue (when a sink is
configured).  Returns the store the writer keeps and the reply sent to the
caller. -/
def handle_insert_command (s : QsoStore) (draft : QsoDraft)
    (sinkConfigured queueFull : Bool) :
    QsoStore × Except RuntimeError Nat :=
  match s.insert draft with
  | .error e => (s, .error (.store e))
  | .ok (s', id, _) =>
    if sinkConfigured then
      match enqueue_persist queueFull with
      | .error e => (s', .error e)
      | .ok _ => (s', .ok id)
    else (s', .ok id)

/-- Decidable equality for `Except`, used to evaluate concrete runs. -/
instance instDecEqExcept {ε α : Type} [DecidableEq ε] [DecidableEq α] :
    DecidableEq (Except ε α) := fun a b =>
  match a, b with
  | .ok x, .ok y =>
    if h : x = y then .isTrue (congrArg Except.ok h)
    else .isFalse fun he => h (Except.ok.inj he)
  | .error x, .error y =>
    if h : x = y then .isTrue (congrArg Except.error h)
    else .isFalse fun he => h (Except.error.inj he)
  | .ok _, .error _ => .isFalse fun he => Except.noConfusion he
  | .error _, .ok _ => .isFalse fun he => Except.noConfusion he

/-! ## Concrete fixtures -/

/-- A plain draft fixture. -/
def sampleDraft : QsoDraft where
  contest_instance_id := 1
  callsign_raw := "K1ABC"
  callsign_norm := "K1ABC"
  band := .b20m
  mode := .cw
  freq_hz := 14025000
  ts_ms := 1
  radio_id := 1
  operator_id := 1
  exchange := { bytes := [] }
  flags := { is_void := false, dupe_override := false }

/-- A draft whose flags already carry `is_void = true`. -/
def voidDraft : QsoDraft :=
  { sampleDraft with flags := { is_void := true, dupe_override := false } }

/-- A record fixture with a chosen id. -/
def sampleRecord (id : Nat) : QsoRecord := draftToRecord sampleDraft id

end Qsolog

namespace Qsolog

/-- C3 (evaluation at the failing input): when the persistence queue rejects
the `try_send` after a successful insert on a fresh store, `handle_command`
replies with the generic `Persist(Message(..))` error — the source has no
`PersistQueueFull` variant — and keeps the mutated store: the insert's
record, order entry, undo entry, pending op and advanced counters all remain,
so the rejected mutation is observable (no rollback happens). -/
theorem insert_queue_full_keeps_mutation :
    (handle_insert_command QsoStore.new sampleDraft true true).2
      = .error (.persist (.message "persist queue error"))
    ∧ (handle_insert_command QsoStore.new sampleDraft true true).1.ordered_ids
      = [1]
    ∧ ((handle_insert_command QsoStore.new sampleDraft true true).1.get 1).isSome
      = true
    ∧ (handle_insert_command QsoStore.new sampleDraft true
        true).1.pending_ops.length = 1
    ∧ (handle_insert_command QsoStore.new sampleDraft true true).1.undo.length
      = 1
    ∧ (handle_insert_command QsoStore.new sampleDraft true
        true).1.core.next_qso_id = 2
    ∧ (handle_insert_command QsoStore.new sampleDraft true
        true).1.core.next_op_seq = 2
    ∧ QsoStore.new.core.next_qso_id = 1 := by
  decide

/-- C10: `from_snapshot` performs no validation: it returns `Ok` on every
snapshot, and a snapshot with a duplicated `order`, a record outside `order`
and a stale `next_qso_id` is accepted, producing a store that violates the
documented invariants (duplicate-free order, records ⊆ order,
`next_qso_id > max id`). -/
theorem from_snapshot_accepts_any_snapshot :
    (∀ snapshot : StoreSnapshotV1,
      ∃ s, QsoStore.from_snapshot snapshot = .ok s)
    ∧ (∃ s, QsoStore.from_snapshot
        { next_qso_id := 1, next_op_seq := 1, order := [5, 5],
          records := [sampleRecord 7] } = .ok s
        ∧ ¬ s.core.order.Nodup
        ∧ (s.get 7).isSome = true
        ∧ 7 ∉ s.core.order
        ∧ ¬ s.core.next_qso_id > 7) := by
  constructor
  · intro snapshot
    exact ⟨_, rfl⟩
  · refine ⟨_, rfl, ?_, ?_, ?_, ?_⟩ <;> decide

/-- C2 (counterexample): starting from a fresh store, insert a draft whose
flags carry `is_void = true`, then undo to exhaustion and redo to
exhaustion.  Immediately before the undo the record has `is_void = true`, but
afterwards it has `is_void = false`: the roundtrip does not restore the
record, because an insert's inverse is always `Void{prev_is_void: false}`
regardless of the inserted flags. -/
theorem undo_redo_roundtrip_fails_on_void_draft :
    (execList QsoStore.new [Cmd.ins voidDraft]).map
        (fun s => (s.get 1).map fun r => r.flags.is_void)
      = .ok (some true)
    ∧ (execList QsoStore.new [Cmd.ins voidDraft]).map
        (fun s => ((redoAllStore (undoAllStore s)).get 1).map
          fun r => r.flags.is_void)
      = .ok (some false) := by
  decide

/-! ## Characterizations of the low-level apply functions -/

/-- Saturating increment never exceeds the plain increment. -/
theorem satAdd_one_le (x : Nat) : satAdd x 1 ≤ x + 1 :=
  min_le_left _ _

/-- Bumping from the just-taken sequence is a plain increment. -/
theorem bump_after_take (x : Nat) :
    max (x + 1) (satAdd x 1) = x + 1 := by
  have := satAdd_one_le x
  omega

/-- Insert-or-replace on an absent key appends. -/
theorem ains_of_absent {κ β : Type} [DecidableEq κ]
    (l : List (κ × β)) (k : κ) (v : β) (h : alookup l k = none) :
    ains l k v = l ++ [(k, v)] := by
  simp [ains, h]

/-- A failing `apply_insert_with_seq` means the id was taken. -/
theorem apply_insert_with_seq_error {c : StoreCore} {qso : QsoRecord}
    {seq : Nat} {e : StoreError}
    (h : apply_insert_with_seq c qso seq = .error e) :
    alookup c.records qso.id ≠ none := by
  unfold apply_insert_with_seq at h
  split at h
  · rename_i hg
    intro hnone
    rw [hnone] at hg
    simp at hg
  · exact absurd h (by simp)

/-- What a successful `apply_insert_with_seq` does. -/
theorem apply_insert_with_seq_ok {c : StoreCore} {qso : QsoRecord}
    {seq : Nat} {c' : StoreCore} {st : StoredOp} {inv : Op}
    (h : apply_insert_with_seq c qso seq = .ok (c', st, inv)) :
    alookup c.records qso.id = none
    ∧ st = { seq := seq, ts_ms := nowMs, op := .insert qso }
    ∧ inv = .void qso.id false
    ∧ c'.records = c.records ++ [(qso.id, qso)]
    ∧ c'.order = c.order ++ [qso.id]
    ∧ c'.by_call = bucketPush c.by_call qso.callsign_norm qso.id
    ∧ c'.by_contest = bucketPush c.by_contest qso.contest_instance_id qso.id
    ∧ c'.next_op_seq = max c.next_op_seq (satAdd seq 1)
    ∧ c'.next_qso_id = max c.next_qso_id (satAdd qso.id 1) := by
  unfold apply_insert_with_seq at h
  split at h
  · exact absurd h (by simp)
  · rename_i habs
    have habs' : alookup c.records qso.id = none := by
      cases hx : alookup c.records qso.id
      · rfl
      · rw [hx] at habs; simp at habs
    simp only [Except.ok.injEq, Prod.mk.injEq] at h
    obtain ⟨h1, h2, h3⟩ := h
    refine ⟨habs', h2.symm, h3.symm, ?_⟩
    subst h1
    simp [bump_next_seq_from, insert_indices, ains_of_absent _ _ _ habs']

/-- What a successful `apply_patch_with_seq` does. -/
theorem apply_patch_with_seq_ok {c : StoreCore} {id : Nat} {p : QsoPatch}
    {seq : Nat} {c' : StoreCore} {st : StoredOp} {inv : Op}
    (h : apply_patch_with_seq c id p seq = .ok (c', st, inv)) :
    ∃ rec, alookup c.records id = some rec
    ∧ st = { seq := seq, ts_ms := nowMs,
             op := .patch id p (p.capture_inverse_for rec) }
    ∧ inv = .patch id (p.capture_inverse_for rec) p
    ∧ c'.records = (aupdate c.records id fun _ => p.apply_to rec)
    ∧ c'.order = c.order
    ∧ c'.by_call = (if rec.callsign_norm ≠ (p.apply_to rec).callsign_norm
        then bucketInsertOrdered
          (bucketRemoveId c.by_call rec.callsign_norm id)
          (p.apply_to rec).callsign_norm id c.order
        else c.by_call)
    ∧ c'.by_contest = (if rec.contest_instance_id
          ≠ (p.apply_to rec).contest_instance_id
        then bucketInsertOrdered
          (bucketRemoveId c.by_contest rec.contest_instance_id id)
          (p.apply_to rec).contest_instance_id id c.order
        else c.by_contest)
    ∧ c'.next_op_seq = max c.next_op_seq (satAdd seq 1)
    ∧ c'.next_qso_id = c.next_qso_id := by
  unfold apply_patch_with_seq at h
  cases hrec : alookup c.records id with
  | none => rw [hrec] at h; exact absurd h (by simp)
  | some rec =>
    rw [hrec] at h
    simp only [Except.ok.injEq, Prod.mk.injEq] at h
    obtain ⟨h1, h2, h3⟩ := h
    refine ⟨rec, rfl, h2.symm, h3.symm, ?_⟩
    subst h1
    by_cases hcall : rec.callsign_norm = (p.apply_to rec).callsign_norm <;>
      by_cases hcontest : rec.contest_instance_id
        = (p.apply_to rec).contest_instance_id <;>
      simp [hcall, hcontest, bump_next_seq_from, update_call_index,
        update_contest_index]

/-- What a successful `apply_void_with_seq` does. -/
theorem apply_void_with_seq_ok {c : StoreCore} {id : Nat}
    {prev_is_void : Bool} {seq : Nat} {c' : StoreCore} {st : StoredOp}
    {inv : Op}
    (h : apply_void_with_seq c id prev_is_void seq = .ok (c', st, inv)) :
    ∃ rec, alookup c.records id = some rec
    ∧ st = { seq := seq, ts_ms := nowMs, op := .void id prev_is_void }
    ∧ inv = .void id (!prev_is_void)
    ∧ c'.records = (aupdate c.records id fun _ =>
        { rec with flags := { rec.flags with is_void := !prev_is_void } })
    ∧ c'.order = c.order
    ∧ c'.by_call = c.by_call
    ∧ c'.by_contest = c.by_contest
    ∧ c'.next_op_seq = max c.next_op_seq (satAdd seq 1)
    ∧ c'.next_qso_id = c.next_qso_id := by
  unfold apply_void_with_seq at h
  cases hrec : alookup c.records id with
  | none => rw [hrec] at h; exact absurd h (by simp)
  | some rec =>
    rw [hrec] at h
    simp only [Except.ok.injEq, Prod.mk.injEq] at h
    obtain ⟨h1, h2, h3⟩ := h
    refine ⟨rec, rfl, h2.symm, h3.symm, ?_⟩
    subst h1
    simp [bump_next_seq_from]

/-- Unfolds `apply_insert` to its with-seq form. -/
theorem apply_insert_eq (c : StoreCore) (qso : QsoRecord) :
    apply_insert c qso
      = apply_insert_with_seq { c with next_op_seq := c.next_op_seq + 1 } qso
          c.next_op_seq := rfl

/-- Unfolds `apply_patch` to its with-seq form. -/
theorem apply_patch_eq (c : StoreCore) (id : Nat) (p : QsoPatch) :
    apply_patch c id p
      = apply_patch_with_seq { c with next_op_seq := c.next_op_seq + 1 } id p
          c.next_op_seq := rfl

/-- Unfolds `apply_void` to its with-seq form. -/
theorem apply_void_eq (c : StoreCore) (id : Nat) (b : Bool) :
    apply_void c id b
      = apply_void_with_seq { c with next_op_seq := c.next_op_seq + 1 } id b
          c.next_op_seq := rfl

/-! ## Base invariants: sequence monotonicity and id freshness -/

/-- Ops that may sit on the undo/redo stacks (only patches and voids are ever
pushed; an insert's inverse is a void). -/
def isMutOp : Op → Prop
  | .insert _ => False
  | .patch _ _ _ => True
  | .void _ _ => True

/-- The base store invariant: pending seqs are strictly increasing and below
`next_op_seq`, record ids are below `next_qso_id`, and the history stacks
hold only patch/void ops. -/
structure BaseInv (s : QsoStore) : Prop where
  pendingSorted : s.pending_ops.Pairwise fun a b => a.seq < b.seq
  pendingLt : ∀ op ∈ s.pending_ops, op.seq < s.core.next_op_seq
  idsLt : ∀ e ∈ s.core.records, e.1 < s.core.next_qso_id
  undoMut : ∀ op ∈ s.undo, isMutOp op
  redoMut : ∀ op ∈ s.redo, isMutOp op

/-- The fresh store satisfies the base invariant. -/
theorem baseInv_new : BaseInv QsoStore.new := by
  constructor <;> simp [QsoStore.new]

/-- Membership in an updated association list preserves keys. -/
theorem aupdate_mem_fst {κ β : Type} [DecidableEq κ] {l : List (κ × β)}
    {k : κ} {f : β → β} {e : κ × β} (h : e ∈ aupdate l k f) :
    ∃ e₀ ∈ l, e.1 = e₀.1 := by
  simp only [aupdate, List.mem_map] at h
  obtain ⟨e₀, he₀, heq⟩ := h
  refine ⟨e₀, he₀, ?_⟩
  by_cases hk : e₀.1 = k
  · simp only [hk, if_true] at heq
    rw [← heq, hk]
  · simp only [hk, if_false] at heq
    rw [← heq]

/-- A key above every key of the list is absent. -/
theorem alookup_none_of_lt {β : Type} {l : List (Nat × β)} {k : Nat}
    (h : ∀ e ∈ l, e.1 < k) : alookup l k = none := by
  induction l with
  | nil => rfl
  | cons e rest ih =>
    have hk : e.1 ≠ k := Nat.ne_of_lt (h e (by simp))
    simp only [alookup, hk, if_false]
    exact ih fun e' he' => h e' (by simp [he'])

/-- Shape of a successful public insert. -/
theorem insert_shape {s : QsoStore} {draft : QsoDraft} {s' : QsoStore}
    {id : Nat} {st : StoredOp}
    (h : s.insert draft = .ok (s', id, st)) :
    ∃ c' inv,
      apply_insert_with_seq
        { s.core with next_qso_id := s.core.next_qso_id + 1,
                      next_op_seq := s.core.next_op_seq + 1 }
        (draftToRecord draft s.core.next_qso_id) s.core.next_op_seq
        = .ok (c', st, inv)
      ∧ id = s.core.next_qso_id
      ∧ s' = { core := c', undo := inv :: s.undo, redo := [],
               pending_ops := s.pending_ops ++ [st] } := by
  unfold QsoStore.insert at h
  simp only [apply_insert_eq] at h
  cases happ : apply_insert_with_seq
      { s.core with next_qso_id := s.core.next_qso_id + 1,
                    next_op_seq := s.core.next_op_seq + 1 }
      (draftToRecord draft s.core.next_qso_id) s.core.next_op_seq with
  | error e => rw [happ] at h; exact absurd h (by simp)
  | ok out =>
    obtain ⟨c', st0, inv⟩ := out
    rw [happ] at h
    simp only [Except.ok.injEq, Prod.mk.injEq] at h
    obtain ⟨hs', hid, hst⟩ := h
    subst hst
    exact ⟨c', inv, rfl, hid.symm, hs'.symm⟩

/-- Shape of a successful public patch. -/
theorem patch_shape {s : QsoStore} {id : Nat} {p : QsoPatch} {s' : QsoStore}
    {st : StoredOp}
    (h : s.patch id p = .ok (s', st)) :
    ∃ c' inv,
      apply_patch_with_seq { s.core with next_op_seq := s.core.next_op_seq + 1 }
        id p s.core.next_op_seq = .ok (c', st, inv)
      ∧ s' = { core := c', undo := inv :: s.undo, redo := [],
               pending_ops := s.pending_ops ++ [st] } := by
  unfold QsoStore.patch at h
  simp only [apply_patch_eq] at h
  cases happ : apply_patch_with_seq
      { s.core with next_op_seq := s.core.next_op_seq + 1 } id p
      s.core.next_op_seq with
  | error e => rw [happ] at h; exact absurd h (by simp)
  | ok out =>
    obtain ⟨c', st0, inv⟩ := out
    rw [happ] at h
    simp only [Except.ok.injEq, Prod.mk.injEq] at h
    obtain ⟨hs', hst⟩ := h
    subst hst
    exact ⟨c', inv, rfl, hs'.symm⟩

/-- Shape of a successful public void. -/
theorem void_shape {s : QsoStore} {id : Nat} {s' : QsoStore} {st : StoredOp}
    (h : s.void id = .ok (s', st)) :
    ∃ rec c' inv, alookup s.core.records id = some rec
      ∧ apply_void_with_seq { s.core with next_op_seq := s.core.next_op_seq + 1 }
          id rec.flags.is_void s.core.next_op_seq = .ok (c', st, inv)
      ∧ s' = { core := c', undo := inv :: s.undo, redo := [],
               pending_ops := s.pending_ops ++ [st] } := by
  unfold QsoStore.void at h
  cases hrec : alookup s.core.records id with
  | none => rw [hrec] at h; exact absurd h (by simp)
  | some rec =>
    rw [hrec] at h
    simp only [apply_void_eq] at h
    cases happ : apply_void_with_seq
        { s.core with next_op_seq := s.core.next_op_seq + 1 } id
        rec.flags.is_void s.core.next_op_seq with
    | error e => rw [happ] at h; exact absurd h (by simp)
    | ok out =>
      obtain ⟨c', st0, inv⟩ := out
      rw [happ] at h
      simp only [Except.ok.injEq, Prod.mk.injEq] at h
      obtain ⟨hs', hst⟩ := h
      subst hst
      exact ⟨rec, c', inv, rfl, happ, hs'.symm⟩

/-- Shape of a successful undo step. -/
theorem undo_step_shape {s : QsoStore} {s' : QsoStore} {st : StoredOp}
    (h : s.undo_step = .ok (s', st)) :
    ∃ op rest c' inv, s.undo = op :: rest
      ∧ apply_op s.core op = .ok (c', st, inv)
      ∧ s' = { core := c', undo := rest, redo := inv :: s.redo,
               pending_ops := s.pending_ops ++ [st] } := by
  unfold QsoStore.undo_step at h
  cases hu : s.undo with
  | nil => rw [hu] at h; exact absurd h (by simp)
  | cons op rest =>
    rw [hu] at h
    dsimp only at h
    cases happ : apply_op s.core op with
    | error e => rw [happ] at h; exact absurd h (by simp)
    | ok out =>
      obtain ⟨c', st0, inv⟩ := out
      rw [happ] at h
      simp only [Except.ok.injEq, Prod.mk.injEq] at h
      obtain ⟨hs', hst⟩ := h
      subst hst
      exact ⟨op, rest, c', inv, rfl, happ, hs'.symm⟩

/-- Shape of a successful redo step. -/
theorem redo_step_shape {s : QsoStore} {s' : QsoStore} {st : StoredOp}
    (h : s.redo_step = .ok (s', st)) :
    ∃ op rest c' inv, s.redo = op :: rest
      ∧ apply_op s.core op = .ok (c', st, inv)
      ∧ s' = { core := c', undo := inv :: s.undo, redo := rest,
               pending_ops := s.pending_ops ++ [st] } := by
  unfold QsoStore.redo_step at h
  cases hu : s.redo with
  | nil => rw [hu] at h; exact absurd h (by simp)
  | cons op rest =>
    rw [hu] at h
    dsimp only at h
    cases happ : apply_op s.core op with
    | error e => rw [happ] at h; exact absurd h (by simp)
    | ok out =>
      obtain ⟨c', st0, inv⟩ := out
      rw [happ] at h
      simp only [Except.ok.injEq, Prod.mk.injEq] at h
      obtain ⟨hs', hst⟩ := h
      subst hst
      exact ⟨op, rest, c', inv, rfl, happ, hs'.symm⟩

/-- A successful `apply_op` emits the current sequence and increments the
sequence counter by exactly one; it grows `next_qso_id` only for inserts. -/
theorem apply_op_seq_facts {c : StoreCore} {op : Op} {c' : StoreCore}
    {st : StoredOp} {inv : Op}
    (h : apply_op c op = .ok (c', st, inv)) :
    st.seq = c.next_op_seq ∧ c'.next_op_seq = c.next_op_seq + 1 := by
  cases op with
  | insert qso =>
    simp only [apply_op, apply_insert_eq] at h
    obtain ⟨-, hst, -, -, -, -, -, hseq, -⟩ := apply_insert_with_seq_ok h
    subst hst
    exact ⟨rfl, by rw [hseq]; exact bump_after_take _⟩
  | patch id p prev =>
    simp only [apply_op, apply_patch_eq] at h
    obtain ⟨rec, -, hst, -, -, -, -, -, hseq, -⟩ := apply_patch_with_seq_ok h
    subst hst
    exact ⟨rfl, by rw [hseq]; exact bump_after_take _⟩
  | void id b =>
    simp only [apply_op, apply_void_eq] at h
    obtain ⟨rec, -, hst, -, -, -, -, -, hseq, -⟩ := apply_void_with_seq_ok h
    subst hst
    exact ⟨rfl, by rw [hseq]; exact bump_after_take _⟩

/-- A successful `apply_op` of a patch/void op keeps `next_qso_id`, keeps the
record key set, and produces a patch/void inverse. -/
theorem apply_op_mut_facts {c : StoreCore} {op : Op} {c' : StoreCore}
    {st : StoredOp} {inv : Op}
    (h : apply_op c op = .ok (c', st, inv)) (hmut : isMutOp op) :
    c'.next_qso_id = c.next_qso_id
    ∧ (∀ e ∈ c'.records, ∃ e₀ ∈ c.records, e.1 = e₀.1)
    ∧ isMutOp inv := by
  cases op with
  | insert qso => exact absurd hmut id
  | patch id p prev =>
    simp only [apply_op, apply_patch_eq] at h
    obtain ⟨rec, -, -, hinv, hrecs, -, -, -, -, hid⟩ := apply_patch_with_seq_ok h
    subst hinv
    refine ⟨hid, ?_, trivial⟩
    intro e he
    rw [hrecs] at he
    exact aupdate_mem_fst he
  | void id b =>
    simp only [apply_op, apply_void_eq] at h
    obtain ⟨rec, -, -, hinv, hrecs, -, -, -, -, hid⟩ := apply_void_with_seq_ok h
    subst hinv
    refine ⟨hid, ?_, trivial⟩
    intro e he
    rw [hrecs] at he
    exact aupdate_mem_fst he

/-- One successful command appends exactly one pending op carrying the
pre-step sequence, and increments the sequence counter. -/
theorem execCmd_pending_seq {s s' : QsoStore} {cmd : Cmd}
    (h : execCmd s cmd = .ok s') :
    ∃ st, s'.pending_ops = s.pending_ops ++ [st]
      ∧ st.seq = s.core.next_op_seq
      ∧ s'.core.next_op_seq = s.core.next_op_seq + 1 := by
  cases cmd with
  | ins draft =>
    simp only [execCmd] at h
    cases hins : s.insert draft with
    | error e => rw [hins] at h; exact absurd h (by simp [Except.map])
    | ok out =>
      obtain ⟨s1, id, st⟩ := out
      rw [hins] at h
      simp only [Except.map, Except.ok.injEq] at h
      subst h
      obtain ⟨c', inv, happ, -, hs1⟩ := insert_shape hins
      obtain ⟨-, hst, -, -, -, -, -, hseq, -⟩ := apply_insert_with_seq_ok happ
      subst hst hs1
      exact ⟨_, rfl, rfl, by simpa [bump_after_take] using hseq⟩
  | pat id p =>
    simp only [execCmd] at h
    cases hp : s.patch id p with
    | error e => rw [hp] at h; exact absurd h (by simp [Except.map])
    | ok out =>
      obtain ⟨s1, st⟩ := out
      rw [hp] at h
      simp only [Except.map, Except.ok.injEq] at h
      subst h
      obtain ⟨c', inv, happ, hs1⟩ := patch_shape hp
      obtain ⟨rec, -, hst, -, -, -, -, -, hseq, -⟩ := apply_patch_with_seq_ok happ
      subst hst hs1
      exact ⟨_, rfl, rfl, by simpa [bump_after_take] using hseq⟩
  | vd id =>
    simp only [execCmd] at h
    cases hv : s.void id with
    | error e => rw [hv] at h; exact absurd h (by simp [Except.map])
    | ok out =>
      obtain ⟨s1, st⟩ := out
      rw [hv] at h
      simp only [Except.map, Except.ok.injEq] at h
      subst h
      obtain ⟨rec, c', inv, -, happ, hs1⟩ := void_shape hv
      obtain ⟨rec', -, hst, -, -, -, -, -, hseq, -⟩ := apply_void_with_seq_ok happ
      subst hst hs1
      exact ⟨_, rfl, rfl, by simpa [bump_after_take] using hseq⟩
  | und =>
    simp only [execCmd] at h
    cases hv : s.undo_step with
    | error e => rw [hv] at h; exact absurd h (by simp [Except.map])
    | ok out =>
      obtain ⟨s1, st⟩ := out
      rw [hv] at h
      simp only [Except.map, Except.ok.injEq] at h
      subst h
      obtain ⟨op, rest, c', inv, -, happ, hs1⟩ := undo_step_shape hv
      obtain ⟨hstseq, hseq⟩ := apply_op_seq_facts happ
      subst hs1
      exact ⟨st, rfl, hstseq, hseq⟩
  | red =>
    simp only [execCmd] at h
    cases hv : s.redo_step with
    | error e => rw [hv] at h; exact absurd h (by simp [Except.map])
    | ok out =>
      obtain ⟨s1, st⟩ := out
      rw [hv] at h
      simp only [Except.map, Except.ok.injEq] at h
      subst h
      obtain ⟨op, rest, c', inv, -, happ, hs1⟩ := redo_step_shape hv
      obtain ⟨hstseq, hseq⟩ := apply_op_seq_facts happ
      subst hs1
      exact ⟨st, rfl, hstseq, hseq⟩

end Qsolog

namespace Qsolog

/-- One successful command preserves the base invariant. -/
theorem execCmd_baseInv {s s' : QsoStore} {cmd : Cmd}
    (h : execCmd s cmd = .ok s') (hinv : BaseInv s) : BaseInv s' := by
  obtain ⟨st, hpend, hstseq, hnext⟩ := execCmd_pending_seq h
  have hsorted : s'.pending_ops.Pairwise fun a b => a.seq < b.seq := by
    rw [hpend]
    rw [List.pairwise_append]
    refine ⟨hinv.pendingSorted, by simp, ?_⟩
    intro a ha b hb
    simp only [List.mem_singleton] at hb
    subst hb
    rw [hstseq]
    exact hinv.pendingLt a ha
  have hlt : ∀ op ∈ s'.pending_ops, op.seq < s'.core.next_op_seq := by
    rw [hpend, hnext]
    intro op hop
    rcases List.mem_append.1 hop with hop | hop
    · exact Nat.lt_succ_of_lt (hinv.pendingLt op hop)
    · simp only [List.mem_singleton] at hop
      subst hop
      rw [hstseq]
      exact Nat.lt_succ_self _
  cases cmd with
  | ins draft =>
    simp only [execCmd] at h
    cases hins : s.insert draft with
    | error e => rw [hins] at h; exact absurd h (by simp [Except.map])
    | ok out =>
      obtain ⟨s1, id, st0⟩ := out
      rw [hins] at h
      simp only [Except.map, Except.ok.injEq] at h
      subst h
      obtain ⟨c', inv, happ, hid, hs1⟩ := insert_shape hins
      obtain ⟨-, -, hinv', hrecs, -, -, -, -, hqid⟩ :=
        apply_insert_with_seq_ok happ
      subst hs1 hinv'
      refine ⟨hsorted, hlt, ?_, ?_, ?_⟩
      · intro e he
        simp only at he ⊢
        rw [hrecs] at he
        rw [hqid]
        simp only [draftToRecord] at *
        rw [bump_after_take]
        rcases List.mem_append.1 he with he | he
        · exact Nat.lt_succ_of_lt (hinv.idsLt e he)
        · simp only [List.mem_singleton] at he
          subst he
          exact Nat.lt_succ_self _
      · intro op hop
        simp only [List.mem_cons] at hop
        rcases hop with hop | hop
        · subst hop; trivial
        · exact hinv.undoMut op hop
      · intro op hop
        simp at hop
  | pat id p =>
    simp only [execCmd] at h
    cases hp : s.patch id p with
    | error e => rw [hp] at h; exact absurd h (by simp [Except.map])
    | ok out =>
      obtain ⟨s1, st0⟩ := out
      rw [hp] at h
      simp only [Except.map, Except.ok.injEq] at h
      subst h
      obtain ⟨c', inv, happ, hs1⟩ := patch_shape hp
      obtain ⟨rec, -, -, hinv', hrecs, -, -, -, -, hqid⟩ :=
        apply_patch_with_seq_ok happ
      subst hs1 hinv'
      refine ⟨hsorted, hlt, ?_, ?_, ?_⟩
      · intro e he
        simp only at he ⊢
        rw [hrecs] at he
        rw [hqid]
        obtain ⟨e₀, he₀, heq⟩ := aupdate_mem_fst he
        rw [heq]
        exact hinv.idsLt e₀ he₀
      · intro op hop
        simp only [List.mem_cons] at hop
        rcases hop with hop | hop
        · subst hop; trivial
        · exact hinv.undoMut op hop
      · intro op hop
        simp at hop
  | vd id =>
    simp only [execCmd] at h
    cases hv : s.void id with
    | error e => rw [hv] at h; exact absurd h (by simp [Except.map])
    | ok out =>
      obtain ⟨s1, st0⟩ := out
      rw [hv] at h
      simp only [Except.map, Except.ok.injEq] at h
      subst h
      obtain ⟨rec, c', inv, -, happ, hs1⟩ := void_shape hv
      obtain ⟨rec', -, -, hinv', hrecs, -, -, -, -, hqid⟩ :=
        apply_void_with_seq_ok happ
      subst hs1 hinv'
      refine ⟨hsorted, hlt, ?_, ?_, ?_⟩
      · intro e he
        simp only at he ⊢
        rw [hrecs] at he
        rw [hqid]
        obtain ⟨e₀, he₀, heq⟩ := aupdate_mem_fst he
        rw [heq]
        exact hinv.idsLt e₀ he₀
      · intro op hop
        simp only [List.mem_cons] at hop
        rcases hop with hop | hop
        · subst hop; trivial
        · exact hinv.undoMut op hop
      · intro op hop
        simp at hop
  | und =>
    simp only [execCmd] at h
    cases hv : s.undo_step with
    | error e => rw [hv] at h; exact absurd h (by simp [Except.map])
    | ok out =>
      obtain ⟨s1, st0⟩ := out
      rw [hv] at h
      simp only [Except.map, Except.ok.injEq] at h
      subst h
      obtain ⟨op, rest, c', inv, hu, happ, hs1⟩ := undo_step_shape hv
      have hop : isMutOp op := hinv.undoMut op (by rw [hu]; simp)
      obtain ⟨hqid, hkeys, hinvmut⟩ := apply_op_mut_facts happ hop
      subst hs1
      refine ⟨hsorted, hlt, ?_, ?_, ?_⟩
      · intro e he
        simp only at he ⊢
        rw [hqid]
        obtain ⟨e₀, he₀, heq⟩ := hkeys e he
        rw [heq]
        exact hinv.idsLt e₀ he₀
      · intro op' hop'
        have : op' ∈ s.undo := by rw [hu]; simp [hop']
        exact hinv.undoMut op' this
      · intro op' hop'
        simp only [List.mem_cons] at hop'
        rcases hop' with hop' | hop'
        · subst hop'; exact hinvmut
        · exact hinv.redoMut op' hop'
  | red =>
    simp only [execCmd] at h
    cases hv : s.redo_step with
    | error e => rw [hv] at h; exact absurd h (by simp [Except.map])
    | ok out =>
      obtain ⟨s1, st0⟩ := out
      rw [hv] at h
      simp only [Except.map, Except.ok.injEq] at h
      subst h
      obtain ⟨op, rest, c', inv, hu, happ, hs1⟩ := redo_step_shape hv
      have hop : isMutOp op := hinv.redoMut op (by rw [hu]; simp)
      obtain ⟨hqid, hkeys, hinvmut⟩ := apply_op_mut_facts happ hop
      subst hs1
      refine ⟨hsorted, hlt, ?_, ?_, ?_⟩
      · intro e he
        simp only at he ⊢
        rw [hqid]
        obtain ⟨e₀, he₀, heq⟩ := hkeys e he
        rw [heq]
        exact hinv.idsLt e₀ he₀
      · intro op' hop'
        simp only [List.mem_cons] at hop'
        rcases hop' with hop' | hop'
        · subst hop'; exact hinvmut
        · exact hinv.undoMut op' hop'
      · intro op' hop'
        have : op' ∈ s.redo := by rw [hu]; simp [hop']
        exact hinv.redoMut op' this

/-- A successful command sequence preserves the base invariant. -/
theorem execList_baseInv {s s' : QsoStore} {cmds : List Cmd}
    (h : execList s cmds = .ok s') (hinv : BaseInv s) : BaseInv s' := by
  induction cmds generalizing s with
  | nil =>
    simp only [execList, Except.ok.injEq] at h
    subst h
    exact hinv
  | cons cmd rest ih =>
    simp only [execList] at h
    cases hc : execCmd s cmd with
    | error e => rw [hc] at h; exact absurd h (by simp)
    | ok s1 =>
      rw [hc] at h
      exact ih h (execCmd_baseInv hc hinv)

/-- Every store reached from `QsoStore.new` by public mutations satisfies the
base invariant. -/
theorem baseInv_of_execList {cmds : List Cmd} {s : QsoStore}
    (h : execList QsoStore.new cmds = .ok s) : BaseInv s :=
  execList_baseInv h baseInv_new

end Qsolog

namespace Qsolog

/-- C8: along every successful sequence of public mutations (insert, patch,
void, undo, redo) from a fresh store, every emitted `StoredOp` carries a
`seq` strictly greater than every previously emitted one, and after every
emission `next_op_seq` is strictly greater than every emitted `seq` (the
emitted ops, in emission order, are the pending buffer, which this model
never drains). -/
theorem stored_op_seq_strictly_monotone {cmds : List Cmd} {s : QsoStore}
    (h : execList QsoStore.new cmds = .ok s) :
    (s.pending_ops.Pairwise fun a b => a.seq < b.seq)
    ∧ ∀ op ∈ s.pending_ops, op.seq < s.core.next_op_seq := by
  have hinv := baseInv_of_execList h
  exact ⟨hinv.pendingSorted, hinv.pendingLt⟩

/-- A store obtained by running two inserts, a void, an undo and a redo. -/
def seqWitnessStore : QsoStore :=
  match execList QsoStore.new
      [Cmd.ins sampleDraft, Cmd.ins voidDraft, Cmd.vd 1, Cmd.und, Cmd.red] with
  | .ok s => s
  | .error _ => QsoStore.new

/-- Witness for C8 at a concrete five-command run. -/
theorem stored_op_seq_strictly_monotone_witness :
    (execList QsoStore.new
        [Cmd.ins sampleDraft, Cmd.ins voidDraft, Cmd.vd 1, Cmd.und, Cmd.red]
      = .ok seqWitnessStore)
    ∧ ((seqWitnessStore.pending_ops.Pairwise fun a b => a.seq < b.seq)
      ∧ ∀ op ∈ seqWitnessStore.pending_ops,
          op.seq < seqWitnessStore.core.next_op_seq) :=
  ⟨by decide,
    @stored_op_seq_strictly_monotone
      [Cmd.ins sampleDraft, Cmd.ins voidDraft, Cmd.vd 1, Cmd.und, Cmd.red]
      seqWitnessStore (by decide)⟩

/-- C9: on every store reachable from `QsoStore.new` by public mutations,
`insert` never returns an error — the `AlreadyExists` branch is unreachable
because `next_qso_id` exceeds every existing id — and the returned id is the
pre-call `next_qso_id`. -/
theorem insert_on_reachable_never_fails {cmds : List Cmd} {s : QsoStore}
    (h : execList QsoStore.new cmds = .ok s) (draft : QsoDraft) :
    ∃ s' st, s.insert draft = .ok (s', s.core.next_qso_id, st) := by
  have hinv := baseInv_of_execList h
  have hnone : alookup s.core.records s.core.next_qso_id = none :=
    alookup_none_of_lt hinv.idsLt
  unfold QsoStore.insert
  dsimp only
  rw [apply_insert_eq]
  cases happ : apply_insert_with_seq
      { s.core with next_qso_id := s.core.next_qso_id + 1,
                    next_op_seq := s.core.next_op_seq + 1 }
      (draftToRecord draft s.core.next_qso_id) s.core.next_op_seq with
  | error e => exact absurd hnone (apply_insert_with_seq_error happ)
  | ok out =>
    obtain ⟨c', st, inv⟩ := out
    exact ⟨_, _, rfl⟩

/-- A store obtained by an insert and a patch. -/
def insertWitnessStore : QsoStore :=
  match execList QsoStore.new
      [Cmd.ins sampleDraft, Cmd.pat 1 { freq_hz := some 7000000 }] with
  | .ok s => s
  | .error _ => QsoStore.new

/-- Witness for C9 at a concrete reachable store. -/
theorem insert_on_reachable_never_fails_witness :
    (execList QsoStore.new
        [Cmd.ins sampleDraft, Cmd.pat 1 { freq_hz := some 7000000 }]
      = .ok insertWitnessStore)
    ∧ ∃ s' st, insertWitnessStore.insert voidDraft
        = .ok (s', insertWitnessStore.core.next_qso_id, st) :=
  ⟨by decide,
    @insert_on_reachable_never_fails
      [Cmd.ins sampleDraft, Cmd.pat 1 { freq_hz := some 7000000 }]
      insertWitnessStore (by decide) voidDraft⟩

end Qsolog

namespace Qsolog

/-! ## Association-list and bucket lemmas -/

/-- Unfolding lookup at a cons cell. -/
theorem alookup_cons {κ β : Type} [DecidableEq κ] (e : κ × β)
    (l : List (κ × β)) (k : κ) :
    alookup (e :: l) k = if e.1 = k then some e.2 else alookup l k := rfl

/-- Unfolding update at a cons cell. -/
theorem aupdate_cons {κ β : Type} [DecidableEq κ] (e : κ × β)
    (l : List (κ × β)) (k : κ) (f : β → β) :
    aupdate (e :: l) k f
      = (if e.1 = k then (e.1, f e.2) else e) :: aupdate l k f := rfl

/-- Unfolding removal at a cons cell. -/
theorem aremove_cons {κ β : Type} [DecidableEq κ] (e : κ × β)
    (l : List (κ × β)) (k : κ) :
    aremove (e :: l) k
      = if e.1 = k then aremove l k else e :: aremove l k := by
  unfold aremove
  by_cases hk : e.1 = k <;> simp [hk, List.filter]

/-- Lookup distributes over append, first hit wins. -/
theorem alookup_append {κ β : Type} [DecidableEq κ] (l₁ l₂ : List (κ × β))
    (k : κ) :
    alookup (l₁ ++ l₂) k
      = match alookup l₁ k with
        | some v => some v
        | none => alookup l₂ k := by
  induction l₁ with
  | nil => simp [alookup]
  | cons e rest ih =>
    rw [List.cons_append, alookup_cons, alookup_cons]
    by_cases hk : e.1 = k
    · rw [if_pos hk, if_pos hk]
    · rw [if_neg hk, if_neg hk, ih]

/-- Lookup after an in-place update at the same key. -/
theorem alookup_aupdate_self {κ β : Type} [DecidableEq κ]
    (l : List (κ × β)) (k : κ) (f : β → β) :
    alookup (aupdate l k f) k = (alookup l k).map f := by
  induction l with
  | nil => rfl
  | cons e rest ih =>
    rw [aupdate_cons, alookup_cons]
    by_cases hk : e.1 = k
    · rw [if_pos hk, alookup_cons, if_pos hk]
      have hpk : ((e.1, f e.2).1 = k) := hk
      rw [if_pos hpk]
      rfl
    · rw [if_neg hk, alookup_cons, if_neg hk, if_neg hk, ih]

/-- Lookup after an in-place update at another key. -/
theorem alookup_aupdate_ne {κ β : Type} [DecidableEq κ]
    (l : List (κ × β)) (k j : κ) (f : β → β) (h : j ≠ k) :
    alookup (aupdate l k f) j = alookup l j := by
  induction l with
  | nil => rfl
  | cons e rest ih =>
    rw [aupdate_cons, alookup_cons]
    by_cases hk : e.1 = k
    · rw [if_pos hk, alookup_cons]
      by_cases hj : e.1 = j
      · exact absurd (hj.symm.trans hk) h
      · have hpj : ¬ ((e.1, f e.2).1 = j) := hj
        rw [if_neg hpj, if_neg hj, ih]
    · rw [if_neg hk, alookup_cons]
      by_cases hj : e.1 = j
      · rw [if_pos hj, if_pos hj]
      · rw [if_neg hj, if_neg hj, ih]

/-- Updating keeps the key list. -/
theorem map_fst_aupdate {κ β : Type} [DecidableEq κ]
    (l : List (κ × β)) (k : κ) (f : β → β) :
    (aupdate l k f).map Prod.fst = l.map Prod.fst := by
  induction l with
  | nil => rfl
  | cons e rest ih =>
    rw [aupdate_cons, List.map_cons, List.map_cons, ih]
    by_cases hk : e.1 = k
    · rw [if_pos hk]
    · rw [if_neg hk]

/-- A lookup misses exactly the keys outside the key list. -/
theorem alookup_none_iff {κ β : Type} [DecidableEq κ]
    (l : List (κ × β)) (k : κ) :
    alookup l k = none ↔ k ∉ l.map Prod.fst := by
  induction l with
  | nil => simp [alookup]
  | cons e rest ih =>
    rw [alookup_cons, List.map_cons]
    by_cases hk : e.1 = k
    · rw [if_pos hk]
      simp [hk]
    · rw [if_neg hk]
      simp only [List.mem_cons, ih]
      constructor
      · rintro hnot (hc | hc)
        · exact hk hc.symm
        · exact hnot hc
      · intro hnot
        exact fun hc => hnot (Or.inr hc)

/-- A successful lookup is a membership. -/
theorem alookup_mem {κ β : Type} [DecidableEq κ]
    {l : List (κ × β)} {k : κ} {v : β} (h : alookup l k = some v) :
    (k, v) ∈ l := by
  induction l with
  | nil => simp [alookup] at h
  | cons e rest ih =>
    rw [alookup_cons] at h
    by_cases hk : e.1 = k
    · rw [if_pos hk] at h
      obtain rfl := Option.some.inj h
      subst hk
      exact List.mem_cons_self _ _
    · rw [if_neg hk] at h
      exact List.mem_cons_of_mem _ (ih h)

/-- Removing a key removes its lookup. -/
theorem alookup_aremove_self {κ β : Type} [DecidableEq κ]
    (l : List (κ × β)) (k : κ) :
    alookup (aremove l k) k = none := by
  induction l with
  | nil => rfl
  | cons e rest ih =>
    rw [aremove_cons]
    by_cases hk : e.1 = k
    · rw [if_pos hk]; exact ih
    · rw [if_neg hk, alookup_cons, if_neg hk]; exact ih

/-- Removing a key keeps other lookups. -/
theorem alookup_aremove_ne {κ β : Type} [DecidableEq κ]
    (l : List (κ × β)) (k j : κ) (h : j ≠ k) :
    alookup (aremove l k) j = alookup l j := by
  induction l with
  | nil => rfl
  | cons e rest ih =>
    rw [aremove_cons]
    by_cases hk : e.1 = k
    · rw [if_pos hk, alookup_cons]
      have hej : e.1 ≠ j := by rw [hk]; exact fun hc => h hc.symm
      rw [if_neg hej]
      exact ih
    · rw [if_neg hk, alookup_cons, alookup_cons]
      by_cases hj : e.1 = j
      · rw [if_pos hj, if_pos hj]
      · rw [if_neg hj, if_neg hj, ih]

/-- Reading a pushed bucket. -/
theorem bucketRead_bucketPush {κ : Type} [DecidableEq κ]
    (idx : List (κ × List Nat)) (k call : κ) (id : Nat) :
    bucketRead (bucketPush idx k id) call
      = if call = k then bucketRead idx call ++ [id]
        else bucketRead idx call := by
  unfold bucketPush bucketRead
  by_cases hc : call = k
  · subst hc
    rw [if_pos rfl]
    cases hl : alookup idx call with
    | none =>
      rw [if_neg (by simp)]
      rw [alookup_append, hl]
      simp [alookup]
    | some ids =>
      rw [if_pos (by simp)]
      rw [alookup_aupdate_self, hl]
      rfl
  · rw [if_neg hc]
    cases hl : alookup idx k with
    | none =>
      rw [if_neg (by simp)]
      rw [alookup_append]
      cases hcall : alookup idx call with
      | none =>
        dsimp only
        rw [alookup_cons, if_neg fun hkc => hc hkc.symm]
        rfl
      | some ids => rfl
    | some ids =>
      rw [if_pos (by simp)]
      rw [alookup_aupdate_ne _ _ _ _ hc]

/-- Reading the removed-from bucket: the id is filtered out. -/
theorem bucketRead_bucketRemoveId_self {κ : Type} [DecidableEq κ]
    (idx : List (κ × List Nat)) (k : κ) (id : Nat) :
    bucketRead (bucketRemoveId idx k id) k
      = (bucketRead idx k).filter fun v => v ≠ id := by
  unfold bucketRemoveId bucketRead
  cases hl : alookup idx k with
  | none => simp [hl]
  | some ids =>
    dsimp only
    split
    · rename_i hnil
      rw [alookup_aremove_self]
      simpa using hnil.symm
    · rw [alookup_aupdate_self, hl]
      rfl

/-- Reading another bucket after a removal. -/
theorem bucketRead_bucketRemoveId_ne {κ : Type} [DecidableEq κ]
    (idx : List (κ × List Nat)) (k call : κ) (id : Nat) (h : call ≠ k) :
    bucketRead (bucketRemoveId idx k id) call = bucketRead idx call := by
  unfold bucketRemoveId bucketRead
  cases hl : alookup idx k with
  | none => rfl
  | some ids =>
    dsimp only
    split
    · rw [alookup_aremove_ne _ _ _ h]
    · rw [alookup_aupdate_ne _ _ _ _ h]

/-- Reading the inserted-into bucket. -/
theorem bucketRead_bucketInsertOrdered_self {κ : Type} [DecidableEq κ]
    (idx : List (κ × List Nat)) (k : κ) (id : Nat) (order : List Nat) :
    bucketRead (bucketInsertOrdered idx k id order) k
      = insert_id_ordered (bucketRead idx k) id order := by
  unfold bucketInsertOrdered bucketRead
  cases hl : alookup idx k with
  | none =>
    rw [if_neg (by simp)]
    rw [alookup_append, hl]
    dsimp only
    rw [alookup_cons, if_pos rfl]
    rfl
  | some ids =>
    rw [if_pos (by simp)]
    rw [alookup_aupdate_self, hl]
    rfl

/-- Reading another bucket after an ordered insert. -/
theorem bucketRead_bucketInsertOrdered_ne {κ : Type} [DecidableEq κ]
    (idx : List (κ × List Nat)) (k call : κ) (id : Nat) (order : List Nat)
    (h : call ≠ k) :
    bucketRead (bucketInsertOrdered idx k id order) call
      = bucketRead idx call := by
  unfold bucketInsertOrdered bucketRead
  cases hl : alookup idx k with
  | none =>
    rw [if_neg (by simp)]
    rw [alookup_append]
    cases hcall : alookup idx call with
    | none =>
      dsimp only
      rw [alookup_cons, if_neg fun hkc => h hkc.symm]
      rfl
    | some ids => rfl
  | some ids =>
    rw [if_pos (by simp)]
    rw [alookup_aupdate_ne _ _ _ _ h]

end Qsolog

namespace Qsolog

/-! ## The sorted-insert lemma for `insert_id_ordered` -/

/-- Inserting at the length of the left part splices between the parts. -/
theorem insertAt_length_append {α : Type} (l₁ l₂ : List α) (a : α) :
    insertAt l₁.length a (l₁ ++ l₂) = l₁ ++ a :: l₂ := by
  induction l₁ with
  | nil => rfl
  | cons x xs ih =>
    simp only [List.length_cons, List.cons_append, insertAt, List.append_eq]
    rw [ih]

/-- On a duplicate-free `order`, inserting `id` into the filter of `order` by
a predicate that misses `id`, at the sorted position used by
`insert_id_ordered`, yields the filter of `order` by the predicate extended
with `id`. -/
theorem insert_id_ordered_filter (order : List Nat) (hnd : order.Nodup)
    (p : Nat → Bool) (id : Nat) (hid : id ∈ order) (hp : p id = false) :
    insert_id_ordered (order.filter p) id order
      = order.filter fun j => if j = id then true else p j := by
  obtain ⟨l₁, l₂, rfl⟩ := List.append_of_mem hid
  have hsplit := List.nodup_append.mp hnd
  have hid1 : id ∉ l₁ := fun hc => hsplit.2.2 hc (by simp)
  have hid2 : id ∉ l₂ := by
    have := hsplit.2.1
    simp only [List.nodup_cons] at this
    exact this.1
  have hdisj : ∀ e ∈ l₂, e ∉ l₁ := by
    intro e he hc
    exact hsplit.2.2 hc (by simp [he])
  have hfilter : (l₁ ++ id :: l₂).filter p = l₁.filter p ++ l₂.filter p := by
    rw [List.filter_append, List.filter_cons_of_neg (by simp [hp])]
  have hpos_id : posOf (l₁ ++ id :: l₂) id = l₁.length := by
    unfold posOf
    rw [if_pos hid, List.indexOf_append_of_not_mem hid1,
      List.indexOf_cons_self]
    omega
  have hcount : ((l₁ ++ id :: l₂).filter p).countP
      (fun e => posOf (l₁ ++ id :: l₂) e < posOf (l₁ ++ id :: l₂) id)
      = (l₁.filter p).length := by
    rw [hfilter, List.countP_append]
    have hleft : (l₁.filter p).countP
        (fun e => decide (posOf (l₁ ++ id :: l₂) e
          < posOf (l₁ ++ id :: l₂) id)) = (l₁.filter p).length := by
      rw [List.countP_eq_length]
      intro e he
      have he1 : e ∈ l₁ := (List.mem_filter.mp he).1
      have : posOf (l₁ ++ id :: l₂) e < l₁.length := by
        unfold posOf
        rw [if_pos (by simp [he1]), List.indexOf_append_of_mem he1]
        exact List.indexOf_lt_length.mpr he1
      rw [hpos_id]
      simpa using this
    have hright : (l₂.filter p).countP
        (fun e => decide (posOf (l₁ ++ id :: l₂) e
          < posOf (l₁ ++ id :: l₂) id)) = 0 := by
      rw [List.countP_eq_zero]
      intro e he
      have he2 : e ∈ l₂ := (List.mem_filter.mp he).1
      have hne : e ≠ id := fun hc => hid2 (hc ▸ he2)
      have : posOf (l₁ ++ id :: l₂) e = l₁.length + (l₂.indexOf e + 1) := by
        unfold posOf
        rw [if_pos (by simp [he2]),
          List.indexOf_append_of_not_mem (hdisj e he2)]
        congr 1
        rw [List.indexOf_cons_ne _ fun hc => hne hc.symm]
      rw [hpos_id]
      simp [this]
    rw [hleft, hright]
    omega
  unfold insert_id_ordered
  rw [hcount, hfilter, insertAt_length_append]
  have hl1 : l₁.filter (fun j => if j = id then true else p j) = l₁.filter p :=
    List.filter_congr fun a ha => by
      have hne : a ≠ id := fun hc => hid1 (by rw [← hc]; exact ha)
      rw [if_neg hne]
  have hl2 : l₂.filter (fun j => if j = id then true else p j) = l₂.filter p :=
    List.filter_congr fun a ha => by
      have hne : a ≠ id := fun hc => hid2 (by rw [← hc]; exact ha)
      rw [if_neg hne]
  rw [List.filter_append, List.filter_cons_of_pos (by simp), hl1, hl2]

end Qsolog

namespace Qsolog

/-! ## The secondary-index invariant -/

/-- Whether the record stored at `j` currently has normalized callsign
`call`. -/
def callPred (records : List (Nat × QsoRecord)) (call : String) (j : Nat) :
    Bool :=
  match alookup records j with
  | some r => r.callsign_norm == call
  | none => false

/-- Whether the record stored at `j` currently belongs to contest `k`. -/
def contestPred (records : List (Nat × QsoRecord)) (k : Nat) (j : Nat) :
    Bool :=
  match alookup records j with
  | some r => r.contest_instance_id == k
  | none => false

/-- The projection of `order` filtered by current callsign. -/
def callFilter (c : StoreCore) (call : String) : List Nat :=
  c.order.filter (callPred c.records call)

/-- The projection of `order` filtered by current contest. -/
def contestFilter (c : StoreCore) (k : Nat) : List Nat :=
  c.order.filter (contestPred c.records k)

/-- The core store invariant: record keys are `order` in order, `order` is
duplicate-free, stored records carry their key as `id`, and each index bucket
is the corresponding projection of `order`. -/
structure CoreInv (c : StoreCore) : Prop where
  keysOrder : c.records.map Prod.fst = c.order
  orderNodup : c.order.Nodup
  recIds : ∀ e ∈ c.records, e.2.id = e.1
  callIdx : ∀ call, bucketRead c.by_call call = callFilter c call
  contestIdx : ∀ k, bucketRead c.by_contest k = contestFilter c k

/-- Patching never changes the record id. -/
theorem apply_to_id (p : QsoPatch) (r : QsoRecord) :
    (p.apply_to r).id = r.id := rfl

/-- Full description of members of an updated association list. -/
theorem aupdate_mem_full {κ β : Type} [DecidableEq κ] {l : List (κ × β)}
    {k : κ} {f : β → β} {e : κ × β} (h : e ∈ aupdate l k f) :
    ∃ e₀ ∈ l, e = if e₀.1 = k then (e₀.1, f e₀.2) else e₀ := by
  simp only [aupdate, List.mem_map] at h
  obtain ⟨e₀, he₀, heq⟩ := h
  exact ⟨e₀, he₀, heq.symm⟩

/-- The fresh store core satisfies the invariant. -/
theorem coreInv_new : CoreInv QsoStore.new.core := by
  refine ⟨rfl, List.nodup_nil, ?_, fun call => rfl, fun k => rfl⟩
  intro e he
  simp [QsoStore.new] at he

/-- `apply_insert_with_seq` preserves the core invariant. -/
theorem coreInv_insert {c : StoreCore} {qso : QsoRecord} {seq : Nat}
    {c' : StoreCore} {st : StoredOp} {inv : Op}
    (h : apply_insert_with_seq c qso seq = .ok (c', st, inv))
    (hinv : CoreInv c) : CoreInv c' := by
  obtain ⟨habs, -, -, hrecs, horder, hbc, hbct, -, -⟩ :=
    apply_insert_with_seq_ok h
  have hnotin : qso.id ∉ c.order := by
    rw [← hinv.keysOrder]
    exact (alookup_none_iff _ _).mp habs
  have hlook : ∀ j ∈ c.order,
      alookup (c.records ++ [(qso.id, qso)]) j = alookup c.records j := by
    intro j hj
    rw [alookup_append]
    have : j ∈ c.records.map Prod.fst := by rw [hinv.keysOrder]; exact hj
    cases hl : alookup c.records j with
    | none => exact absurd ((alookup_none_iff _ _).mp hl) (by simp [this])
    | some v => rfl
  have hlookNew : alookup (c.records ++ [(qso.id, qso)]) qso.id = some qso := by
    rw [alookup_append, habs, alookup_cons, if_pos rfl]
  constructor
  · rw [hrecs, horder, List.map_append, hinv.keysOrder]
    rfl
  · rw [horder, List.nodup_append]
    refine ⟨hinv.orderNodup, List.nodup_singleton _, ?_⟩
    intro a ha hb
    simp only [List.mem_singleton] at hb
    subst hb
    exact hnotin ha
  · intro e he
    rw [hrecs] at he
    rcases List.mem_append.1 he with he | he
    · exact hinv.recIds e he
    · simp only [List.mem_singleton] at he
      subst he
      rfl
  · intro call
    have hfc : callFilter c' call
        = callFilter c call
          ++ (if call = qso.callsign_norm then [qso.id] else []) := by
      unfold callFilter
      rw [horder, hrecs, List.filter_append]
      have hmain : c.order.filter
            (callPred (c.records ++ [(qso.id, qso)]) call)
          = c.order.filter (callPred c.records call) :=
        List.filter_congr fun j hj => by
          unfold callPred
          rw [hlook j hj]
      rw [hmain]
      by_cases hc : call = qso.callsign_norm
      · rw [if_pos hc]
        have hpt : callPred (c.records ++ [(qso.id, qso)]) call qso.id
            = true := by
          unfold callPred
          rw [hlookNew]
          simp [hc]
        rw [List.filter_cons_of_pos hpt]
        rfl
      · rw [if_neg hc]
        have hpf : callPred (c.records ++ [(qso.id, qso)]) call qso.id
            = false := by
          unfold callPred
          rw [hlookNew]
          simp
          exact fun hcc => hc hcc.symm
        rw [List.filter_cons_of_neg (by simp [hpf])]
        rfl
    rw [hbc, bucketRead_bucketPush, hfc, hinv.callIdx]
    by_cases hc : call = qso.callsign_norm
    · rw [if_pos hc, if_pos hc]
    · rw [if_neg hc, if_neg hc, List.append_nil]
  · intro k
    have hfc : contestFilter c' k
        = contestFilter c k
          ++ (if k = qso.contest_instance_id then [qso.id] else []) := by
      unfold contestFilter
      rw [horder, hrecs, List.filter_append]
      have hmain : c.order.filter
            (contestPred (c.records ++ [(qso.id, qso)]) k)
          = c.order.filter (contestPred c.records k) :=
        List.filter_congr fun j hj => by
          unfold contestPred
          rw [hlook j hj]
      rw [hmain]
      by_cases hc : k = qso.contest_instance_id
      · rw [if_pos hc]
        have hpt : contestPred (c.records ++ [(qso.id, qso)]) k qso.id
            = true := by
          unfold contestPred
          rw [hlookNew]
          simp [hc]
        rw [List.filter_cons_of_pos hpt]
        rfl
      · rw [if_neg hc]
        have hpf : contestPred (c.records ++ [(qso.id, qso)]) k qso.id
            = false := by
          unfold contestPred
          rw [hlookNew]
          simp
          exact fun hcc => hc hcc.symm
        rw [List.filter_cons_of_neg (by simp [hpf])]
        rfl
    rw [hbct, bucketRead_bucketPush, hfc, hinv.contestIdx]
    by_cases hc : k = qso.contest_instance_id
    · rw [if_pos hc, if_pos hc]
    · rw [if_neg hc, if_neg hc, List.append_nil]

end Qsolog

namespace Qsolog

/-- `apply_patch_with_seq` preserves the core invariant. -/
theorem coreInv_patch {c : StoreCore} {id : Nat} {p : QsoPatch} {seq : Nat}
    {c' : StoreCore} {st : StoredOp} {inv : Op}
    (h : apply_patch_with_seq c id p seq = .ok (c', st, inv))
    (hinv : CoreInv c) : CoreInv c' := by
  obtain ⟨rec, hrec, -, -, hrecs, horder, hbc, hbct, -, -⟩ :=
    apply_patch_with_seq_ok h
  have hidord : id ∈ c.order := by
    rw [← hinv.keysOrder]
    have := alookup_mem hrec
    exact List.mem_map.mpr ⟨(id, rec), this, rfl⟩
  have hlookSelf : alookup c'.records id = some (p.apply_to rec) := by
    rw [hrecs, alookup_aupdate_self, hrec]
    rfl
  have hlookNe : ∀ j, j ≠ id → alookup c'.records j = alookup c.records j := by
    intro j hj
    rw [hrecs, alookup_aupdate_ne _ _ _ _ hj]
  refine ⟨?_, ?_, ?_, ?_, ?_⟩
  · rw [hrecs, map_fst_aupdate, hinv.keysOrder, horder]
  · rw [horder]; exact hinv.orderNodup
  · intro e he
    rw [hrecs] at he
    obtain ⟨e₀, he₀, heq⟩ := aupdate_mem_full he
    by_cases hk : e₀.1 = id
    · rw [if_pos hk] at heq
      subst heq
      have : rec.id = id := by
        have hmem := alookup_mem hrec
        exact hinv.recIds (id, rec) hmem
      simp only [apply_to_id, hk]
      rw [this]
    · rw [if_neg hk] at heq
      rw [heq]
      exact hinv.recIds e₀ he₀
  · intro call
    rw [hbc]
    by_cases hch : rec.callsign_norm = (p.apply_to rec).callsign_norm
    · rw [if_neg (by simpa using hch), hinv.callIdx]
      unfold callFilter
      rw [horder]
      refine List.filter_congr fun j hj => ?_
      by_cases hji : j = id
      · subst hji
        simp only [callPred, hlookSelf, hrec]
        rw [hch]
      · simp only [callPred, hlookNe j hji]
    · rw [if_pos (by simpa using hch)]
      have hpredOld_id : callPred c.records call id
          = (rec.callsign_norm == call) := by
        simp only [callPred, hrec]
      have hpredNew_id : callPred c'.records call id
          = ((p.apply_to rec).callsign_norm == call) := by
        simp only [callPred, hlookSelf]
      have hpredNe : ∀ j, j ≠ id →
          callPred c'.records call j = callPred c.records call j := by
        intro j hj
        simp only [callPred, hlookNe j hj]
      by_cases hnew : call = (p.apply_to rec).callsign_norm
      · subst hnew
        rw [bucketRead_bucketInsertOrdered_self,
          bucketRead_bucketRemoveId_ne _ _ _ _ (fun hc => hch hc.symm),
          hinv.callIdx]
        unfold callFilter
        rw [insert_id_ordered_filter c.order hinv.orderNodup _ id hidord
          (by rw [hpredOld_id]; exact beq_eq_false_iff_ne.mpr hch)]
        rw [horder]
        refine List.filter_congr fun j hj => ?_
        by_cases hji : j = id
        · subst hji
          rw [if_pos rfl, hpredNew_id, beq_self_eq_true]
        · rw [if_neg hji, hpredNe j hji]
      · by_cases hold : call = rec.callsign_norm
        · subst hold
          rw [bucketRead_bucketInsertOrdered_ne _ _ _ _ _ hnew,
            bucketRead_bucketRemoveId_self, hinv.callIdx]
          unfold callFilter
          rw [List.filter_filter]
          rw [horder]
          refine List.filter_congr fun j hj => ?_
          by_cases hji : j = id
          · subst hji
            rw [hpredNew_id]
            simp only [decide_not]
            rw [beq_eq_false_iff_ne.mpr fun hc => hnew hc.symm]
            simp
          · rw [hpredNe j hji]
            simp [hji]
        · rw [bucketRead_bucketInsertOrdered_ne _ _ _ _ _ hnew,
            bucketRead_bucketRemoveId_ne _ _ _ _ hold, hinv.callIdx]
          unfold callFilter
          rw [horder]
          refine List.filter_congr fun j hj => ?_
          by_cases hji : j = id
          · subst hji
            rw [hpredNew_id, hpredOld_id,
              beq_eq_false_iff_ne.mpr fun hc => hold hc.symm,
              beq_eq_false_iff_ne.mpr fun hc => hnew hc.symm]
          · rw [hpredNe j hji]
  · intro k
    rw [hbct]
    by_cases hch : rec.contest_instance_id = (p.apply_to rec).contest_instance_id
    · rw [if_neg (by simpa using hch), hinv.contestIdx]
      unfold contestFilter
      rw [horder]
      refine List.filter_congr fun j hj => ?_
      by_cases hji : j = id
      · subst hji
        simp only [contestPred, hlookSelf, hrec]
        rw [hch]
      · simp only [contestPred, hlookNe j hji]
    · rw [if_pos (by simpa using hch)]
      have hpredOld_id : contestPred c.records k id
          = (rec.contest_instance_id == k) := by
        simp only [contestPred, hrec]
      have hpredNew_id : contestPred c'.records k id
          = ((p.apply_to rec).contest_instance_id == k) := by
        simp only [contestPred, hlookSelf]
      have hpredNe : ∀ j, j ≠ id →
          contestPred c'.records k j = contestPred c.records k j := by
        intro j hj
        simp only [contestPred, hlookNe j hj]
      by_cases hnew : k = (p.apply_to rec).contest_instance_id
      · subst hnew
        rw [bucketRead_bucketInsertOrdered_self,
          bucketRead_bucketRemoveId_ne _ _ _ _ (fun hc => hch hc.symm),
          hinv.contestIdx]
        unfold contestFilter
        rw [insert_id_ordered_filter c.order hinv.orderNodup _ id hidord
          (by rw [hpredOld_id]; exact beq_eq_false_iff_ne.mpr hch)]
        rw [horder]
        refine List.filter_congr fun j hj => ?_
        by_cases hji : j = id
        · subst hji
          rw [if_pos rfl, hpredNew_id, beq_self_eq_true]
        · rw [if_neg hji, hpredNe j hji]
      · by_cases hold : k = rec.contest_instance_id
        · subst hold
          rw [bucketRead_bucketInsertOrdered_ne _ _ _ _ _ hnew,
            bucketRead_bucketRemoveId_self, hinv.contestIdx]
          unfold contestFilter
          rw [List.filter_filter]
          rw [horder]
          refine List.filter_congr fun j hj => ?_
          by_cases hji : j = id
          · subst hji
            rw [hpredNew_id]
            simp only [decide_not]
            rw [beq_eq_false_iff_ne.mpr fun hc => hnew hc.symm]
            simp
          · rw [hpredNe j hji]
            simp [hji]
        · rw [bucketRead_bucketInsertOrdered_ne _ _ _ _ _ hnew,
            bucketRead_bucketRemoveId_ne _ _ _ _ hold, hinv.contestIdx]
          unfold contestFilter
          rw [horder]
          refine List.filter_congr fun j hj => ?_
          by_cases hji : j = id
          · subst hji
            rw [hpredNew_id, hpredOld_id,
              beq_eq_false_iff_ne.mpr fun hc => hold hc.symm,
              beq_eq_false_iff_ne.mpr fun hc => hnew hc.symm]
          · rw [hpredNe j hji]

/-- `apply_void_with_seq` preserves the core invariant. -/
theorem coreInv_void {c : StoreCore} {id : Nat} {b : Bool} {seq : Nat}
    {c' : StoreCore} {st : StoredOp} {inv : Op}
    (h : apply_void_with_seq c id b seq = .ok (c', st, inv))
    (hinv : CoreInv c) : CoreInv c' := by
  obtain ⟨rec, hrec, -, -, hrecs, horder, hbc, hbct, -, -⟩ :=
    apply_void_with_seq_ok h
  have hlookSelf : alookup c'.records id
      = some { rec with flags := { rec.flags with is_void := !b } } := by
    rw [hrecs, alookup_aupdate_self, hrec]
    rfl
  have hlookNe : ∀ j, j ≠ id → alookup c'.records j = alookup c.records j := by
    intro j hj
    rw [hrecs, alookup_aupdate_ne _ _ _ _ hj]
  refine ⟨?_, ?_, ?_, ?_, ?_⟩
  · rw [hrecs, map_fst_aupdate, hinv.keysOrder, horder]
  · rw [horder]; exact hinv.orderNodup
  · intro e he
    rw [hrecs] at he
    obtain ⟨e₀, he₀, heq⟩ := aupdate_mem_full he
    by_cases hk : e₀.1 = id
    · rw [if_pos hk] at heq
      subst heq
      have : rec.id = id := hinv.recIds (id, rec) (alookup_mem hrec)
      simpa [hk] using this
    · rw [if_neg hk] at heq
      rw [heq]
      exact hinv.recIds e₀ he₀
  · intro call
    rw [hbc, hinv.callIdx]
    unfold callFilter
    rw [horder]
    refine (List.filter_congr fun j hj => ?_).symm
    by_cases hji : j = id
    · subst hji
      simp only [callPred, hlookSelf, hrec]
    · simp only [callPred, hlookNe j hji]
  · intro k
    rw [hbct, hinv.contestIdx]
    unfold contestFilter
    rw [horder]
    refine (List.filter_congr fun j hj => ?_).symm
    by_cases hji : j = id
    · subst hji
      simp only [contestPred, hlookSelf, hrec]
    · simp only [contestPred, hlookNe j hji]

end Qsolog

namespace Qsolog

/-! ## Snapshot round-trip reconstruction -/

/-- The snapshot fold leaves `order` and the counters alone. -/
theorem snapshotFold_frame (rs : List QsoRecord) (c : StoreCore) :
    (rs.foldl snapshotStep c).order = c.order
    ∧ (rs.foldl snapshotStep c).next_op_seq = c.next_op_seq
    ∧ (rs.foldl snapshotStep c).next_qso_id = c.next_qso_id := by
  induction rs generalizing c with
  | nil => exact ⟨rfl, rfl, rfl⟩
  | cons r rest ih =>
    simp only [List.foldl_cons]
    exact ih (snapshotStep c r)

/-- The snapshot fold appends each record under its id, provided the fed ids
are fresh and pairwise distinct. -/
theorem snapshotFold_records (rs : List QsoRecord) (c : StoreCore)
    (hnd : (rs.map fun r => r.id).Nodup)
    (habs : ∀ r ∈ rs, alookup c.records r.id = none) :
    (rs.foldl snapshotStep c).records
      = c.records ++ rs.map fun r => (r.id, r) := by
  induction rs generalizing c with
  | nil => simp
  | cons r rest ih =>
    simp only [List.foldl_cons, List.map_cons]
    have hstep : (snapshotStep c r).records = c.records ++ [(r.id, r)] := by
      unfold snapshotStep insert_indices
      exact ains_of_absent _ _ _ (habs r (by simp))
    have hnd' : (rest.map fun r => r.id).Nodup := (List.nodup_cons.mp hnd).2
    have habs' : ∀ r' ∈ rest, alookup (snapshotStep c r).records r'.id
        = none := by
      intro r' hr'
      rw [hstep, alookup_append, habs r' (by simp [hr']), alookup_cons]
      rw [if_neg ?_]
      · rfl
      · intro hc
        exact (List.nodup_cons.mp hnd).1
          (List.mem_map.mpr ⟨r', hr', hc.symm⟩)
    rw [ih (snapshotStep c r) hnd' habs', hstep, List.append_assoc]
    rfl

/-- The snapshot fold appends matching ids at the end of each call bucket. -/
theorem snapshotFold_by_call (rs : List QsoRecord) (c : StoreCore)
    (call : String) :
    bucketRead (rs.foldl snapshotStep c).by_call call
      = bucketRead c.by_call call
        ++ (rs.filter fun r => r.callsign_norm == call).map fun r => r.id := by
  induction rs generalizing c with
  | nil => simp
  | cons r rest ih =>
    simp only [List.foldl_cons]
    rw [ih (snapshotStep c r)]
    have hb : bucketRead (snapshotStep c r).by_call call
        = if call = r.callsign_norm then bucketRead c.by_call call ++ [r.id]
          else bucketRead c.by_call call := by
      unfold snapshotStep insert_indices
      exact bucketRead_bucketPush _ _ _ _
    rw [hb]
    by_cases hc : call = r.callsign_norm
    · rw [if_pos hc, List.filter_cons_of_pos (by simp [hc]), List.map_cons,
        List.append_assoc]
      rfl
    · rw [if_neg hc,
        List.filter_cons_of_neg (by simp; exact fun hcc => hc hcc.symm)]

/-- The snapshot fold appends matching ids at the end of each contest
bucket. -/
theorem snapshotFold_by_contest (rs : List QsoRecord) (c : StoreCore)
    (k : Nat) :
    bucketRead (rs.foldl snapshotStep c).by_contest k
      = bucketRead c.by_contest k
        ++ (rs.filter fun r => r.contest_instance_id == k).map
            fun r => r.id := by
  induction rs generalizing c with
  | nil => simp
  | cons r rest ih =>
    simp only [List.foldl_cons]
    rw [ih (snapshotStep c r)]
    have hb : bucketRead (snapshotStep c r).by_contest k
        = if k = r.contest_instance_id then
            bucketRead c.by_contest k ++ [r.id]
          else bucketRead c.by_contest k := by
      unfold snapshotStep insert_indices
      exact bucketRead_bucketPush _ _ _ _
    rw [hb]
    by_cases hc : k = r.contest_instance_id
    · rw [if_pos hc, List.filter_cons_of_pos (by simp [hc]), List.map_cons,
        List.append_assoc]
      rfl
    · rw [if_neg hc,
        List.filter_cons_of_neg (by simp; exact fun hcc => hc hcc.symm)]

/-- Looking every key of a duplicate-free association list back up yields the
stored values in order (the `export_snapshot` record walk). -/
theorem filterMap_alookup_keys (l : List (Nat × QsoRecord))
    (hnd : (l.map Prod.fst).Nodup) :
    (l.map Prod.fst).filterMap (alookup l) = l.map Prod.snd := by
  induction l with
  | nil => rfl
  | cons e rest ih =>
    simp only [List.map_cons] at hnd ⊢
    obtain ⟨hnotin, hnd'⟩ := List.nodup_cons.mp hnd
    rw [List.filterMap_cons]
    have hself : alookup (e :: rest) e.1 = some e.2 := by
      rw [alookup_cons, if_pos rfl]
    rw [hself]
    have hcongr : (rest.map Prod.fst).filterMap (alookup (e :: rest))
        = (rest.map Prod.fst).filterMap (alookup rest) := by
      apply List.filterMap_congr
      intro j hj
      rw [alookup_cons, if_neg ?_]
      intro hc
      exact hnotin (hc ▸ hj)
    rw [hcongr, ih hnd']

/-- Rebuilding a bucket from the record walk equals the live filter. -/
theorem bucket_rebuild_call (l : List (Nat × QsoRecord))
    (hnd : (l.map Prod.fst).Nodup) (hids : ∀ e ∈ l, e.2.id = e.1)
    (call : String) :
    ((l.map Prod.snd).filter fun r => r.callsign_norm == call).map
        (fun r => r.id)
      = (l.map Prod.fst).filter (callPred l call) := by
  induction l with
  | nil => rfl
  | cons e rest ih =>
    simp only [List.map_cons] at hnd ⊢
    obtain ⟨hnotin, hnd'⟩ := List.nodup_cons.mp hnd
    have hids' : ∀ e' ∈ rest, e'.2.id = e'.1 := fun e' he' =>
      hids e' (by simp [he'])
    have hcongr : (rest.map Prod.fst).filter (callPred (e :: rest) call)
        = (rest.map Prod.fst).filter (callPred rest call) := by
      apply List.filter_congr
      intro j hj
      unfold callPred
      rw [alookup_cons, if_neg fun hc => hnotin (by rw [hc]; exact hj)]
    have hpred : callPred (e :: rest) call e.1 = (e.2.callsign_norm == call) := by
      unfold callPred
      rw [alookup_cons, if_pos rfl]
    rw [List.filter_cons, List.filter_cons]
    by_cases hc : e.2.callsign_norm == call
    · rw [if_pos hc, if_pos (by rw [hpred]; exact hc), List.map_cons,
        hcongr, ih hnd' hids', hids e (by simp)]
    · rw [if_neg (by simpa using hc),
        if_neg (by rw [hpred]; simpa using hc),
        hcongr, ih hnd' hids']

/-- Rebuilding a contest bucket from the record walk equals the live
filter. -/
theorem bucket_rebuild_contest (l : List (Nat × QsoRecord))
    (hnd : (l.map Prod.fst).Nodup) (hids : ∀ e ∈ l, e.2.id = e.1)
    (k : Nat) :
    ((l.map Prod.snd).filter fun r => r.contest_instance_id == k).map
        (fun r => r.id)
      = (l.map Prod.fst).filter (contestPred l k) := by
  induction l with
  | nil => rfl
  | cons e rest ih =>
    simp only [List.map_cons] at hnd ⊢
    obtain ⟨hnotin, hnd'⟩ := List.nodup_cons.mp hnd
    have hids' : ∀ e' ∈ rest, e'.2.id = e'.1 := fun e' he' =>
      hids e' (by simp [he'])
    have hcongr : (rest.map Prod.fst).filter (contestPred (e :: rest) k)
        = (rest.map Prod.fst).filter (contestPred rest k) := by
      apply List.filter_congr
      intro j hj
      unfold contestPred
      rw [alookup_cons, if_neg fun hc => hnotin (by rw [hc]; exact hj)]
    have hpred : contestPred (e :: rest) k e.1
        = (e.2.contest_instance_id == k) := by
      unfold contestPred
      rw [alookup_cons, if_pos rfl]
    rw [List.filter_cons, List.filter_cons]
    by_cases hc : e.2.contest_instance_id == k
    · rw [if_pos hc, if_pos (by rw [hpred]; exact hc), List.map_cons,
        hcongr, ih hnd' hids', hids e (by simp)]
    · rw [if_neg (by simpa using hc),
        if_neg (by rw [hpred]; simpa using hc),
        hcongr, ih hnd' hids']

end Qsolog

namespace Qsolog

/-- Mapping the pair-eta function is the identity. -/
theorem map_pair_eta {κ β : Type} (l : List (κ × β)) :
    (l.map fun e => (e.1, e.2)) = l := by
  induction l with
  | nil => rfl
  | cons e rest ih => simp [ih]

/-- What `from_snapshot ∘ export_snapshot` produces on an invariant-holding
store: the same records, order, bucket reads and counters, with cleared
history and pending buffer. -/
theorem from_snapshot_export_char {s t : QsoStore} (hinv : CoreInv s.core)
    (h : QsoStore.from_snapshot s.export_snapshot = .ok t) :
    t.core.records = s.core.records
    ∧ t.core.order = s.core.order
    ∧ (∀ call, bucketRead t.core.by_call call = bucketRead s.core.by_call call)
    ∧ (∀ k, bucketRead t.core.by_contest k = bucketRead s.core.by_contest k)
    ∧ t.core.next_op_seq = s.core.next_op_seq
    ∧ t.core.next_qso_id = s.core.next_qso_id
    ∧ t.undo = [] ∧ t.redo = [] ∧ t.pending_ops = [] := by
  have hkeysnd : (s.core.records.map Prod.fst).Nodup := by
    rw [hinv.keysOrder]; exact hinv.orderNodup
  have hrs : s.export_snapshot.records = s.core.records.map Prod.snd := by
    unfold QsoStore.export_snapshot
    dsimp only
    rw [← hinv.keysOrder]
    exact filterMap_alookup_keys _ hkeysnd
  have hidmap : (s.export_snapshot.records.map fun r => r.id)
      = s.core.records.map Prod.fst := by
    rw [hrs, List.map_map]
    exact List.map_congr_left fun e he => hinv.recIds e he
  simp only [QsoStore.from_snapshot, Except.ok.injEq] at h
  subst h
  have hfr := snapshotFold_frame s.export_snapshot.records
    { records := [], by_call := [], by_contest := [],
      order := s.export_snapshot.order,
      next_qso_id := s.export_snapshot.next_qso_id,
      next_op_seq := s.export_snapshot.next_op_seq }
  have hrecs := snapshotFold_records s.export_snapshot.records
    { records := [], by_call := [], by_contest := [],
      order := s.export_snapshot.order,
      next_qso_id := s.export_snapshot.next_qso_id,
      next_op_seq := s.export_snapshot.next_op_seq }
    (by rw [hidmap]; exact hkeysnd) (fun r _ => rfl)
  refine ⟨?_, ?_, ?_, ?_, ?_, ?_, rfl, rfl, rfl⟩
  · rw [hrecs]
    rw [List.nil_append, hrs, List.map_map]
    have : (s.core.records.map fun e => ((e.2.id, e.2) : Nat × QsoRecord))
        = s.core.records.map fun e => (e.1, e.2) :=
      List.map_congr_left fun e he => by rw [hinv.recIds e he]
    rw [show ((fun r => (r.id, r)) ∘ Prod.snd)
        = fun e : Nat × QsoRecord => (e.2.id, e.2) from rfl, this,
      map_pair_eta]
  · rw [hfr.1]
    rfl
  · intro call
    rw [snapshotFold_by_call, hrs, bucket_rebuild_call _ hkeysnd hinv.recIds,
      hinv.keysOrder, hinv.callIdx]
    rfl
  · intro k
    rw [snapshotFold_by_contest, hrs,
      bucket_rebuild_contest _ hkeysnd hinv.recIds,
      hinv.keysOrder, hinv.contestIdx]
    rfl
  · rw [hfr.2.1]
    rfl
  · rw [hfr.2.2]
    rfl

/-- `from_snapshot ∘ export_snapshot` preserves the core invariant. -/
theorem coreInv_snapshot {s t : QsoStore} (hinv : CoreInv s.core)
    (h : QsoStore.from_snapshot s.export_snapshot = .ok t) :
    CoreInv t.core := by
  obtain ⟨hrecs, horder, hbc, hbct, -, -, -, -, -⟩ :=
    from_snapshot_export_char hinv h
  refine ⟨?_, ?_, ?_, ?_, ?_⟩
  · rw [hrecs, horder]; exact hinv.keysOrder
  · rw [horder]; exact hinv.orderNodup
  · intro e he; rw [hrecs] at he; exact hinv.recIds e he
  · intro call
    rw [hbc, hinv.callIdx]
    unfold callFilter
    rw [horder, hrecs]
  · intro k
    rw [hbct, hinv.contestIdx]
    unfold contestFilter
    rw [horder, hrecs]

/-- `apply_op` preserves the core invariant. -/
theorem coreInv_apply_op {c : StoreCore} {op : Op} {c' : StoreCore}
    {st : StoredOp} {inv : Op} (h : apply_op c op = .ok (c', st, inv))
    (hinv : CoreInv c) : CoreInv c' := by
  cases op with
  | insert qso =>
    simp only [apply_op, apply_insert_eq] at h
    exact coreInv_insert h
      ⟨hinv.keysOrder, hinv.orderNodup, hinv.recIds, hinv.callIdx,
        hinv.contestIdx⟩
  | patch id p prev =>
    simp only [apply_op, apply_patch_eq] at h
    exact coreInv_patch h
      ⟨hinv.keysOrder, hinv.orderNodup, hinv.recIds, hinv.callIdx,
        hinv.contestIdx⟩
  | void id b =>
    simp only [apply_op, apply_void_eq] at h
    exact coreInv_void h
      ⟨hinv.keysOrder, hinv.orderNodup, hinv.recIds, hinv.callIdx,
        hinv.contestIdx⟩

/-- One successful public mutation preserves the core invariant. -/
theorem coreInv_execCmd {s s' : QsoStore} {cmd : Cmd}
    (h : execCmd s cmd = .ok s') (hinv : CoreInv s.core) : CoreInv s'.core := by
  cases cmd with
  | ins draft =>
    simp only [execCmd] at h
    cases hins : s.insert draft with
    | error e => rw [hins] at h; exact absurd h (by simp [Except.map])
    | ok out =>
      obtain ⟨s1, id, st0⟩ := out
      rw [hins] at h
      simp only [Except.map, Except.ok.injEq] at h
      subst h
      obtain ⟨c', inv, happ, -, hs1⟩ := insert_shape hins
      subst hs1
      exact coreInv_insert happ
        ⟨hinv.keysOrder, hinv.orderNodup, hinv.recIds, hinv.callIdx,
          hinv.contestIdx⟩
  | pat id p =>
    simp only [execCmd] at h
    cases hp : s.patch id p with
    | error e => rw [hp] at h; exact absurd h (by simp [Except.map])
    | ok out =>
      obtain ⟨s1, st0⟩ := out
      rw [hp] at h
      simp only [Except.map, Except.ok.injEq] at h
      subst h
      obtain ⟨c', inv, happ, hs1⟩ := patch_shape hp
      subst hs1
      exact coreInv_patch happ
        ⟨hinv.keysOrder, hinv.orderNodup, hinv.recIds, hinv.callIdx,
          hinv.contestIdx⟩
  | vd id =>
    simp only [execCmd] at h
    cases hv : s.void id with
    | error e => rw [hv] at h; exact absurd h (by simp [Except.map])
    | ok out =>
      obtain ⟨s1, st0⟩ := out
      rw [hv] at h
      simp only [Except.map, Except.ok.injEq] at h
      subst h
      obtain ⟨rec, c', inv, -, happ, hs1⟩ := void_shape hv
      subst hs1
      exact coreInv_void happ
        ⟨hinv.keysOrder, hinv.orderNodup, hinv.recIds, hinv.callIdx,
          hinv.contestIdx⟩
  | und =>
    simp only [execCmd] at h
    cases hv : s.undo_step with
    | error e => rw [hv] at h; exact absurd h (by simp [Except.map])
    | ok out =>
      obtain ⟨s1, st0⟩ := out
      rw [hv] at h
      simp only [Except.map, Except.ok.injEq] at h
      subst h
      obtain ⟨op, rest, c', inv, -, happ, hs1⟩ := undo_step_shape hv
      subst hs1
      exact coreInv_apply_op happ hinv
  | red =>
    simp only [execCmd] at h
    cases hv : s.redo_step with
    | error e => rw [hv] at h; exact absurd h (by simp [Except.map])
    | ok out =>
      obtain ⟨s1, st0⟩ := out
      rw [hv] at h
      simp only [Except.map, Except.ok.injEq] at h
      subst h
      obtain ⟨op, rest, c', inv, -, happ, hs1⟩ := redo_step_shape hv
      subst hs1
      exact coreInv_apply_op happ hinv

/-- A successful `apply_replayed_op` preserves the core invariant. -/
theorem coreInv_replay {s s' : QsoStore} {stored : StoredOp}
    (h : s.apply_replayed_op stored = .ok s') (hinv : CoreInv s.core) :
    CoreInv s'.core := by
  unfold QsoStore.apply_replayed_op at h
  dsimp only at h
  cases hop : stored.op with
  | insert qso =>
    rw [hop] at h
    dsimp only at h
    cases happ : apply_insert_with_seq s.core qso stored.seq with
    | error e => rw [happ] at h; exact absurd h (by simp)
    | ok out =>
      obtain ⟨c', st0, inv⟩ := out
      rw [happ] at h
      simp only [Except.ok.injEq] at h
      subst h
      exact coreInv_insert happ hinv
  | patch id p prev =>
    rw [hop] at h
    dsimp only at h
    cases happ : apply_patch_with_seq s.core id p stored.seq with
    | error e => rw [happ] at h; exact absurd h (by simp)
    | ok out =>
      obtain ⟨c', st0, inv⟩ := out
      rw [happ] at h
      simp only [Except.ok.injEq] at h
      subst h
      exact coreInv_patch happ hinv
  | void id b =>
    rw [hop] at h
    dsimp only at h
    cases happ : apply_void_with_seq s.core id b stored.seq with
    | error e => rw [happ] at h; exact absurd h (by simp)
    | ok out =>
      obtain ⟨c', st0, inv⟩ := out
      rw [happ] at h
      simp only [Except.ok.injEq] at h
      subst h
      exact coreInv_void happ hinv

/-- Stores reachable from `QsoStore.new` by public operations: the five
public mutations, journal replay, and a snapshot round trip. -/
inductive Reachable : QsoStore → Prop where
  | base : Reachable QsoStore.new
  | cmd {s s' : QsoStore} (c : Cmd) : Reachable s → execCmd s c = .ok s' →
      Reachable s'
  | replay {s s' : QsoStore} (stored : StoredOp) : Reachable s →
      s.apply_replayed_op stored = .ok s' → Reachable s'
  | snapshot {s s' : QsoStore} : Reachable s →
      QsoStore.from_snapshot s.export_snapshot = .ok s' → Reachable s'

/-- Every reachable store satisfies the core invariant. -/
theorem reachable_coreInv {s : QsoStore} (h : Reachable s) : CoreInv s.core := by
  induction h with
  | base => exact coreInv_new
  | cmd c hr hstep ih => exact coreInv_execCmd hstep ih
  | replay stored hr hstep ih => exact coreInv_replay hstep ih
  | snapshot hr hstep ih => exact coreInv_snapshot ih hstep

end Qsolog

namespace Qsolog

/-- C7: after every public operation (insert, patch, void, undo, redo,
journal replay, snapshot round trip) on a store reachable from
`QsoStore.new`, each secondary-index bucket equals the projection of `order`
filtered by the current field value: for every normalized callsign the
`by_call` bucket is exactly the ids of `order` whose record currently
carries that callsign, in insertion order, and likewise for `by_contest`
and `contest_instance_id`; consequently the `by_call` read returns exactly
those records. -/
theorem secondary_index_projection {s : QsoStore} (h : Reachable s) :
    (∀ call, bucketRead s.core.by_call call = callFilter s.core call)
    ∧ (∀ k, bucketRead s.core.by_contest k = contestFilter s.core k)
    ∧ ∀ call, s.by_call_records call
        = (callFilter s.core call).filterMap fun id =>
            alookup s.core.records id := by
  have hinv := reachable_coreInv h
  refine ⟨hinv.callIdx, hinv.contestIdx, fun call => ?_⟩
  unfold QsoStore.by_call_records
  rw [hinv.callIdx]

/-- Runs one command, keeping the store on error (for concrete witnesses). -/
def stepOr (s : QsoStore) (c : Cmd) : QsoStore :=
  match execCmd s c with
  | .ok s' => s'
  | .error _ => s

/-- Intermediate stores of the C7 witness run. -/
def idxW1 : QsoStore := stepOr QsoStore.new (Cmd.ins sampleDraft)

/-- Second step of the C7 witness run. -/
def idxW2 : QsoStore := stepOr idxW1 (Cmd.ins voidDraft)

/-- The callsign patch used by the C7 witness run. -/
def idxPatch : QsoPatch :=
  { callsign_raw := some "W9XYZ", callsign_norm := some "W9XYZ" }

/-- Third step of the C7 witness run. -/
def idxW3 : QsoStore := stepOr idxW2 (Cmd.pat 1 idxPatch)

/-- Fourth step of the C7 witness run. -/
def idxW4 : QsoStore := stepOr idxW3 (Cmd.vd 2)

/-- Fifth step of the C7 witness run. -/
def idxW5 : QsoStore := stepOr idxW4 Cmd.und

/-- The C7 witness store: two inserts, a callsign patch, a void, an undo and
a redo. -/
def idxWitnessStore : QsoStore := stepOr idxW5 Cmd.red

/-- The witness store is reachable. -/
theorem idxWitnessStore_reachable : Reachable idxWitnessStore := by
  have r1 := Reachable.cmd _ Reachable.base
    (show execCmd QsoStore.new (Cmd.ins sampleDraft) = .ok idxW1 by decide)
  have r2 := Reachable.cmd _ r1
    (show execCmd idxW1 (Cmd.ins voidDraft) = .ok idxW2 by decide)
  have r3 := Reachable.cmd _ r2
    (show execCmd idxW2 (Cmd.pat 1 idxPatch) = .ok idxW3 by decide)
  have r4 := Reachable.cmd _ r3
    (show execCmd idxW3 (Cmd.vd 2) = .ok idxW4 by decide)
  have r5 := Reachable.cmd _ r4
    (show execCmd idxW4 Cmd.und = .ok idxW5 by decide)
  exact Reachable.cmd _ r5
    (show execCmd idxW5 Cmd.red = .ok idxWitnessStore by decide)

/-- Witness for C7 at a concrete reachable store. -/
theorem secondary_index_projection_witness :
    ((∀ call, bucketRead idxWitnessStore.core.by_call call
        = callFilter idxWitnessStore.core call)
    ∧ (∀ k, bucketRead idxWitnessStore.core.by_contest k
        = contestFilter idxWitnessStore.core k)
    ∧ ∀ call, idxWitnessStore.by_call_records call
        = (callFilter idxWitnessStore.core call).filterMap fun id =>
            alookup idxWitnessStore.core.records id) :=
  secondary_index_projection idxWitnessStore_reachable

end Qsolog

namespace Qsolog

/-- C5: for every reachable store, `from_snapshot (export_snapshot s)`
returns `Ok` with a store observationally equal to `s` on every read
operation (`get`, `recent`, `by_call`, `ordered_ids`, `latest_op_seq`); in
particular the secondary indices rebuilt on load match the live ones
bucket-for-bucket, element-for-element and in the same order. -/
theorem snapshot_roundtrip_observational {s : QsoStore} (h : Reachable s) :
    ∃ t, QsoStore.from_snapshot s.export_snapshot = .ok t
    ∧ (∀ id, t.get id = s.get id)
    ∧ (∀ n, t.recent n = s.recent n)
    ∧ (∀ call, t.by_call_records call = s.by_call_records call)
    ∧ t.ordered_ids = s.ordered_ids
    ∧ t.latest_op_seq = s.latest_op_seq
    ∧ (∀ call, bucketRead t.core.by_call call = bucketRead s.core.by_call call)
    ∧ ∀ k, bucketRead t.core.by_contest k = bucketRead s.core.by_contest k := by
  have hinv := reachable_coreInv h
  refine ⟨_, rfl, ?_⟩
  obtain ⟨hrecs, horder, hbc, hbct, hseq, -, -, -, -⟩ :=
    from_snapshot_export_char hinv rfl
  refine ⟨?_, ?_, ?_, ?_, ?_, hbc, hbct⟩
  · intro id
    unfold QsoStore.get
    rw [hrecs]
  · intro n
    unfold QsoStore.recent
    rw [hrecs, horder]
  · intro call
    unfold QsoStore.by_call_records
    rw [hrecs, hbc]
  · unfold QsoStore.ordered_ids
    rw [horder]
  · unfold QsoStore.latest_op_seq
    rw [hseq]

/-- First step of the C5 witness run. -/
def snapW1 : QsoStore := stepOr QsoStore.new (Cmd.ins sampleDraft)

/-- The C5 witness store: an insert followed by a callsign patch. -/
def snapWitnessStore : QsoStore := stepOr snapW1 (Cmd.pat 1 idxPatch)

/-- The C5 witness store is reachable. -/
theorem snapWitnessStore_reachable : Reachable snapWitnessStore := by
  have r1 := Reachable.cmd _ Reachable.base
    (show execCmd QsoStore.new (Cmd.ins sampleDraft) = .ok snapW1 by decide)
  exact Reachable.cmd _ r1
    (show execCmd snapW1 (Cmd.pat 1 idxPatch) = .ok snapWitnessStore by decide)

/-- Witness for C5 at a concrete reachable store. -/
theorem snapshot_roundtrip_observational_witness :
    ∃ t, QsoStore.from_snapshot snapWitnessStore.export_snapshot = .ok t
    ∧ (∀ id, t.get id = snapWitnessStore.get id)
    ∧ (∀ n, t.recent n = snapWitnessStore.recent n)
    ∧ (∀ call, t.by_call_records call = snapWitnessStore.by_call_records call)
    ∧ t.ordered_ids = snapWitnessStore.ordered_ids
    ∧ t.latest_op_seq = snapWitnessStore.latest_op_seq
    ∧ (∀ call, bucketRead t.core.by_call call
        = bucketRead snapWitnessStore.core.by_call call)
    ∧ ∀ k, bucketRead t.core.by_contest k
        = bucketRead snapWitnessStore.core.by_contest k :=
  snapshot_roundtrip_observational snapWitnessStore_reachable

end Qsolog

namespace Qsolog

/-! ## Journal replay equivalence -/

/-- Replays a list of stored ops in order into a store (the recovery loop
that feeds drained pending ops to `QsoStore::apply_replayed_op`). -/
def replayList (s : QsoStore) : List StoredOp → Except StoreError QsoStore
  | [] => .ok s
  | op :: rest =>
    match s.apply_replayed_op op with
    | .error e => .error e
    | .ok s' => replayList s' rest

/-- Two cores with equal fields are equal. -/
theorem StoreCore.ext' {a b : StoreCore} (h1 : a.records = b.records)
    (h2 : a.order = b.order) (h3 : a.by_call = b.by_call)
    (h4 : a.by_contest = b.by_contest) (h5 : a.next_op_seq = b.next_op_seq)
    (h6 : a.next_qso_id = b.next_qso_id) : a = b := by
  cases a; cases b
  simp only at h1 h2 h3 h4 h5 h6
  subst h1 h2 h3 h4 h5 h6
  rfl

/-- `apply_insert_with_seq` succeeds on an absent id. -/
theorem apply_insert_with_seq_isOk {c : StoreCore} {qso : QsoRecord}
    {seq : Nat} (h : alookup c.records qso.id = none) :
    ∃ out, apply_insert_with_seq c qso seq = .ok out := by
  unfold apply_insert_with_seq
  rw [if_neg (by rw [h]; simp)]
  exact ⟨_, rfl⟩

/-- `apply_patch_with_seq` succeeds on a present id. -/
theorem apply_patch_with_seq_isOk {c : StoreCore} {id : Nat} {p : QsoPatch}
    {seq : Nat} {rec : QsoRecord} (h : alookup c.records id = some rec) :
    ∃ out, apply_patch_with_seq c id p seq = .ok out := by
  unfold apply_patch_with_seq
  rw [h]
  exact ⟨_, rfl⟩

/-- `apply_void_with_seq` succeeds on a present id. -/
theorem apply_void_with_seq_isOk {c : StoreCore} {id : Nat} {b : Bool}
    {seq : Nat} {rec : QsoRecord} (h : alookup c.records id = some rec) :
    ∃ out, apply_void_with_seq c id b seq = .ok out := by
  unfold apply_void_with_seq
  rw [h]
  exact ⟨_, rfl⟩

/-- Replaying the StoredOp emitted by a successful patch/void `apply_op`,
starting from an equal core, reproduces the post-mutation core exactly
(sequence counter below saturation). -/
theorem replay_mut_op {O R : QsoStore} {op : Op} {c' : StoreCore}
    {st : StoredOp} {inv : Op}
    (hsim : R.core = O.core)
    (happ : apply_op O.core op = .ok (c', st, inv))
    (hmut : isMutOp op)
    (hseq : O.core.next_op_seq < usizeMax) :
    ∃ R', R.apply_replayed_op st = .ok R' ∧ R'.core = c' := by
  have hsat : satAdd O.core.next_op_seq 1 = O.core.next_op_seq + 1 := by
    unfold satAdd
    omega
  cases op with
  | insert qso => exact absurd hmut id
  | patch pid pp pq =>
    simp only [apply_op, apply_patch_eq] at happ
    obtain ⟨rec, hrec, hstO, -, hOrec, hOord, hObc, hObct, hOseq, hOqid⟩ :=
      apply_patch_with_seq_ok happ
    have hrecR : alookup R.core.records pid = some rec := by
      rw [hsim]; exact hrec
    obtain ⟨out, happR⟩ :=
      @apply_patch_with_seq_isOk R.core pid pp O.core.next_op_seq rec hrecR
    obtain ⟨cR, stR, invR⟩ := out
    obtain ⟨recR, hrecR2, hstR, -, hRrec, hRord, hRbc, hRbct, hRseq, hRqid⟩ :=
      apply_patch_with_seq_ok happR
    rw [hrecR] at hrecR2
    have hrecEq : recR = rec := (Option.some.inj hrecR2).symm
    subst hrecEq
    refine ⟨⟨cR, [], [], R.pending_ops⟩, ?_, ?_⟩
    · unfold QsoStore.apply_replayed_op
      rw [hstO]
      dsimp only
      rw [happR]
    · show cR = c'
      refine StoreCore.ext' ?_ ?_ ?_ ?_ ?_ ?_
      · rw [hRrec, hOrec, hsim]
      · rw [hRord, hOord, hsim]
      · rw [hRbc, hObc, hsim]
      · rw [hRbct, hObct, hsim]
      · rw [hRseq, hOseq, hsim]
        show max O.core.next_op_seq (satAdd O.core.next_op_seq 1)
          = max (O.core.next_op_seq + 1) (satAdd O.core.next_op_seq 1)
        rw [hsat]
        omega
      · rw [hRqid, hOqid, hsim]
  | void vid vb =>
    simp only [apply_op, apply_void_eq] at happ
    obtain ⟨rec, hrec, hstO, -, hOrec, hOord, hObc, hObct, hOseq, hOqid⟩ :=
      apply_void_with_seq_ok happ
    have hrecR : alookup R.core.records vid = some rec := by
      rw [hsim]; exact hrec
    obtain ⟨out, happR⟩ :=
      @apply_void_with_seq_isOk R.core vid vb O.core.next_op_seq rec hrecR
    obtain ⟨cR, stR, invR⟩ := out
    obtain ⟨recR, hrecR2, hstR, -, hRrec, hRord, hRbc, hRbct, hRseq, hRqid⟩ :=
      apply_void_with_seq_ok happR
    rw [hrecR] at hrecR2
    have hrecEq : recR = rec := (Option.some.inj hrecR2).symm
    subst hrecEq
    refine ⟨⟨cR, [], [], R.pending_ops⟩, ?_, ?_⟩
    · unfold QsoStore.apply_replayed_op
      rw [hstO]
      dsimp only
      rw [happR]
    · show cR = c'
      refine StoreCore.ext' ?_ ?_ ?_ ?_ ?_ ?_
      · rw [hRrec, hOrec, hsim]
      · rw [hRord, hOord, hsim]
      · rw [hRbc, hObc, hsim]
      · rw [hRbct, hObct, hsim]
      · rw [hRseq, hOseq, hsim]
        show max O.core.next_op_seq (satAdd O.core.next_op_seq 1)
          = max (O.core.next_op_seq + 1) (satAdd O.core.next_op_seq 1)
        rw [hsat]
        omega
      · rw [hRqid, hOqid, hsim]

end Qsolog

namespace Qsolog

/-- Replay simulation step: each successful command appends one pending op
whose replay, from an equal core, reproduces the post-command core
(counters below saturation; history stacks hold only patch/void ops). -/
theorem replay_sim_step {O O' R : QsoStore} {cmd : Cmd}
    (hsim : R.core = O.core) (h : execCmd O cmd = .ok O')
    (hseq : O.core.next_op_seq < usizeMax)
    (hqid : O.core.next_qso_id < usizeMax)
    (hbase : BaseInv O) :
    ∃ ω R', O'.pending_ops = O.pending_ops ++ [ω]
      ∧ R.apply_replayed_op ω = .ok R' ∧ R'.core = O'.core := by
  have hsat : satAdd O.core.next_op_seq 1 = O.core.next_op_seq + 1 := by
    unfold satAdd
    omega
  cases cmd with
  | ins draft =>
    simp only [execCmd] at h
    cases hins : O.insert draft with
    | error e => rw [hins] at h; exact absurd h (by simp [Except.map])
    | ok out =>
      obtain ⟨s1, id, st0⟩ := out
      rw [hins] at h
      simp only [Except.map, Except.ok.injEq] at h
      subst h
      obtain ⟨c', inv, happO, -, hs1⟩ := insert_shape hins
      obtain ⟨habs, hstO, -, hOrec, hOord, hObc, hObct, hOseq, hOqid⟩ :=
        apply_insert_with_seq_ok happO
      have hsatq : satAdd O.core.next_qso_id 1 = O.core.next_qso_id + 1 := by
        unfold satAdd
        omega
      have habsR :
          alookup R.core.records (draftToRecord draft O.core.next_qso_id).id
            = none := by
        rw [hsim]; exact habs
      obtain ⟨out, happR⟩ := @apply_insert_with_seq_isOk R.core
        (draftToRecord draft O.core.next_qso_id) O.core.next_op_seq habsR
      obtain ⟨cR, stR, invR⟩ := out
      obtain ⟨-, hstR, -, hRrec, hRord, hRbc, hRbct, hRseq, hRqid⟩ :=
        apply_insert_with_seq_ok happR
      refine ⟨st0, ⟨cR, [], [], R.pending_ops⟩, ?_, ?_, ?_⟩
      · rw [hs1]
      · unfold QsoStore.apply_replayed_op
        rw [hstO]
        dsimp only
        rw [happR]
      · rw [hs1]
        show cR = c'
        refine StoreCore.ext' ?_ ?_ ?_ ?_ ?_ ?_
        · rw [hRrec, hOrec, hsim]
        · rw [hRord, hOord, hsim]
        · rw [hRbc, hObc, hsim]
        · rw [hRbct, hObct, hsim]
        · rw [hRseq, hOseq, hsim]
          show max O.core.next_op_seq (satAdd O.core.next_op_seq 1)
            = max (O.core.next_op_seq + 1) (satAdd O.core.next_op_seq 1)
          rw [hsat]
          omega
        · rw [hRqid, hOqid, hsim]
          show max O.core.next_qso_id (satAdd O.core.next_qso_id 1)
            = max (O.core.next_qso_id + 1) (satAdd O.core.next_qso_id 1)
          rw [hsatq]
          omega
  | pat id p =>
    simp only [execCmd] at h
    cases hp : O.patch id p with
    | error e => rw [hp] at h; exact absurd h (by simp [Except.map])
    | ok out =>
      obtain ⟨s1, st0⟩ := out
      rw [hp] at h
      simp only [Except.map, Except.ok.injEq] at h
      subst h
      obtain ⟨c', inv, happO, hs1⟩ := patch_shape hp
      have happ' : apply_op O.core (.patch id p p) = .ok (c', st0, inv) := by
        simp only [apply_op, apply_patch_eq]
        exact happO
      obtain ⟨R', hrep, hcore⟩ := replay_mut_op hsim happ' trivial hseq
      refine ⟨st0, R', ?_, hrep, ?_⟩
      · rw [hs1]
      · rw [hs1, hcore]
  | vd id =>
    simp only [execCmd] at h
    cases hv : O.void id with
    | error e => rw [hv] at h; exact absurd h (by simp [Except.map])
    | ok out =>
      obtain ⟨s1, st0⟩ := out
      rw [hv] at h
      simp only [Except.map, Except.ok.injEq] at h
      subst h
      obtain ⟨rec0, c', inv, hrec0, happO, hs1⟩ := void_shape hv
      have happ' : apply_op O.core (.void id rec0.flags.is_void)
          = .ok (c', st0, inv) := by
        simp only [apply_op, apply_void_eq]
        exact happO
      obtain ⟨R', hrep, hcore⟩ := replay_mut_op hsim happ' trivial hseq
      refine ⟨st0, R', ?_, hrep, ?_⟩
      · rw [hs1]
      · rw [hs1, hcore]
  | und =>
    simp only [execCmd] at h
    cases hv : O.undo_step with
    | error e => rw [hv] at h; exact absurd h (by simp [Except.map])
    | ok out =>
      obtain ⟨s1, st0⟩ := out
      rw [hv] at h
      simp only [Except.map, Except.ok.injEq] at h
      subst h
      obtain ⟨op, rest, c', inv, hu, happO, hs1⟩ := undo_step_shape hv
      have hmut : isMutOp op := hbase.undoMut op (by rw [hu]; simp)
      obtain ⟨R', hrep, hcore⟩ := replay_mut_op hsim happO hmut hseq
      refine ⟨st0, R', ?_, hrep, ?_⟩
      · rw [hs1]
      · rw [hs1, hcore]
  | red =>
    simp only [execCmd] at h
    cases hv : O.redo_step with
    | error e => rw [hv] at h; exact absurd h (by simp [Except.map])
    | ok out =>
      obtain ⟨s1, st0⟩ := out
      rw [hv] at h
      simp only [Except.map, Except.ok.injEq] at h
      subst h
      obtain ⟨op, rest, c', inv, hu, happO, hs1⟩ := redo_step_shape hv
      have hmut : isMutOp op := hbase.redoMut op (by rw [hu]; simp)
      obtain ⟨R', hrep, hcore⟩ := replay_mut_op hsim happO hmut hseq
      refine ⟨st0, R', ?_, hrep, ?_⟩
      · rw [hs1]
      · rw [hs1, hcore]

end Qsolog

namespace Qsolog

/-- A successful command grows `next_qso_id` by at most one (history stacks
hold only patch/void ops). -/
theorem execCmd_nqi {s s' : QsoStore} {cmd : Cmd}
    (h : execCmd s cmd = .ok s') (hbase : BaseInv s) :
    s'.core.next_qso_id ≤ s.core.next_qso_id + 1 := by
  cases cmd with
  | ins draft =>
    simp only [execCmd] at h
    cases hins : s.insert draft with
    | error e => rw [hins] at h; exact absurd h (by simp [Except.map])
    | ok out =>
      obtain ⟨s1, id, st0⟩ := out
      rw [hins] at h
      simp only [Except.map, Except.ok.injEq] at h
      subst h
      obtain ⟨c', inv, happO, -, hs1⟩ := insert_shape hins
      obtain ⟨-, -, -, -, -, -, -, -, hOqid⟩ := apply_insert_with_seq_ok happO
      rw [hs1]
      show c'.next_qso_id ≤ s.core.next_qso_id + 1
      rw [hOqid]
      have := satAdd_one_le (draftToRecord draft s.core.next_qso_id).id
      have hid : (draftToRecord draft s.core.next_qso_id).id
          = s.core.next_qso_id := rfl
      rw [hid] at this
      show max (s.core.next_qso_id + 1) (satAdd s.core.next_qso_id 1)
        ≤ s.core.next_qso_id + 1
      omega
  | pat id p =>
    simp only [execCmd] at h
    cases hp : s.patch id p with
    | error e => rw [hp] at h; exact absurd h (by simp [Except.map])
    | ok out =>
      obtain ⟨s1, st0⟩ := out
      rw [hp] at h
      simp only [Except.map, Except.ok.injEq] at h
      subst h
      obtain ⟨c', inv, happO, hs1⟩ := patch_shape hp
      obtain ⟨rec, -, -, -, -, -, -, -, -, hOqid⟩ :=
        apply_patch_with_seq_ok happO
      rw [hs1]
      show c'.next_qso_id ≤ s.core.next_qso_id + 1
      rw [hOqid]
      show s.core.next_qso_id ≤ s.core.next_qso_id + 1
      omega
  | vd id =>
    simp only [execCmd] at h
    cases hv : s.void id with
    | error e => rw [hv] at h; exact absurd h (by simp [Except.map])
    | ok out =>
      obtain ⟨s1, st0⟩ := out
      rw [hv] at h
      simp only [Except.map, Except.ok.injEq] at h
      subst h
      obtain ⟨rec0, c', inv, -, happO, hs1⟩ := void_shape hv
      obtain ⟨rec, -, -, -, -, -, -, -, -, hOqid⟩ :=
        apply_void_with_seq_ok happO
      rw [hs1]
      show c'.next_qso_id ≤ s.core.next_qso_id + 1
      rw [hOqid]
      show s.core.next_qso_id ≤ s.core.next_qso_id + 1
      omega
  | und =>
    simp only [execCmd] at h
    cases hv : s.undo_step with
    | error e => rw [hv] at h; exact absurd h (by simp [Except.map])
    | ok out =>
      obtain ⟨s1, st0⟩ := out
      rw [hv] at h
      simp only [Except.map, Except.ok.injEq] at h
      subst h
      obtain ⟨op, rest, c', inv, hu, happO, hs1⟩ := undo_step_shape hv
      have hmut : isMutOp op := hbase.undoMut op (by rw [hu]; simp)
      obtain ⟨hqid, -, -⟩ := apply_op_mut_facts happO hmut
      rw [hs1]
      show c'.next_qso_id ≤ s.core.next_qso_id + 1
      omega
  | red =>
    simp only [execCmd] at h
    cases hv : s.redo_step with
    | error e => rw [hv] at h; exact absurd h (by simp [Except.map])
    | ok out =>
      obtain ⟨s1, st0⟩ := out
      rw [hv] at h
      simp only [Except.map, Except.ok.injEq] at h
      subst h
      obtain ⟨op, rest, c', inv, hu, happO, hs1⟩ := redo_step_shape hv
      have hmut : isMutOp op := hbase.redoMut op (by rw [hu]; simp)
      obtain ⟨hqid, -, -⟩ := apply_op_mut_facts happO hmut
      rw [hs1]
      show c'.next_qso_id ≤ s.core.next_qso_id + 1
      omega

/-- Replay simulation over a whole run: the ops a run appends to the pending
buffer, replayed into any store with an equal core, rebuild the final core
exactly. -/
theorem replay_sim_run {cmds : List Cmd} {O s : QsoStore}
    (h : execList O cmds = .ok s) (hbase : BaseInv O)
    (hseqB : O.core.next_op_seq + cmds.length ≤ usizeMax)
    (hqidB : O.core.next_qso_id + cmds.length ≤ usizeMax) :
    ∃ ops, s.pending_ops = O.pending_ops ++ ops
      ∧ ∀ R, R.core = O.core →
          ∃ t, replayList R ops = .ok t ∧ t.core = s.core := by
  induction cmds generalizing O with
  | nil =>
    simp only [execList, Except.ok.injEq] at h
    subst h
    refine ⟨[], (List.append_nil _).symm, ?_⟩
    intro R hR
    exact ⟨R, rfl, hR⟩
  | cons cmd rest ih =>
    simp only [execList] at h
    cases hc : execCmd O cmd with
    | error e => rw [hc] at h; exact absurd h (by simp)
    | ok O₁ =>
      rw [hc] at h
      have hbase₁ : BaseInv O₁ := execCmd_baseInv hc hbase
      obtain ⟨st, hpend₁, hstseq, hseq₁⟩ := execCmd_pending_seq hc
      have hseqLt : O.core.next_op_seq < usizeMax := by
        have : rest.length + 1 = (cmd :: rest).length := rfl
        omega
      have hqidLt : O.core.next_qso_id < usizeMax := by
        have : rest.length + 1 = (cmd :: rest).length := rfl
        omega
      have hnqi := execCmd_nqi hc hbase
      have hseqB₁ : O₁.core.next_op_seq + rest.length ≤ usizeMax := by
        have : rest.length + 1 = (cmd :: rest).length := rfl
        omega
      have hqidB₁ : O₁.core.next_qso_id + rest.length ≤ usizeMax := by
        have : rest.length + 1 = (cmd :: rest).length := rfl
        omega
      obtain ⟨ops₁, hpend, hrep⟩ := ih h hbase₁ hseqB₁ hqidB₁
      refine ⟨st :: ops₁, ?_, ?_⟩
      · rw [hpend, hpend₁, List.append_assoc]
        rfl
      · intro R hR
        obtain ⟨ω, R', hpend', hrepR, hcoreR⟩ :=
          replay_sim_step hR hc hseqLt hqidLt hbase
        have hω : st = ω := by
          rw [hpend₁] at hpend'
          have h2 : [st] = [ω] := List.append_cancel_left hpend'
          exact List.cons.inj h2 |>.1
        obtain ⟨t, hrepT, hcoreT⟩ := hrep R' hcoreR
        refine ⟨t, ?_, hcoreT⟩
        show replayList R (st :: ops₁) = .ok t
        rw [hω]
        simp only [replayList]
        rw [hrepR]
        exact hrepT

end Qsolog

namespace Qsolog

/-- C4: for every sequence of successful public mutations on a fresh store
(of physically realisable length, so the u64 counters stay below
saturation), replaying the emitted StoredOps from the pending buffer, in
emission order, into a fresh store via `apply_replayed_op` succeeds and
yields a store observationally equal to the original on `get`, `recent`,
`by_call`, `ordered_ids` and `latest_op_seq`. -/
theorem replay_observational_equivalence {cmds : List Cmd} {s : QsoStore}
    (h : execList QsoStore.new cmds = .ok s)
    (hlen : cmds.length < usizeMax) :
    ∃ t, replayList QsoStore.new s.pending_ops = .ok t
      ∧ (∀ id, t.get id = s.get id)
      ∧ (∀ n, t.recent n = s.recent n)
      ∧ (∀ call, t.by_call_records call = s.by_call_records call)
      ∧ t.ordered_ids = s.ordered_ids
      ∧ t.latest_op_seq = s.latest_op_seq := by
  have hseqB : QsoStore.new.core.next_op_seq + cmds.length ≤ usizeMax := by
    show 1 + cmds.length ≤ usizeMax
    omega
  have hqidB : QsoStore.new.core.next_qso_id + cmds.length ≤ usizeMax := by
    show 1 + cmds.length ≤ usizeMax
    omega
  obtain ⟨ops, hpend, hrep⟩ := replay_sim_run h baseInv_new hseqB hqidB
  obtain ⟨t, hrepT, hcore⟩ := hrep QsoStore.new rfl
  have hpo : s.pending_ops = ops := hpend
  refine ⟨t, by rw [hpo]; exact hrepT, ?_, ?_, ?_, ?_, ?_⟩
  · intro id
    show alookup t.core.records id = alookup s.core.records id
    rw [hcore]
  · intro n
    show ((t.core.order.drop (t.core.order.length - n)).filterMap fun id =>
        alookup t.core.records id)
      = ((s.core.order.drop (s.core.order.length - n)).filterMap fun id =>
        alookup s.core.records id)
    rw [hcore]
  · intro call
    show ((bucketRead t.core.by_call call).filterMap fun id =>
        alookup t.core.records id)
      = ((bucketRead s.core.by_call call).filterMap fun id =>
        alookup s.core.records id)
    rw [hcore]
  · show t.core.order = s.core.order
    rw [hcore]
  · show t.core.next_op_seq - 1 = s.core.next_op_seq - 1
    rw [hcore]

/-- The command list of the C4 witness run. -/
def replayCmds : List Cmd :=
  [Cmd.ins sampleDraft, Cmd.pat 1 idxPatch, Cmd.ins sampleDraft, Cmd.vd 1]

/-- The store produced by the C4 witness run. -/
def replayWitnessStore : QsoStore :=
  stepOr (stepOr (stepOr (stepOr QsoStore.new (Cmd.ins sampleDraft))
    (Cmd.pat 1 idxPatch)) (Cmd.ins sampleDraft)) (Cmd.vd 1)

/-- Concrete instance of the C4 theorem: a four-command run whose pending ops
replay into a fresh store with equal observations. -/
theorem replay_observational_equivalence_witness :
    (execList QsoStore.new replayCmds = .ok replayWitnessStore
      ∧ replayCmds.length < usizeMax)
    ∧ (∃ t, replayList QsoStore.new replayWitnessStore.pending_ops = .ok t
      ∧ (∀ id, t.get id = replayWitnessStore.get id)
      ∧ (∀ n, t.recent n = replayWitnessStore.recent n)
      ∧ (∀ call, t.by_call_records call = replayWitnessStore.by_call_records
          call)
      ∧ t.ordered_ids = replayWitnessStore.ordered_ids
      ∧ t.latest_op_seq = replayWitnessStore.latest_op_seq) :=
  ⟨⟨by decide, by decide⟩,
    @replay_observational_equivalence replayCmds replayWitnessStore
      (by decide) (by decide)⟩

end Qsolog

namespace Qsolog

/-! ## Undo/redo roundtrip (records-level analysis of the history stacks) -/

/-- Commands of the roundtrip claim: public insert/patch/void, with drafts
that are not pre-voided. -/
def goodCmd : Cmd → Bool
  | .ins draft => !draft.flags.is_void
  | .pat _ _ => true
  | .vd _ => true
  | .und => false
  | .red => false

/-- The records-map effect of applying a patch/void op (the part of
`apply_patch_with_seq` / `apply_void_with_seq` that touches `records`). -/
def mutStep (l : List (Nat × QsoRecord)) : Op → Option (List (Nat × QsoRecord))
  | .patch pid pp _ =>
    match alookup l pid with
    | some rec => some (aupdate l pid fun _ => pp.apply_to rec)
    | none => none
  | .void vid vb =>
    match alookup l vid with
    | some rec => some (aupdate l vid fun _ =>
        { rec with flags := { rec.flags with is_void := !vb } })
    | none => none
  | .insert _ => none

/-- The inverse op `apply_op` emits for a patch/void op at a given records
map. -/
def invOf (l : List (Nat × QsoRecord)) : Op → Op
  | .patch pid pp pq =>
    match alookup l pid with
    | some rec => .patch pid (pp.capture_inverse_for rec) pp
    | none => .patch pid pp pq
  | .void vid vb => .void vid (!vb)
  | .insert qso => .insert qso

/-- Void-op coherence: the op's recorded previous-void flag matches the
record it targets. -/
def OpCoh (l : List (Nat × QsoRecord)) : Op → Prop
  | .void vid vb => ∀ rec, alookup l vid = some rec → rec.flags.is_void = vb
  | _ => True

/-- A history stack is sound for a records map: walking it applies only
coherent patch/void ops, each of which succeeds. -/
def StackOK : List (Nat × QsoRecord) → List Op → Prop
  | _, [] => True
  | l, op :: rest => isMutOp op ∧ OpCoh l op
      ∧ ∃ l', mutStep l op = some l' ∧ StackOK l' rest

/-- Folds `mutStep` over a list of ops. -/
def foldMut : List (Nat × QsoRecord) → List Op →
    Option (List (Nat × QsoRecord))
  | l, [] => some l
  | l, op :: rest =>
    match mutStep l op with
    | some l' => foldMut l' rest
    | none => none

/-- Applying a patch and then its captured inverse restores the record. -/
theorem patch_apply_roundtrip (r : QsoRecord) (p : QsoPatch) :
    (p.capture_inverse_for r).apply_to (p.apply_to r) = r := by
  cases r
  simp [QsoPatch.apply_to, QsoPatch.capture_inverse_for,
    optMapConst_getD_roundtrip]

/-- `aupdate` distributes over append. -/
theorem aupdate_append {κ β : Type} [DecidableEq κ] (l₁ l₂ : List (κ × β))
    (k : κ) (f : β → β) :
    aupdate (l₁ ++ l₂) k f = aupdate l₁ k f ++ aupdate l₂ k f := by
  simp [aupdate]

/-- `aupdate` at an absent key is the identity. -/
theorem aupdate_absent {κ β : Type} [DecidableEq κ] {l : List (κ × β)}
    {k : κ} (f : β → β) (h : alookup l k = none) :
    aupdate l k f = l := by
  induction l with
  | nil => rfl
  | cons e rest ih =>
    rw [alookup_cons] at h
    by_cases he : e.1 = k
    · rw [if_pos he] at h
      exact absurd h (by simp)
    · rw [if_neg he] at h
      rw [aupdate_cons, if_neg he, ih h]

/-- Two updates at the same key compose. -/
theorem aupdate_aupdate {κ β : Type} [DecidableEq κ] (l : List (κ × β))
    (k : κ) (f g : β → β) :
    aupdate (aupdate l k f) k g = aupdate l k fun b => g (f b) := by
  induction l with
  | nil => rfl
  | cons e rest ih =>
    by_cases he : e.1 = k
    · rw [aupdate_cons, if_pos he, aupdate_cons, aupdate_cons]
      rw [if_pos he, if_pos he, ih]
    · rw [aupdate_cons, if_neg he, aupdate_cons, aupdate_cons]
      rw [if_neg he, if_neg he, ih]

/-- Updating a key of a duplicate-free map to the value it already holds is
the identity. -/
theorem aupdate_eq_self {κ β : Type} [DecidableEq κ] {l : List (κ × β)}
    {k : κ} {v : β} (hnd : (l.map Prod.fst).Nodup)
    (h : alookup l k = some v) :
    (aupdate l k fun _ => v) = l := by
  induction l with
  | nil => simp [alookup] at h
  | cons e rest ih =>
    rw [List.map_cons, List.nodup_cons] at hnd
    rw [alookup_cons] at h
    by_cases he : e.1 = k
    · rw [if_pos he] at h
      have hv : v = e.2 := by simpa using h.symm
      have habs : alookup rest k = none := by
        rw [alookup_none_iff]
        rw [he] at hnd
        exact hnd.1
      rw [aupdate_cons, if_pos he, aupdate_absent _ habs, hv]
    · rw [if_neg he] at h
      rw [aupdate_cons, if_neg he, ih hnd.2 h]

/-- `mutStep` keeps the key list. -/
theorem mutStep_map_fst {l l' : List (Nat × QsoRecord)} {op : Op}
    (h : mutStep l op = some l') : l'.map Prod.fst = l.map Prod.fst := by
  cases op with
  | insert qso => exact absurd h (by simp [mutStep])
  | patch pid pp pq =>
    unfold mutStep at h
    dsimp only at h
    cases hrec : alookup l pid with
    | none => rw [hrec] at h; exact absurd h (by simp)
    | some rec =>
      rw [hrec] at h
      simp only [Option.some.injEq] at h
      rw [← h]
      exact map_fst_aupdate l pid _
  | void vid vb =>
    unfold mutStep at h
    dsimp only at h
    cases hrec : alookup l vid with
    | none => rw [hrec] at h; exact absurd h (by simp)
    | some rec =>
      rw [hrec] at h
      simp only [Option.some.injEq] at h
      rw [← h]
      exact map_fst_aupdate l vid _

/-- `foldMut` splits over append. -/
theorem foldMut_append (l : List (Nat × QsoRecord)) (xs ys : List Op) :
    foldMut l (xs ++ ys) = (foldMut l xs).bind fun m => foldMut m ys := by
  induction xs generalizing l with
  | nil => rfl
  | cons x xs ih =>
    simp only [List.cons_append, foldMut]
    cases hx : mutStep l x with
    | none => rfl
    | some m => exact ih m

end Qsolog

namespace Qsolog

/-- Destructures a successful patch `mutStep`. -/
theorem mutStep_patch_eq {l l' : List (Nat × QsoRecord)} {pid : Nat}
    {pp pq : QsoPatch} (h : mutStep l (.patch pid pp pq) = some l') :
    ∃ rec, alookup l pid = some rec
      ∧ l' = aupdate l pid fun _ => pp.apply_to rec := by
  unfold mutStep at h
  dsimp only at h
  cases hrec : alookup l pid with
  | none => rw [hrec] at h; exact absurd h (by simp)
  | some rec =>
    rw [hrec] at h
    simp only [Option.some.injEq] at h
    exact ⟨rec, rfl, h.symm⟩

/-- Destructures a successful void `mutStep`. -/
theorem mutStep_void_eq {l l' : List (Nat × QsoRecord)} {vid : Nat}
    {vb : Bool} (h : mutStep l (.void vid vb) = some l') :
    ∃ rec, alookup l vid = some rec
      ∧ l' = aupdate l vid fun _ =>
          { rec with flags := { rec.flags with is_void := !vb } } := by
  unfold mutStep at h
  dsimp only at h
  cases hrec : alookup l vid with
  | none => rw [hrec] at h; exact absurd h (by simp)
  | some rec =>
    rw [hrec] at h
    simp only [Option.some.injEq] at h
    exact ⟨rec, rfl, h.symm⟩

/-- Applying the emitted inverse right after a patch/void op restores the
records map (coherent void flag; duplicate-free keys). -/
theorem mutStep_invOf {l l' : List (Nat × QsoRecord)} {op : Op}
    (hnd : (l.map Prod.fst).Nodup) (hcoh : OpCoh l op)
    (h : mutStep l op = some l') :
    mutStep l' (invOf l op) = some l := by
  cases op with
  | insert qso => exact absurd h (by simp [mutStep])
  | patch pid pp pq =>
    obtain ⟨rec, hrec, hl'⟩ := mutStep_patch_eq h
    have hiv : invOf l (.patch pid pp pq)
        = .patch pid (pp.capture_inverse_for rec) pp := by
      unfold invOf
      dsimp only
      rw [hrec]
    rw [hiv]
    have hlook : alookup l' pid = some (pp.apply_to rec) := by
      rw [hl', alookup_aupdate_self, hrec]
      rfl
    unfold mutStep
    dsimp only
    rw [hlook]
    dsimp only
    simp only [patch_apply_roundtrip]
    rw [hl', aupdate_aupdate]
    show some (aupdate l pid fun _ => rec) = some l
    rw [aupdate_eq_self hnd hrec]
  | void vid vb =>
    obtain ⟨rec, hrec, hl'⟩ := mutStep_void_eq h
    have hcoh' : rec.flags.is_void = vb := hcoh rec hrec
    have hiv : invOf l (.void vid vb) = .void vid (!vb) := rfl
    rw [hiv]
    have hlook : alookup l' vid
        = some { rec with flags := { rec.flags with is_void := !vb } } := by
      rw [hl', alookup_aupdate_self, hrec]
      rfl
    unfold mutStep
    dsimp only
    rw [hlook]
    dsimp only
    show some (aupdate l' vid fun _ =>
        ({ rec with flags := { rec.flags with is_void := !(!vb) } }
          : QsoRecord)) = some l
    simp only [Bool.not_not]
    simp only [← hcoh']
    show some (aupdate l' vid fun _ => rec) = some l
    rw [hl', aupdate_aupdate]
    show some (aupdate l vid fun _ => rec) = some l
    rw [aupdate_eq_self hnd hrec]

/-- A patch/void step is oblivious to appending a record under a fresh id. -/
theorem mutStep_extend {l l' : List (Nat × QsoRecord)} {op : Op} {nid : Nat}
    {v : QsoRecord} (h : mutStep l op = some l')
    (habs : alookup l nid = none) :
    mutStep (l ++ [(nid, v)]) op = some (l' ++ [(nid, v)]) := by
  cases op with
  | insert qso => exact absurd h (by simp [mutStep])
  | patch pid pp pq =>
    obtain ⟨rec, hrec, hl'⟩ := mutStep_patch_eq h
    have hne : pid ≠ nid := by
      intro e
      rw [e, habs] at hrec
      exact absurd hrec (by simp)
    have hlook : alookup (l ++ [(nid, v)]) pid = some rec := by
      rw [alookup_append, hrec]
    have habs2 : alookup [(nid, v)] pid = none := by
      rw [alookup_cons, if_neg fun hh => hne hh.symm]
      rfl
    unfold mutStep
    dsimp only
    rw [hlook]
    dsimp only
    rw [aupdate_append, aupdate_absent _ habs2, hl']
  | void vid vb =>
    obtain ⟨rec, hrec, hl'⟩ := mutStep_void_eq h
    have hne : vid ≠ nid := by
      intro e
      rw [e, habs] at hrec
      exact absurd hrec (by simp)
    have hlook : alookup (l ++ [(nid, v)]) vid = some rec := by
      rw [alookup_append, hrec]
    have habs2 : alookup [(nid, v)] vid = none := by
      rw [alookup_cons, if_neg fun hh => hne hh.symm]
      rfl
    unfold mutStep
    dsimp only
    rw [hlook]
    dsimp only
    rw [aupdate_append, aupdate_absent _ habs2, hl']

/-- Stack soundness survives appending a record under a fresh id. -/
theorem stackOK_extend {U : List Op} :
    ∀ {l : List (Nat × QsoRecord)} {nid : Nat} {v : QsoRecord},
    StackOK l U → alookup l nid = none → StackOK (l ++ [(nid, v)]) U := by
  induction U with
  | nil =>
    intro l nid v h habs
    trivial
  | cons op rest ih =>
    intro l nid v h habs
    obtain ⟨hm, hcoh, l', hstep, hrest⟩ := h
    have habs' : alookup l' nid = none := by
      rw [alookup_none_iff, mutStep_map_fst hstep, ← alookup_none_iff]
      exact habs
    refine ⟨hm, ?_, l' ++ [(nid, v)], mutStep_extend hstep habs,
      ih hrest habs'⟩
    cases op with
    | insert qso => trivial
    | patch pid pp pq => trivial
    | void vid vb =>
      obtain ⟨rec, hrec, hl'⟩ := mutStep_void_eq hstep
      intro rec2 hrec2
      rw [alookup_append, hrec] at hrec2
      simp only at hrec2
      rw [← Option.some.inj hrec2]
      exact hcoh rec hrec

end Qsolog

namespace Qsolog

/-- A successful records-level step lifts to `apply_op` on any core carrying
those records, leaving `order` unchanged and emitting the canonical
inverse. -/
theorem mutStep_apply_op {c : StoreCore} {op : Op}
    {l' : List (Nat × QsoRecord)} (h : mutStep c.records op = some l') :
    ∃ c' st inv, apply_op c op = .ok (c', st, inv) ∧ c'.records = l'
      ∧ c'.order = c.order ∧ inv = invOf c.records op := by
  cases op with
  | insert qso => exact absurd h (by simp [mutStep])
  | patch pid pp pq =>
    obtain ⟨rec, hrec, hl'⟩ := mutStep_patch_eq h
    simp only [apply_op, apply_patch_eq]
    obtain ⟨out, happ⟩ := @apply_patch_with_seq_isOk
      { c with next_op_seq := c.next_op_seq + 1 } pid pp c.next_op_seq rec hrec
    obtain ⟨c₁, st, inv⟩ := out
    obtain ⟨rec2, hrec2, hst, hinv, hrecs, hord, -, -, -, -⟩ :=
      apply_patch_with_seq_ok happ
    have hrec2' : alookup c.records pid = some rec2 := hrec2
    rw [hrec] at hrec2'
    have heq : rec = rec2 := Option.some.inj hrec2'
    subst heq
    refine ⟨c₁, st, inv, happ, ?_, ?_, ?_⟩
    · rw [hrecs, hl']
    · rw [hord]
    · rw [hinv]
      unfold invOf
      dsimp only
      rw [hrec]
  | void vid vb =>
    obtain ⟨rec, hrec, hl'⟩ := mutStep_void_eq h
    simp only [apply_op, apply_void_eq]
    obtain ⟨out, happ⟩ := @apply_void_with_seq_isOk
      { c with next_op_seq := c.next_op_seq + 1 } vid vb c.next_op_seq rec hrec
    obtain ⟨c₁, st, inv⟩ := out
    obtain ⟨rec2, hrec2, hst, hinv, hrecs, hord, -, -, -, -⟩ :=
      apply_void_with_seq_ok happ
    have hrec2' : alookup c.records vid = some rec2 := hrec2
    rw [hrec] at hrec2'
    have heq : rec = rec2 := Option.some.inj hrec2'
    subst heq
    refine ⟨c₁, st, inv, happ, ?_, ?_, ?_⟩
    · rw [hrecs, hl']
    · rw [hord]
    · rw [hinv]
      rfl

/-- Every successful insert/patch/void command clears the redo stack. -/
theorem execCmd_redo_nil {s s' : QsoStore} {cmd : Cmd}
    (hg : goodCmd cmd = true) (h : execCmd s cmd = .ok s') :
    s'.redo = [] := by
  cases cmd with
  | ins draft =>
    simp only [execCmd] at h
    cases hins : s.insert draft with
    | error e => rw [hins] at h; exact absurd h (by simp [Except.map])
    | ok out =>
      obtain ⟨s1, id, st0⟩ := out
      rw [hins] at h
      simp only [Except.map, Except.ok.injEq] at h
      subst h
      obtain ⟨c', inv, -, -, hs1⟩ := insert_shape hins
      rw [hs1]
  | pat id p =>
    simp only [execCmd] at h
    cases hp : s.patch id p with
    | error e => rw [hp] at h; exact absurd h (by simp [Except.map])
    | ok out =>
      obtain ⟨s1, st0⟩ := out
      rw [hp] at h
      simp only [Except.map, Except.ok.injEq] at h
      subst h
      obtain ⟨c', inv, -, hs1⟩ := patch_shape hp
      rw [hs1]
  | vd id =>
    simp only [execCmd] at h
    cases hv : s.void id with
    | error e => rw [hv] at h; exact absurd h (by simp [Except.map])
    | ok out =>
      obtain ⟨s1, st0⟩ := out
      rw [hv] at h
      simp only [Except.map, Except.ok.injEq] at h
      subst h
      obtain ⟨rec0, c', inv, -, -, hs1⟩ := void_shape hv
      rw [hs1]
  | und => exact absurd hg (by simp [goodCmd])
  | red => exact absurd hg (by simp [goodCmd])

end Qsolog

namespace Qsolog

/-- Pushing a fresh non-void record with its void-inverse keeps the stack
sound. -/
theorem stackOK_insert_push {l : List (Nat × QsoRecord)} {U : List Op}
    {nid : Nat} {v : QsoRecord} (hOK : StackOK l U)
    (habs : alookup l nid = none) (hid : v.flags.is_void = false) :
    StackOK (l ++ [(nid, v)]) (.void nid false :: U) := by
  have hlook : alookup (l ++ [(nid, v)]) nid = some v := by
    rw [alookup_append, habs]
    dsimp only
    rw [alookup_cons, if_pos rfl]
  refine ⟨trivial, ?_, ?_⟩
  · intro rec2 hrec2
    rw [hlook] at hrec2
    rw [← Option.some.inj hrec2]
    exact hid
  · refine ⟨l ++ [(nid, { v with flags := { v.flags with is_void := !false } })], ?_, stackOK_extend hOK habs⟩
    unfold mutStep
    dsimp only
    rw [hlook]
    dsimp only
    rw [aupdate_append, aupdate_absent _ habs]
    rw [aupdate_cons, if_pos rfl]
    rfl

/-- Pushing the inverse of a successful coherent patch/void keeps the stack
sound. -/
theorem stackOK_mut_push {l l' : List (Nat × QsoRecord)} {U : List Op}
    {op : Op} (hOK : StackOK l U) (hnd : (l.map Prod.fst).Nodup)
    (hm : isMutOp op) (hcoh : OpCoh l op) (hstep : mutStep l op = some l') :
    StackOK l' (invOf l op :: U) := by
  have hinvStep : mutStep l' (invOf l op) = some l :=
    mutStep_invOf hnd hcoh hstep
  refine ⟨?_, ?_, l, hinvStep, hOK⟩
  · cases op with
    | insert qso => exact absurd hstep (by simp [mutStep])
    | patch pid pp pq =>
      obtain ⟨rec, hrec, -⟩ := mutStep_patch_eq hstep
      have : invOf l (.patch pid pp pq) = .patch pid (pp.capture_inverse_for rec) pp := by
        unfold invOf
        dsimp only
        rw [hrec]
      rw [this]
      trivial
    | void vid vb =>
      have : invOf l (.void vid vb) = .void vid (!vb) := rfl
      rw [this]
      trivial
  · cases op with
    | insert qso => exact absurd hstep (by simp [mutStep])
    | patch pid pp pq =>
      obtain ⟨rec, hrec, -⟩ := mutStep_patch_eq hstep
      have hi : invOf l (.patch pid pp pq) = .patch pid (pp.capture_inverse_for rec) pp := by
        unfold invOf
        dsimp only
        rw [hrec]
      rw [hi]
      trivial
    | void vid vb =>
      obtain ⟨rec, hrec, hl'⟩ := mutStep_void_eq hstep
      have hi : invOf l (.void vid vb) = .void vid (!vb) := rfl
      rw [hi]
      intro rec2 hrec2
      have hlook : alookup l' vid = some { rec with flags := { rec.flags with is_void := !vb } } := by
        rw [hl', alookup_aupdate_self, hrec]
        rfl
      rw [hlook] at hrec2
      rw [← Option.some.inj hrec2]

end Qsolog

namespace Qsolog

/-- The roundtrip run invariant: duplicate-free record keys and a sound undo
stack. -/
def RunInv (s : QsoStore) : Prop :=
  (s.core.records.map Prod.fst).Nodup ∧ StackOK s.core.records s.undo

/-- Insert/patch/void commands (with non-void drafts) preserve the roundtrip
run invariant. -/
theorem execCmd_runInv {s s' : QsoStore} {cmd : Cmd}
    (hg : goodCmd cmd = true) (h : execCmd s cmd = .ok s')
    (hinv : RunInv s) : RunInv s' := by
  obtain ⟨hnd, hOK⟩ := hinv
  cases cmd with
  | ins draft =>
    simp only [execCmd] at h
    cases hins : s.insert draft with
    | error e => rw [hins] at h; exact absurd h (by simp [Except.map])
    | ok out =>
      obtain ⟨s1, id, st0⟩ := out
      rw [hins] at h
      simp only [Except.map, Except.ok.injEq] at h
      subst h
      have hvd : draft.flags.is_void = false := by
        simpa [goodCmd] using hg
      obtain ⟨c', inv, happO, -, hs1⟩ := insert_shape hins
      obtain ⟨habs, -, hinvO, hOrec, -, -, -, -, -⟩ :=
        apply_insert_with_seq_ok happO
      have habs' : alookup s.core.records
          (draftToRecord draft s.core.next_qso_id).id = none := habs
      have hrecs' : c'.records = s.core.records
          ++ [((draftToRecord draft s.core.next_qso_id).id,
              draftToRecord draft s.core.next_qso_id)] := hOrec
      constructor
      · rw [hs1]
        show (c'.records.map Prod.fst).Nodup
        rw [hrecs', List.map_append]
        refine hnd.append (by simp) ?_
        intro a ha hb
        simp only [List.map_cons, List.map_nil, List.mem_singleton] at hb
        subst hb
        exact (alookup_none_iff _ _).mp habs' ha
      · rw [hs1]
        show StackOK c'.records (inv :: s.undo)
        rw [hrecs', hinvO]
        exact stackOK_insert_push hOK habs' hvd
  | pat id p =>
    simp only [execCmd] at h
    cases hp : s.patch id p with
    | error e => rw [hp] at h; exact absurd h (by simp [Except.map])
    | ok out =>
      obtain ⟨s1, st0⟩ := out
      rw [hp] at h
      simp only [Except.map, Except.ok.injEq] at h
      subst h
      obtain ⟨c', inv, happO, hs1⟩ := patch_shape hp
      obtain ⟨rec, hrec, -, hinvO, hrecs, -, -, -, -, -⟩ :=
        apply_patch_with_seq_ok happO
      have hrec' : alookup s.core.records id = some rec := hrec
      have hrecs' : c'.records
          = aupdate s.core.records id fun _ => p.apply_to rec := hrecs
      have hstep0 : mutStep s.core.records (.patch id p p)
          = some c'.records := by
        unfold mutStep
        dsimp only
        rw [hrec']
        dsimp only
        rw [hrecs']
      have hinv0 : inv = invOf s.core.records (.patch id p p) := by
        rw [hinvO]
        unfold invOf
        dsimp only
        rw [hrec']
      constructor
      · rw [hs1]
        show (c'.records.map Prod.fst).Nodup
        rw [hrecs', map_fst_aupdate]
        exact hnd
      · rw [hs1]
        show StackOK c'.records (inv :: s.undo)
        rw [hinv0]
        exact stackOK_mut_push hOK hnd trivial trivial hstep0
  | vd id =>
    simp only [execCmd] at h
    cases hv : s.void id with
    | error e => rw [hv] at h; exact absurd h (by simp [Except.map])
    | ok out =>
      obtain ⟨s1, st0⟩ := out
      rw [hv] at h
      simp only [Except.map, Except.ok.injEq] at h
      subst h
      obtain ⟨rec0, c', inv, hrec0, happO, hs1⟩ := void_shape hv
      obtain ⟨rec, hrec, -, hinvO, hrecs, -, -, -, -, -⟩ :=
        apply_void_with_seq_ok happO
      have hrecB : alookup s.core.records id = some rec := hrec
      have heq : rec = rec0 := by
        rw [hrec0] at hrecB
        exact (Option.some.inj hrecB).symm
      subst heq
      have hrecs' : c'.records = aupdate s.core.records id fun _ =>
          { rec with flags := { rec.flags with is_void := !rec.flags.is_void } } := hrecs
      have hstep0 : mutStep s.core.records (.void id rec.flags.is_void)
          = some c'.records := by
        unfold mutStep
        dsimp only
        rw [hrec0]
        dsimp only
        rw [hrecs']
      have hcoh0 : OpCoh s.core.records (.void id rec.flags.is_void) := by
        intro rec2 h2
        rw [hrec0] at h2
        rw [← Option.some.inj h2]
      have hinv0 : inv = invOf s.core.records (.void id rec.flags.is_void) := by
        rw [hinvO]
        rfl
      constructor
      · rw [hs1]
        show (c'.records.map Prod.fst).Nodup
        rw [hrecs', map_fst_aupdate]
        exact hnd
      · rw [hs1]
        show StackOK c'.records (inv :: s.undo)
        rw [hinv0]
        exact stackOK_mut_push hOK hnd trivial hcoh0 hstep0
  | und => exact absurd hg (by simp [goodCmd])
  | red => exact absurd hg (by simp [goodCmd])

/-- Good runs preserve the roundtrip invariant and leave redo empty. -/
theorem execList_runInv {cmds : List Cmd} :
    ∀ {s s' : QsoStore}, execList s cmds = .ok s'
      → cmds.all goodCmd = true → RunInv s → s.redo = []
      → RunInv s' ∧ s'.redo = [] := by
  induction cmds with
  | nil =>
    intro s s' h hg hinv hredo
    simp only [execList, Except.ok.injEq] at h
    subst h
    exact ⟨hinv, hredo⟩
  | cons cmd rest ih =>
    intro s s' h hg hinv hredo
    simp only [List.all_cons, Bool.and_eq_true] at hg
    simp only [execList] at h
    cases hc : execCmd s cmd with
    | error e => rw [hc] at h; exact absurd h (by simp)
    | ok s₁ =>
      rw [hc] at h
      exact ih h hg.2 (execCmd_runInv hg.1 hc hinv) (execCmd_redo_nil hg.1 hc)

end Qsolog

namespace Qsolog

/-- Undoing a sound stack to exhaustion succeeds, empties the stack, pushes
one redo op per undone op, keeps `order`, and the pushed redo ops replay the
walk back to the starting records map. -/
theorem undoAllFuel_spec (U : List Op) :
    ∀ (c : StoreCore) (D : List Op) (p : List StoredOp),
    StackOK c.records U → (c.records.map Prod.fst).Nodup →
    ∃ c' ws p', undoAllFuel U.length ⟨c, U, D, p⟩ = ⟨c', [], ws ++ D, p'⟩
      ∧ c'.order = c.order ∧ foldMut c'.records ws = some c.records := by
  induction U with
  | nil =>
    intro c D p hOK hnd
    exact ⟨c, [], p, rfl, rfl, rfl⟩
  | cons u U' ih =>
    intro c D p hOK hnd
    obtain ⟨hm, hcoh, l₁, hstepM, hrest⟩ := hOK
    obtain ⟨c₁, st, inv, happ, hrec₁, hord₁, hinv₁⟩ := mutStep_apply_op hstepM
    have hstep' : QsoStore.undo_step ⟨c, u :: U', D, p⟩
        = .ok (⟨c₁, U', inv :: D, p ++ [st]⟩, st) := by
      unfold QsoStore.undo_step
      dsimp only
      rw [happ]
    have hfuel : undoAllFuel (u :: U').length ⟨c, u :: U', D, p⟩
        = undoAllFuel U'.length ⟨c₁, U', inv :: D, p ++ [st]⟩ := by
      show undoAllFuel (U'.length + 1) _ = _
      simp only [undoAllFuel]
      rw [hstep']
    have hOK₁ : StackOK c₁.records U' := by
      rw [hrec₁]
      exact hrest
    have hnd₁ : (c₁.records.map Prod.fst).Nodup := by
      rw [hrec₁, mutStep_map_fst hstepM]
      exact hnd
    obtain ⟨c', ws', p', heq, hord, hfold⟩ := ih c₁ (inv :: D) (p ++ [st]) hOK₁ hnd₁
    have hback : mutStep c₁.records inv = some c.records := by
      rw [hrec₁, hinv₁]
      exact mutStep_invOf hnd hcoh hstepM
    refine ⟨c', ws' ++ [inv], p', ?_, hord.trans hord₁, ?_⟩
    · rw [hfuel, List.append_assoc]
      exact heq
    · rw [foldMut_append, hfold]
      show foldMut c₁.records [inv] = some c.records
      unfold foldMut
      rw [hback]
      rfl

/-- Redoing a replayable redo stack to exhaustion succeeds, empties the
stack, keeps `order`, and ends at the records map the stack folds to. -/
theorem redoAllFuel_spec (ws : List Op) :
    ∀ (c : StoreCore) (U : List Op) (p : List StoredOp)
      (target : List (Nat × QsoRecord)),
    foldMut c.records ws = some target →
    ∃ c' U' p', redoAllFuel ws.length ⟨c, U, ws, p⟩ = ⟨c', U', [], p'⟩
      ∧ c'.records = target ∧ c'.order = c.order := by
  induction ws with
  | nil =>
    intro c U p target hfold
    refine ⟨c, U, p, rfl, ?_, rfl⟩
    simpa [foldMut] using hfold
  | cons w ws' ih =>
    intro c U p target hfold
    unfold foldMut at hfold
    cases hw : mutStep c.records w with
    | none => rw [hw] at hfold; exact absurd hfold (by simp)
    | some m =>
      rw [hw] at hfold
      dsimp only at hfold
      obtain ⟨c₁, st, inv, happ, hrec₁, hord₁, -⟩ := mutStep_apply_op hw
      have hstep' : QsoStore.redo_step ⟨c, U, w :: ws', p⟩
          = .ok (⟨c₁, inv :: U, ws', p ++ [st]⟩, st) := by
        unfold QsoStore.redo_step
        dsimp only
        rw [happ]
      have hfuel : redoAllFuel (w :: ws').length ⟨c, U, w :: ws', p⟩
          = redoAllFuel ws'.length ⟨c₁, inv :: U, ws', p ++ [st]⟩ := by
        show redoAllFuel (ws'.length + 1) _ = _
        simp only [redoAllFuel]
        rw [hstep']
      have hfold₁ : foldMut c₁.records ws' = some target := by
        rw [hrec₁]
        exact hfold
      obtain ⟨c', U', p', heq, hrecT, hordT⟩ :=
        ih c₁ (inv :: U) (p ++ [st]) target hfold₁
      exact ⟨c', U', p', by rw [hfuel]; exact heq, hrecT, hordT.trans hord₁⟩

end Qsolog

namespace Qsolog

/-- C2 (amended): for every sequence of successful public insert/patch/void
mutations on a fresh store whose inserted drafts are not already voided,
undoing until `NothingToUndo` and then redoing until `NothingToRedo`
restores every record (all fields, including flags) and the `order` list to
their pre-undo values. (Unrestricted, the claim is false: a draft inserted
with `is_void = true` comes back with `is_void = false`, because insert
pushes the constant inverse `Void { prev_is_void: false }`.) -/
theorem undo_all_redo_all_roundtrip {cmds : List Cmd} {s : QsoStore}
    (h : execList QsoStore.new cmds = .ok s)
    (hg : cmds.all goodCmd = true) :
    (redoAllStore (undoAllStore s)).core.records = s.core.records
    ∧ (redoAllStore (undoAllStore s)).core.order = s.core.order
    ∧ ∀ id, (redoAllStore (undoAllStore s)).get id = s.get id := by
  obtain ⟨⟨hnd, hOK⟩, hredo⟩ :=
    execList_runInv h hg ⟨List.nodup_nil, trivial⟩ rfl
  obtain ⟨c', ws, p', hU, hordU, hfoldU⟩ :=
    undoAllFuel_spec s.undo s.core s.redo s.pending_ops hOK hnd
  have hU' : undoAllStore s = ⟨c', [], ws ++ s.redo, p'⟩ := hU
  rw [hredo, List.append_nil] at hU'
  obtain ⟨c'', U'', p'', hR, hrecR, hordR⟩ :=
    redoAllFuel_spec ws c' [] p' s.core.records hfoldU
  have hR' : redoAllStore (undoAllStore s) = ⟨c'', U'', [], p''⟩ := by
    rw [hU']
    exact hR
  refine ⟨?_, ?_, ?_⟩
  · rw [hR']
    exact hrecR
  · rw [hR']
    show c''.order = s.core.order
    rw [hordR, hordU]
  · intro id
    rw [hR']
    show alookup c''.records id = alookup s.core.records id
    rw [hrecR]

/-- The command list of the C2 witness run. -/
def rtCmds : List Cmd :=
  [Cmd.ins sampleDraft, Cmd.pat 1 idxPatch, Cmd.ins sampleDraft, Cmd.vd 1]

/-- The store produced by the C2 witness run. -/
def rtStore : QsoStore :=
  stepOr (stepOr (stepOr (stepOr QsoStore.new (Cmd.ins sampleDraft))
    (Cmd.pat 1 idxPatch)) (Cmd.ins sampleDraft)) (Cmd.vd 1)

/-- Concrete instance of the amended C2 theorem: a four-command run whose
full undo/redo cycle restores records and order. -/
theorem undo_all_redo_all_roundtrip_witness :
    (execList QsoStore.new rtCmds = .ok rtStore
      ∧ rtCmds.all goodCmd = true)
    ∧ ((redoAllStore (undoAllStore rtStore)).core.records
        = rtStore.core.records
      ∧ (redoAllStore (undoAllStore rtStore)).core.order
        = rtStore.core.order
      ∧ ∀ id, (redoAllStore (undoAllStore rtStore)).get id
        = rtStore.get id) :=
  ⟨⟨by decide, by decide⟩,
    @undo_all_redo_all_roundtrip rtCmds rtStore (by decide) (by decide)⟩

end Qsolog

namespace Qsolog

/-! ## Contest-engine projector (`src/engine/projector.rs`, `traits.rs`)

`HashSet`s of ids/keys are lists with set semantics (membership insert);
`HashMap`s are association lists.  The `loop` in `incremental_reconcile`
takes a fuel parameter (the caller passes `order.length + 2`, enough for the
loop to either stop expanding or exhaust every id, as proved below);
exhausting fuel is reported as a distinguished error. -/

/-- Dependency keys (`DepKey`, with its three structured variants). -/
inductive DepKey : Type
  | dupe (call : String) (band : Band) (mode : Mode)
  | mult (key : String)
  | serial (key : String)
  | custom (key : String)
deriving DecidableEq, Repr

/-- Cached engine result for one applied QSO (`EngineApplied`). -/
structure EngineApplied (Eval : Type) where
  eval : Eval
  deps : List DepKey
deriving DecidableEq, Repr

/-- Contest scoring engine abstraction (`ContestEngine`); `apply` returns
the updated state together with the cached output, `diff_invalidation`
returns the changed-keys list of the `Invalidation`. -/
structure ContestEngine (State Eval : Type) where
  new_state : State
  apply : State → QsoRecord → State × EngineApplied Eval
  retract : State → QsoRecord → EngineApplied Eval → State
  diff_invalidation : EngineApplied Eval → EngineApplied Eval → List DepKey

/-- Projector error (`ProjectorError`), plus the fuel artifact of modelling
the reconcile loop. -/
inductive ProjectorError : Type
  | missingQso (id : Nat)
  | outOfFuel
deriving DecidableEq, Repr

/-- Projector state (`Projector`): engine state, applied cache and
dependency index. -/
structure Projector (State Eval : Type) where
  state : State
  applied : List (Nat × EngineApplied Eval)
  dep_index : List (DepKey × List Nat)

/-- Set-semantics insert into an id list (`HashSet::insert`). -/
def sinsert (l : List Nat) (x : Nat) : List Nat :=
  if x ∈ l then l else l ++ [x]

/-- Unions a list of ids into an id set. -/
def sunion (l : List Nat) (xs : List Nat) : List Nat :=
  xs.foldl sinsert l

/-- Set-semantics insert into a key list. -/
def kinsert (l : List DepKey) (k : DepKey) : List DepKey :=
  if k ∈ l then l else l ++ [k]

/-- One link addition (`dep_index.entry(dep).or_default().insert(id)`). -/
def adStep (id : Nat) (di : List (DepKey × List Nat)) (k : DepKey) :
    List (DepKey × List Nat) :=
  ains di k (sinsert ((alookup di k).getD []) id)

/-- `Projector::add_dep_links`. -/
def add_dep_links (di : List (DepKey × List Nat)) (id : Nat)
    (deps : List DepKey) : List (DepKey × List Nat) :=
  deps.foldl (adStep id) di

/-- One link removal (erase the id from the bucket, dropping empty
buckets). -/
def rmStep (id : Nat) (di : List (DepKey × List Nat)) (k : DepKey) :
    List (DepKey × List Nat) :=
  match alookup di k with
  | none => di
  | some ids =>
    let ids' := ids.erase id
    if ids' = [] then aremove di k else ains di k ids'

/-- `Projector::remove_dep_links`. -/
def remove_dep_links (di : List (DepKey × List Nat)) (id : Nat)
    (deps : List DepKey) : List (DepKey × List Nat) :=
  deps.foldl (rmStep id) di

/-- One id of the retract pass of `Projector::recompute_impacted`: retract
an impacted id with a cached entry, drop its entry and dep links, and
collect the old entry. -/
def pass1Step {State Eval : Type} (E : ContestEngine State Eval)
    (store : QsoStore) (impacted : List Nat) (changed_id : Nat)
    (old_rec : Option QsoRecord) (id : Nat) (st : State)
    (ap : List (Nat × EngineApplied Eval)) (di : List (DepKey × List Nat))
    (subset : List (Nat × EngineApplied Eval)) :
    Except ProjectorError
      (State × List (Nat × EngineApplied Eval)
        × List (DepKey × List Nat) × List (Nat × EngineApplied Eval)) :=
  if id ∈ impacted then
    match alookup ap id with
    | none => .ok (st, ap, di, subset)
    | some old_ap =>
      let recq : Option QsoRecord :=
        if id = changed_id then
          match old_rec with
          | some r => some r
          | none => alookup store.core.records id
        else alookup store.core.records id
      match recq with
      | none => .error (.missingQso id)
      | some rec =>
        .ok (E.retract st rec old_ap, aremove ap id,
          remove_dep_links di id old_ap.deps, subset ++ [(id, old_ap)])
  else .ok (st, ap, di, subset)

/-- First pass of `Projector::recompute_impacted` over `ordered_ids`. -/
def pass1 {State Eval : Type} (E : ContestEngine State Eval)
    (store : QsoStore) (impacted : List Nat) (changed_id : Nat)
    (old_rec : Option QsoRecord) :
    List Nat → State → List (Nat × EngineApplied Eval)
    → List (DepKey × List Nat) → List (Nat × EngineApplied Eval)
    → Except ProjectorError
        (State × List (Nat × EngineApplied Eval)
          × List (DepKey × List Nat) × List (Nat × EngineApplied Eval))
  | [], st, ap, di, subset => .ok (st, ap, di, subset)
  | id :: rest, st, ap, di, subset =>
    match pass1Step E store impacted changed_id old_rec id st ap di subset with
    | .error e => .error e
    | .ok (st', ap', di', subset') =>
      pass1 E store impacted changed_id old_rec rest st' ap' di' subset'

/-- One id of the apply pass of `Projector::recompute_impacted`: apply an
impacted non-void record, link its deps and cache its entry. -/
def pass2Step {State Eval : Type} (E : ContestEngine State Eval)
    (store : QsoStore) (impacted : List Nat) (id : Nat) (st : State)
    (ap : List (Nat × EngineApplied Eval)) (di : List (DepKey × List Nat))
    (ns : List (Nat × EngineApplied Eval)) :
    Except ProjectorError
      (State × List (Nat × EngineApplied Eval)
        × List (DepKey × List Nat) × List (Nat × EngineApplied Eval)) :=
  if id ∈ impacted then
    match alookup store.core.records id with
    | none => .error (.missingQso id)
    | some rec =>
      if rec.flags.is_void then .ok (st, ap, di, ns)
      else
        .ok ((E.apply st rec).1, ains ap id (E.apply st rec).2,
          add_dep_links di id (E.apply st rec).2.deps,
          ns ++ [(id, (E.apply st rec).2)])
  else .ok (st, ap, di, ns)

/-- Second pass of `Projector::recompute_impacted` over `ordered_ids`. -/
def pass2 {State Eval : Type} (E : ContestEngine State Eval)
    (store : QsoStore) (impacted : List Nat) :
    List Nat → State → List (Nat × EngineApplied Eval)
    → List (DepKey × List Nat) → List (Nat × EngineApplied Eval)
    → Except ProjectorError
        (State × List (Nat × EngineApplied Eval)
          × List (DepKey × List Nat) × List (Nat × EngineApplied Eval))
  | [], st, ap, di, ns => .ok (st, ap, di, ns)
  | id :: rest, st, ap, di, ns =>
    match pass2Step E store impacted id st ap di ns with
    | .error e => .error e
    | .ok (st', ap', di', ns') => pass2 E store impacted rest st' ap' di' ns'

/-- Changed-keys collection at the end of `recompute_impacted`. -/
def changedKeys {State Eval : Type} [DecidableEq Eval]
    (E : ContestEngine State Eval) (impacted : List Nat)
    (olds news : List (Nat × EngineApplied Eval)) : List DepKey :=
  impacted.foldl (fun acc id =>
    match alookup olds id, alookup news id with
    | some o, some n =>
      if o ≠ n then (E.diff_invalidation o n).foldl kinsert acc else acc
    | some o, none => o.deps.foldl kinsert acc
    | none, some n => n.deps.foldl kinsert acc
    | none, none => acc) []

/-- `Projector::recompute_impacted`. -/
def recompute_impacted {State Eval : Type} [DecidableEq Eval]
    (E : ContestEngine State Eval) (store : QsoStore)
    (pr : Projector State Eval) (impacted : List Nat) (changed_id : Nat)
    (old_rec : Option QsoRecord) :
    Except ProjectorError (Projector State Eval × List DepKey) :=
  match pass1 E store impacted changed_id old_rec store.core.order
      pr.state pr.applied pr.dep_index [] with
  | .error e => .error e
  | .ok (st₁, ap₁, di₁, olds) =>
    match pass2 E store impacted store.core.order st₁ ap₁ di₁ [] with
    | .error e => .error e
    | .ok (st₂, ap₂, di₂, news) =>
      .ok (⟨st₂, ap₂, di₂⟩, changedKeys E impacted olds news)

/-- Expands an impacted set through the dep index at the given keys. -/
def expandImpacted (di : List (DepKey × List Nat)) (keys : List DepKey)
    (impacted : List Nat) : List Nat :=
  keys.foldl (fun acc k => sunion acc ((alookup di k).getD [])) impacted

/-- The reconcile loop of `Projector::incremental_reconcile`, with fuel. -/
def reconcileLoop {State Eval : Type} [DecidableEq Eval]
    (E : ContestEngine State Eval) (store : QsoStore) (changed_id : Nat) :
    Nat → Projector State Eval → List Nat → Option QsoRecord
    → Except ProjectorError (Projector State Eval)
  | 0, _, _, _ => .error .outOfFuel
  | fuel + 1, pr, impacted, old₁ =>
    match recompute_impacted E store pr impacted changed_id old₁ with
    | .error e => .error e
    | .ok (pr', keys) =>
      let impacted' := expandImpacted pr'.dep_index keys impacted
      if impacted'.length = impacted.length then .ok pr'
      else reconcileLoop E store changed_id fuel pr' impacted' none

/-- `Projector::incremental_reconcile`. -/
def incremental_reconcile {State Eval : Type} [DecidableEq Eval]
    (E : ContestEngine State Eval) (store : QsoStore)
    (pr : Projector State Eval) (changed_id : Nat)
    (old_rec : Option QsoRecord) (fuel : Nat) :
    Except ProjectorError (Projector State Eval) :=
  let keys0 : List DepKey :=
    match alookup pr.applied changed_id with
    | some old_applied => old_applied.deps
    | none => []
  reconcileLoop E store changed_id fuel pr
    (expandImpacted pr.dep_index keys0 [changed_id]) old_rec

/-- `Projector::apply_stored_op`. -/
def Projector.apply_stored_op {State Eval : Type} [DecidableEq Eval]
    (E : ContestEngine State Eval) (store : QsoStore)
    (pr : Projector State Eval) (stored : StoredOp) (fuel : Nat) :
    Except ProjectorError (Projector State Eval) :=
  match stored.op with
  | .insert qso => incremental_reconcile E store pr qso.id none fuel
  | .patch id _ prev =>
    match alookup store.core.records id with
    | none => .error (.missingQso id)
    | some old => incremental_reconcile E store pr id
        (some (prev.apply_to old)) fuel
  | .void id prev_is_void =>
    match alookup store.core.records id with
    | none => .error (.missingQso id)
    | some old => incremental_reconcile E store pr id
        (some { old with flags := { old.flags with is_void := prev_is_void } })
        fuel

/-- `Projector::new`. -/
def Projector.mkNew {State Eval : Type} (E : ContestEngine State Eval) :
    Projector State Eval :=
  ⟨E.new_state, [], []⟩

/-- The full-recompute oracle of the claim: a fresh engine state to which
every non-void record of the store is applied in `order`; void or absent
ids get no cached entry. -/
def full_recompute_go {State Eval : Type} (E : ContestEngine State Eval)
    (store : QsoStore) : List Nat → State → List (Nat × EngineApplied Eval)
  | [], _ => []
  | id :: rest, st =>
    match alookup store.core.records id with
    | none => full_recompute_go E store rest st
    | some rec =>
      if rec.flags.is_void then full_recompute_go E store rest st
      else
        (id, (E.apply st rec).2)
          :: full_recompute_go E store rest (E.apply st rec).1

/-- Full recompute over the final store. -/
def full_recompute {State Eval : Type} (E : ContestEngine State Eval)
    (store : QsoStore) : List (Nat × EngineApplied Eval) :=
  full_recompute_go E store store.core.order E.new_state

/-- A public mutation together with its emitted `StoredOp`. -/
def execCmdOp (s : QsoStore) : Cmd
    → Except StoreError (QsoStore × StoredOp)
  | .ins draft => (s.insert draft).map fun r => (r.1, r.2.2)
  | .pat id patch => s.patch id patch
  | .vd id => s.void id
  | .und => s.undo_step
  | .red => s.redo_step

/-- Runs commands on the store, feeding every emitted op (with the
post-mutation store) to the projector in emission order; fuel per op is
`order.length + 2`. -/
def feedCmds {State Eval : Type} [DecidableEq Eval]
    (E : ContestEngine State Eval) :
    QsoStore → Projector State Eval → List Cmd
    → Option (QsoStore × Projector State Eval)
  | s, pr, [] => some (s, pr)
  | s, pr, c :: rest =>
    match execCmdOp s c with
    | .error _ => none
    | .ok (s', ω) =>
      match Projector.apply_stored_op E s' pr ω
          (s'.core.order.length + 2) with
      | .error _ => none
      | .ok pr' => feedCmds E s' pr' rest

end Qsolog

namespace Qsolog

/-- A contest engine with state-dependent evaluations: the state counts
applied QSOs, each evaluation reports the count at apply time, and retract
undoes the count exactly. -/
def counterEngine : ContestEngine Nat Nat where
  new_state := 0
  apply := fun s _ => (s + 1, ⟨s, []⟩)
  retract := fun s _ _ => s - 1
  diff_invalidation := fun _ _ => []

/-- Insert two records, then void the first, feeding each emitted op to the
projector. -/
def cxRun : Option (QsoStore × Projector Nat Nat) :=
  feedCmds counterEngine QsoStore.new (Projector.mkNew counterEngine)
    [Cmd.ins sampleDraft, Cmd.ins sampleDraft, Cmd.vd 1]

/-- C1 counterexample: `counterEngine`'s retract is an exact inverse of the
apply call that produced the cached result, yet after insert, insert,
void(1) the projector caches eval 1 for id 2 while a full recompute from
scratch yields eval 0 — voiding id 1 shifts every later state, and the
incremental pass never revisits id 2. -/
theorem projector_incremental_diverges_from_full :
    (∀ st r, counterEngine.retract (counterEngine.apply st r).1 r
        (counterEngine.apply st r).2 = st)
    ∧ (cxRun.map fun r => alookup r.2.applied 2)
        = some (some ⟨1, []⟩)
    ∧ (cxRun.map fun r => alookup (full_recompute counterEngine r.1) 2)
        = some (some ⟨0, []⟩)
    ∧ (cxRun.map fun r => alookup r.2.applied 2)
        ≠ (cxRun.map fun r => alookup (full_recompute counterEngine r.1) 2) :=
  ⟨fun st r => by simp [counterEngine], by decide, by decide, by decide⟩

end Qsolog

namespace Qsolog

/-- Lookup after insert-or-replace at the same key. -/
theorem alookup_ains_self {κ β : Type} [DecidableEq κ]
    (l : List (κ × β)) (k : κ) (v : β) :
    alookup (ains l k v) k = some v := by
  unfold ains
  cases hl : alookup l k with
  | none =>
    rw [if_neg (by simp)]
    rw [alookup_append, hl]
    dsimp only
    rw [alookup_cons, if_pos rfl]
  | some w =>
    rw [if_pos (show (some w).isSome = true from rfl)]
    rw [alookup_aupdate_self, hl]
    rfl

/-- Lookup after insert-or-replace at another key. -/
theorem alookup_ains_ne {κ β : Type} [DecidableEq κ]
    (l : List (κ × β)) (k j : κ) (v : β) (h : j ≠ k) :
    alookup (ains l k v) j = alookup l j := by
  unfold ains
  cases hl : alookup l k with
  | none =>
    rw [if_neg (by simp)]
    rw [alookup_append]
    cases hj : alookup l j with
    | some w => rfl
    | none =>
      dsimp only
      rw [alookup_cons, if_neg fun hh => h hh.symm]
      rfl
  | some w =>
    rw [if_pos (show (some w).isSome = true from rfl)]
    exact alookup_aupdate_ne l k j _ h

/-- Membership after a set insert. -/
theorem mem_sinsert {l : List Nat} {x a : Nat} :
    a ∈ sinsert l x ↔ a ∈ l ∨ a = x := by
  unfold sinsert
  by_cases h : x ∈ l
  · rw [if_pos h]
    constructor
    · exact Or.inl
    · rintro (h' | rfl)
      · exact h'
      · exact h
  · rw [if_neg h]
    simp

/-- Set insert keeps lists duplicate-free. -/
theorem sinsert_nodup {l : List Nat} {x : Nat} (h : l.Nodup) :
    (sinsert l x).Nodup := by
  unfold sinsert
  by_cases hm : x ∈ l
  · rw [if_pos hm]
    exact h
  · rw [if_neg hm]
    refine h.append (by simp) ?_
    intro a ha hb
    rw [List.mem_singleton] at hb
    subst hb
    exact hm ha

/-- Set insert never shrinks. -/
theorem sinsert_length {l : List Nat} {x : Nat} :
    l.length ≤ (sinsert l x).length := by
  unfold sinsert
  by_cases hm : x ∈ l
  · rw [if_pos hm]
  · rw [if_neg hm]
    simp

/-- Membership after a set union. -/
theorem mem_sunion {xs : List Nat} :
    ∀ {l : List Nat} {a : Nat}, a ∈ sunion l xs ↔ a ∈ l ∨ a ∈ xs := by
  induction xs with
  | nil =>
    intro l a
    simp [sunion]
  | cons x xs ih =>
    intro l a
    have h0 : sunion l (x :: xs) = sunion (sinsert l x) xs := rfl
    rw [h0, ih, mem_sinsert]
    constructor
    · rintro ((h | rfl) | h)
      · exact Or.inl h
      · exact Or.inr (by simp)
      · exact Or.inr (by simp [h])
    · rintro (h | h)
      · exact Or.inl (Or.inl h)
      · rw [List.mem_cons] at h
        rcases h with rfl | h
        · exact Or.inl (Or.inr rfl)
        · exact Or.inr h

/-- Set union keeps lists duplicate-free. -/
theorem sunion_nodup {xs : List Nat} :
    ∀ {l : List Nat}, l.Nodup → (sunion l xs).Nodup := by
  induction xs with
  | nil =>
    intro l h
    exact h
  | cons x xs ih =>
    intro l h
    exact ih (sinsert_nodup h)

/-- Set union never shrinks. -/
theorem sunion_length {xs : List Nat} :
    ∀ {l : List Nat}, l.length ≤ (sunion l xs).length := by
  induction xs with
  | nil =>
    intro l
    exact Nat.le_refl _
  | cons x xs ih =>
    intro l
    exact le_trans sinsert_length ih

/-- Elements of the expanded impacted set come from the base set or a dep
bucket. -/
theorem expand_mem {keys : List DepKey} :
    ∀ {di : List (DepKey × List Nat)} {imp : List Nat} {x : Nat},
    x ∈ expandImpacted di keys imp
    → x ∈ imp ∨ ∃ k ids, alookup di k = some ids ∧ x ∈ ids := by
  induction keys with
  | nil =>
    intro di imp x h
    exact Or.inl h
  | cons k ks ih =>
    intro di imp x h
    have h0 : expandImpacted di (k :: ks) imp
        = expandImpacted di ks (sunion imp ((alookup di k).getD [])) := rfl
    rw [h0] at h
    rcases ih h with h' | h'
    · rw [mem_sunion] at h'
      rcases h' with h' | h'
      · exact Or.inl h'
      · cases hk : alookup di k with
        | none =>
          rw [hk] at h'
          simp at h'
        | some ids =>
          rw [hk] at h'
          exact Or.inr ⟨k, ids, hk, h'⟩
    · exact Or.inr h'

/-- The base set survives expansion. -/
theorem expand_sub {keys : List DepKey} :
    ∀ {di : List (DepKey × List Nat)} {imp : List Nat} {x : Nat},
    x ∈ imp → x ∈ expandImpacted di keys imp := by
  induction keys with
  | nil =>
    intro di imp x h
    exact h
  | cons k ks ih =>
    intro di imp x h
    exact ih (mem_sunion.mpr (Or.inl h))

/-- Expansion keeps the set duplicate-free. -/
theorem expand_nodup {keys : List DepKey} :
    ∀ {di : List (DepKey × List Nat)} {imp : List Nat},
    imp.Nodup → (expandImpacted di keys imp).Nodup := by
  induction keys with
  | nil =>
    intro di imp h
    exact h
  | cons k ks ih =>
    intro di imp h
    exact ih (sunion_nodup h)

/-- Expansion never shrinks. -/
theorem expand_length {keys : List DepKey} :
    ∀ {di : List (DepKey × List Nat)} {imp : List Nat},
    imp.length ≤ (expandImpacted di keys imp).length := by
  induction keys with
  | nil =>
    intro di imp
    exact Nat.le_refl _
  | cons k ks ih =>
    intro di imp
    exact le_trans sunion_length ih

end Qsolog

namespace Qsolog

/-- Removing dep links only ever shrinks buckets. -/
theorem remove_dep_links_sub {deps : List DepKey} :
    ∀ {di : List (DepKey × List Nat)} {id : Nat} {k : DepKey}
      {ids : List Nat} {x : Nat},
    alookup (remove_dep_links di id deps) k = some ids → x ∈ ids
    → ∃ ids₀, alookup di k = some ids₀ ∧ x ∈ ids₀ := by
  induction deps with
  | nil =>
    intro di id k ids x h hx
    exact ⟨ids, h, hx⟩
  | cons d ds ih =>
    intro di id k ids x h hx
    have h0 : remove_dep_links di id (d :: ds)
        = remove_dep_links (rmStep id di d) id ds := rfl
    rw [h0] at h
    obtain ⟨ids₀, h₀, hx₀⟩ := ih h hx
    cases hd : alookup di d with
    | none =>
      have hstep : rmStep id di d = di := by
        unfold rmStep
        rw [hd]
      rw [hstep] at h₀
      exact ⟨ids₀, h₀, hx₀⟩
    | some ids₂ =>
      by_cases he : ids₂.erase id = []
      · have hstep : rmStep id di d = aremove di d := by
          unfold rmStep
          rw [hd]
          dsimp only
          rw [if_pos he]
        rw [hstep] at h₀
        by_cases hk : k = d
        · subst hk
          rw [alookup_aremove_self] at h₀
          exact absurd h₀ (by simp)
        · rw [alookup_aremove_ne _ _ _ hk] at h₀
          exact ⟨ids₀, h₀, hx₀⟩
      · have hstep : rmStep id di d = ains di d (ids₂.erase id) := by
          unfold rmStep
          rw [hd]
          dsimp only
          rw [if_neg he]
        rw [hstep] at h₀
        by_cases hk : k = d
        · subst hk
          rw [alookup_ains_self] at h₀
          have hids : ids₀ = ids₂.erase id := (Option.some.inj h₀).symm
          subst hids
          exact ⟨ids₂, hd, List.mem_of_mem_erase hx₀⟩
        · rw [alookup_ains_ne _ _ _ _ hk] at h₀
          exact ⟨ids₀, h₀, hx₀⟩

/-- Added dep links point at existing buckets or the new id. -/
theorem add_dep_links_src {deps : List DepKey} :
    ∀ {di : List (DepKey × List Nat)} {id : Nat} {k : DepKey}
      {ids : List Nat} {x : Nat},
    alookup (add_dep_links di id deps) k = some ids → x ∈ ids
    → (∃ ids₀, alookup di k = some ids₀ ∧ x ∈ ids₀) ∨ x = id := by
  induction deps with
  | nil =>
    intro di id k ids x h hx
    exact Or.inl ⟨ids, h, hx⟩
  | cons d ds ih =>
    intro di id k ids x h hx
    have h0 : add_dep_links di id (d :: ds)
        = add_dep_links (adStep id di d) id ds := rfl
    rw [h0] at h
    rcases ih h hx with ⟨ids₀, h₀, hx₀⟩ | hxi
    · by_cases hk : k = d
      · subst hk
        unfold adStep at h₀
        rw [alookup_ains_self] at h₀
        have hids : ids₀ = sinsert ((alookup di k).getD []) id :=
          (Option.some.inj h₀).symm
        subst hids
        rcases mem_sinsert.mp hx₀ with hx₁ | rfl
        · cases hd : alookup di k with
          | none =>
            rw [hd] at hx₁
            simp at hx₁
          | some idsb =>
            rw [hd] at hx₁
            exact Or.inl ⟨idsb, rfl, hx₁⟩
        · exact Or.inr rfl
      · unfold adStep at h₀
        rw [alookup_ains_ne _ _ _ _ hk] at h₀
        exact Or.inl ⟨ids₀, h₀, hx₀⟩
    · exact Or.inr hxi

/-- The per-id value a full recompute (and the projector cache) should hold:
the engine output function on the current record, absent for void or
missing records. -/
def targetAt {Eval : Type} (f : QsoRecord → EngineApplied Eval)
    (s : QsoStore) (id : Nat) : Option (EngineApplied Eval) :=
  match alookup s.core.records id with
  | none => none
  | some rec => if rec.flags.is_void then none else some (f rec)

/-- For a state-independent engine, the full-recompute walk is pointwise
`targetAt` on the ids it visits. -/
theorem full_recompute_go_lookup {State Eval : Type}
    {E : ContestEngine State Eval} {f : QsoRecord → EngineApplied Eval}
    (hf : ∀ st r, (E.apply st r).2 = f r) {s : QsoStore} :
    ∀ (l : List Nat) (st : State), l.Nodup →
    ∀ id, alookup (full_recompute_go E s l st) id
      = if id ∈ l then targetAt f s id else none := by
  intro l
  induction l with
  | nil =>
    intro st hnd id
    show alookup ([] : List (Nat × EngineApplied Eval)) id = _
    simp [alookup]
  | cons j rest ih =>
    intro st hnd id
    rw [List.nodup_cons] at hnd
    unfold full_recompute_go
    cases hj : alookup s.core.records j with
    | none =>
      dsimp only
      rw [ih st hnd.2 id]
      by_cases hid : id = j
      · subst hid
        rw [if_neg hnd.1, if_pos (List.mem_cons_self id rest)]
        unfold targetAt
        rw [hj]
      · by_cases hr : id ∈ rest
        · rw [if_pos hr, if_pos (List.mem_cons_of_mem j hr)]
        · rw [if_neg hr, if_neg fun hc => by
            rcases List.mem_cons.mp hc with h1 | h1
            · exact hid h1
            · exact hr h1]
    | some rec =>
      dsimp only
      by_cases hv : rec.flags.is_void
      · rw [if_pos hv]
        rw [ih st hnd.2 id]
        by_cases hid : id = j
        · subst hid
          rw [if_neg hnd.1, if_pos (List.mem_cons_self id rest)]
          unfold targetAt
          rw [hj]
          dsimp only
          rw [if_pos hv]
        · by_cases hr : id ∈ rest
          · rw [if_pos hr, if_pos (List.mem_cons_of_mem j hr)]
          · rw [if_neg hr, if_neg fun hc => by
              rcases List.mem_cons.mp hc with h1 | h1
              · exact hid h1
              · exact hr h1]
      · rw [if_neg hv]
        rw [alookup_cons]
        by_cases hji : j = id
        · rw [if_pos hji]
          subst hji
          rw [if_pos (List.mem_cons_self j rest)]
          unfold targetAt
          rw [hj]
          dsimp only
          rw [if_neg hv]
          rw [hf]
        · rw [if_neg hji]
          rw [ih _ hnd.2 id]
          by_cases hr : id ∈ rest
          · rw [if_pos hr, if_pos (List.mem_cons_of_mem j hr)]
          · rw [if_neg hr, if_neg fun hc => by
              rcases List.mem_cons.mp hc with h1 | h1
              · exact hji h1.symm
              · exact hr h1]

/-- `full_recompute` is pointwise `targetAt` on stores whose `order` is
duplicate-free and carries exactly the record keys. -/
theorem full_recompute_lookup {State Eval : Type}
    {E : ContestEngine State Eval} {f : QsoRecord → EngineApplied Eval}
    (hf : ∀ st r, (E.apply st r).2 = f r) {s : QsoStore}
    (hkeys : s.core.records.map Prod.fst = s.core.order)
    (hnd : s.core.order.Nodup) :
    ∀ id, alookup (full_recompute E s) id = targetAt f s id := by
  intro id
  unfold full_recompute
  rw [full_recompute_go_lookup hf s.core.order E.new_state hnd id]
  by_cases hid : id ∈ s.core.order
  · rw [if_pos hid]
  · rw [if_neg hid]
    unfold targetAt
    cases hrec : alookup s.core.records id with
    | none => rfl
    | some rec =>
      exact absurd (hkeys ▸ List.mem_map_of_mem Prod.fst (alookup_mem hrec))
        hid

end Qsolog

namespace Qsolog

/-- A dep index points only at ids of the given order list. -/
def diOK (di : List (DepKey × List Nat)) (ord : List Nat) : Prop :=
  ∀ k ids id, alookup di k = some ids → id ∈ ids → id ∈ ord

/-- Keys present in an association list have `isSome` lookups. -/
theorem alookup_isSome_of_mem_keys {κ β : Type} [DecidableEq κ]
    {l : List (κ × β)} {k : κ} (h : k ∈ l.map Prod.fst) :
    (alookup l k).isSome := by
  induction l with
  | nil => simp at h
  | cons e rest ih =>
    rw [alookup_cons]
    by_cases he : e.1 = k
    · rw [if_pos he]
      rfl
    · rw [if_neg he]
      rw [List.map_cons, List.mem_cons] at h
      rcases h with h | h
      · exact absurd h.symm he
      · exact ih h

/-- One retract step empties the cache at its id (when impacted) and only
shrinks dep buckets. -/
theorem pass1Step_spec {State Eval : Type} (E : ContestEngine State Eval)
    (store : QsoStore) (impacted : List Nat) (changed_id : Nat)
    (old_rec : Option QsoRecord) (id : Nat) (st : State)
    (ap : List (Nat × EngineApplied Eval)) (di : List (DepKey × List Nat))
    (subset : List (Nat × EngineApplied Eval))
    (hsome : (alookup store.core.records id).isSome) :
    ∃ st' ap' di' subset',
      pass1Step E store impacted changed_id old_rec id st ap di subset
        = .ok (st', ap', di', subset')
      ∧ (∀ x, alookup ap' x
          = if x = id ∧ id ∈ impacted then none else alookup ap x)
      ∧ (∀ k ids x, alookup di' k = some ids → x ∈ ids
          → ∃ ids₀, alookup di k = some ids₀ ∧ x ∈ ids₀) := by
  unfold pass1Step
  by_cases hj : id ∈ impacted
  · rw [if_pos hj]
    cases ha : alookup ap id with
    | none =>
      refine ⟨st, ap, di, subset, rfl, ?_, fun k ids x h hx => ⟨ids, h, hx⟩⟩
      intro x
      by_cases hx : x = id ∧ id ∈ impacted
      · rw [if_pos hx, hx.1]
        exact ha
      · rw [if_neg hx]
    | some old_ap =>
      dsimp only
      have hap : ∀ x, alookup (aremove ap id) x
          = if x = id ∧ id ∈ impacted then none else alookup ap x := by
        intro x
        by_cases hx : x = id
        · subst hx
          rw [alookup_aremove_self, if_pos ⟨rfl, hj⟩]
        · rw [alookup_aremove_ne _ _ _ hx, if_neg fun hc => hx hc.1]
      have hdi : ∀ k ids x,
          alookup (remove_dep_links di id old_ap.deps) k = some ids
          → x ∈ ids → ∃ ids₀, alookup di k = some ids₀ ∧ x ∈ ids₀ :=
        fun k ids x h hx => remove_dep_links_sub h hx
      by_cases hc : id = changed_id
      · rw [if_pos hc]
        cases hold : old_rec with
        | some r =>
          dsimp only
          exact ⟨_, _, _, _, rfl, hap, hdi⟩
        | none =>
          dsimp only
          obtain ⟨rec, hrec⟩ := Option.isSome_iff_exists.mp hsome
          rw [hrec]
          dsimp only
          exact ⟨_, _, _, _, rfl, hap, hdi⟩
      · rw [if_neg hc]
        obtain ⟨rec, hrec⟩ := Option.isSome_iff_exists.mp hsome
        rw [hrec]
        dsimp only
        exact ⟨_, _, _, _, rfl, hap, hdi⟩
  · rw [if_neg hj]
    refine ⟨st, ap, di, subset, rfl, ?_, fun k ids x h hx => ⟨ids, h, hx⟩⟩
    intro x
    rw [if_neg fun hc => hj hc.2]

/-- The retract pass empties the cache at every impacted id it visits and
only shrinks dep buckets. -/
theorem pass1_spec {State Eval : Type} (E : ContestEngine State Eval)
    (store : QsoStore) (impacted : List Nat) (changed_id : Nat)
    (old_rec : Option QsoRecord) :
    ∀ (l : List Nat) (st : State) (ap : List (Nat × EngineApplied Eval))
      (di : List (DepKey × List Nat))
      (subset : List (Nat × EngineApplied Eval)),
    (∀ id ∈ l, (alookup store.core.records id).isSome) →
    ∃ st' ap' di' subset',
      pass1 E store impacted changed_id old_rec l st ap di subset
        = .ok (st', ap', di', subset')
      ∧ (∀ x, alookup ap' x
          = if x ∈ l ∧ x ∈ impacted then none else alookup ap x)
      ∧ (∀ k ids x, alookup di' k = some ids → x ∈ ids
          → ∃ ids₀, alookup di k = some ids₀ ∧ x ∈ ids₀) := by
  intro l
  induction l with
  | nil =>
    intro st ap di subset hsome
    refine ⟨st, ap, di, subset, rfl, ?_, fun k ids x h hx => ⟨ids, h, hx⟩⟩
    intro x
    simp
  | cons j rest ih =>
    intro st ap di subset hsome
    obtain ⟨st₁, ap₁, di₁, subset₁, heq1, hap1, hdi1⟩ :=
      pass1Step_spec E store impacted changed_id old_rec j st ap di subset
        (hsome j (List.mem_cons_self j rest))
    obtain ⟨st₂, ap₂, di₂, subset₂, heq2, hap2, hdi2⟩ :=
      ih st₁ ap₁ di₁ subset₁
        (fun id hid => hsome id (List.mem_cons_of_mem _ hid))
    refine ⟨st₂, ap₂, di₂, subset₂, ?_, ?_, ?_⟩
    · show pass1 E store impacted changed_id old_rec (j :: rest) st ap di
          subset = _
      unfold pass1
      rw [heq1]
      exact heq2
    · intro x
      rw [hap2 x, hap1 x]
      by_cases h1 : x ∈ rest ∧ x ∈ impacted
      · rw [if_pos h1, if_pos ⟨List.mem_cons_of_mem _ h1.1, h1.2⟩]
      · rw [if_neg h1]
        by_cases h2 : x = j ∧ j ∈ impacted
        · obtain ⟨rfl, hji⟩ := h2
          rw [if_pos ⟨rfl, hji⟩, if_pos ⟨List.mem_cons_self x rest, hji⟩]
        · have hneg : ¬(x ∈ j :: rest ∧ x ∈ impacted) := by
            intro hc
            rcases List.mem_cons.mp hc.1 with hx | hx
            · exact h2 ⟨hx, hx ▸ hc.2⟩
            · exact h1 ⟨hx, hc.2⟩
          rw [if_neg h2, if_neg hneg]
    · intro k ids x h hx
      obtain ⟨ids₁, h₁, hx₁⟩ := hdi2 k ids x h hx
      exact hdi1 k ids₁ x h₁ hx₁

end Qsolog

namespace Qsolog

/-- One apply step caches the engine-output function at its id (when
impacted and non-void) and adds dep links only for that id. -/
theorem pass2Step_spec {State Eval : Type} {E : ContestEngine State Eval}
    {f : QsoRecord → EngineApplied Eval}
    (hf : ∀ st r, (E.apply st r).2 = f r) (store : QsoStore)
    (impacted : List Nat) (id : Nat) (st : State)
    (ap : List (Nat × EngineApplied Eval)) (di : List (DepKey × List Nat))
    (ns : List (Nat × EngineApplied Eval))
    (hsome : (alookup store.core.records id).isSome) :
    ∃ st' ap' di' ns',
      pass2Step E store impacted id st ap di ns = .ok (st', ap', di', ns')
      ∧ (∀ x, alookup ap' x
          = if x = id ∧ id ∈ impacted then
              (match alookup store.core.records x with
               | some rec =>
                 if rec.flags.is_void then alookup ap x else some (f rec)
               | none => alookup ap x)
            else alookup ap x)
      ∧ (∀ k ids x, alookup di' k = some ids → x ∈ ids
          → (∃ ids₀, alookup di k = some ids₀ ∧ x ∈ ids₀) ∨ x = id) := by
  unfold pass2Step
  by_cases hj : id ∈ impacted
  · rw [if_pos hj]
    obtain ⟨rec, hrec⟩ := Option.isSome_iff_exists.mp hsome
    rw [hrec]
    dsimp only
    by_cases hv : rec.flags.is_void
    · rw [if_pos hv]
      refine ⟨st, ap, di, ns, rfl, ?_,
        fun k ids x h hx => Or.inl ⟨ids, h, hx⟩⟩
      intro x
      by_cases hx : x = id ∧ id ∈ impacted
      · rw [if_pos hx, hx.1, hrec]
        dsimp only
        rw [if_pos hv]
      · rw [if_neg hx]
    · rw [if_neg hv]
      refine ⟨_, _, _, _, rfl, ?_, ?_⟩
      · intro x
        by_cases hx : x = id ∧ id ∈ impacted
        · rw [if_pos hx, hx.1, hrec]
          dsimp only
          rw [if_neg hv]
          rw [alookup_ains_self, hf]
        · rw [if_neg hx]
          rcases Decidable.not_and_iff_or_not.mp hx with hx' | hx'
          · exact alookup_ains_ne _ _ _ _ hx'
          · exact absurd hj hx'
      · intro k ids x h hx
        exact add_dep_links_src h hx
  · rw [if_neg hj]
    refine ⟨st, ap, di, ns, rfl, ?_,
      fun k ids x h hx => Or.inl ⟨ids, h, hx⟩⟩
    intro x
    rw [if_neg fun hc => hj hc.2]

/-- The apply pass caches the engine-output function at every impacted
non-void id it visits and adds dep links only for visited ids. -/
theorem pass2_spec {State Eval : Type} {E : ContestEngine State Eval}
    {f : QsoRecord → EngineApplied Eval}
    (hf : ∀ st r, (E.apply st r).2 = f r) (store : QsoStore)
    (impacted : List Nat) :
    ∀ (l : List Nat) (st : State) (ap : List (Nat × EngineApplied Eval))
      (di : List (DepKey × List Nat)) (ns : List (Nat × EngineApplied Eval)),
    (∀ id ∈ l, (alookup store.core.records id).isSome) → l.Nodup →
    ∃ st' ap' di' ns',
      pass2 E store impacted l st ap di ns = .ok (st', ap', di', ns')
      ∧ (∀ x, alookup ap' x
          = if x ∈ l ∧ x ∈ impacted then
              (match alookup store.core.records x with
               | some rec =>
                 if rec.flags.is_void then alookup ap x else some (f rec)
               | none => alookup ap x)
            else alookup ap x)
      ∧ (∀ k ids x, alookup di' k = some ids → x ∈ ids
          → (∃ ids₀, alookup di k = some ids₀ ∧ x ∈ ids₀) ∨ x ∈ l) := by
  intro l
  induction l with
  | nil =>
    intro st ap di ns hsome hnd
    refine ⟨st, ap, di, ns, rfl, ?_,
      fun k ids x h hx => Or.inl ⟨ids, h, hx⟩⟩
    intro x
    simp
  | cons j rest ih =>
    intro st ap di ns hsome hnd
    rw [List.nodup_cons] at hnd
    obtain ⟨st₁, ap₁, di₁, ns₁, heq1, hap1, hdi1⟩ :=
      pass2Step_spec hf store impacted j st ap di ns
        (hsome j (List.mem_cons_self j rest))
    obtain ⟨st₂, ap₂, di₂, ns₂, heq2, hap2, hdi2⟩ :=
      ih st₁ ap₁ di₁ ns₁
        (fun id hid => hsome id (List.mem_cons_of_mem _ hid)) hnd.2
    refine ⟨st₂, ap₂, di₂, ns₂, ?_, ?_, ?_⟩
    · show pass2 E store impacted (j :: rest) st ap di ns = _
      unfold pass2
      rw [heq1]
      exact heq2
    · intro x
      rw [hap2 x]
      by_cases h1 : x ∈ rest ∧ x ∈ impacted
      · have hxj : x ≠ j := fun hh => hnd.1 (hh ▸ h1.1)
        have hap1x : alookup ap₁ x = alookup ap x := by
          rw [hap1 x, if_neg fun hc => hxj hc.1]
        rw [if_pos h1, if_pos ⟨List.mem_cons_of_mem _ h1.1, h1.2⟩, hap1x]
      · rw [if_neg h1, hap1 x]
        by_cases h2 : x = j ∧ j ∈ impacted
        · obtain ⟨rfl, hji⟩ := h2
          rw [if_pos ⟨rfl, hji⟩, if_pos ⟨List.mem_cons_self x rest, hji⟩]
        · have hneg : ¬(x ∈ j :: rest ∧ x ∈ impacted) := by
            intro hc
            rcases List.mem_cons.mp hc.1 with hx | hx
            · exact h2 ⟨hx, hx ▸ hc.2⟩
            · exact h1 ⟨hx, hc.2⟩
          rw [if_neg h2, if_neg hneg]
    · intro k ids x h hx
      rcases hdi2 k ids x h hx with ⟨ids₁, h₁, hx₁⟩ | hxl
      · rcases hdi1 k ids₁ x h₁ hx₁ with ⟨ids₀, h₀, hx₀⟩ | hxj
        · exact Or.inl ⟨ids₀, h₀, hx₀⟩
        · exact Or.inr (by rw [hxj]; exact List.mem_cons_self j rest)
      · exact Or.inr (List.mem_cons_of_mem _ hxl)

end Qsolog

namespace Qsolog

/-- One recompute round over any impacted set restores the cache to the
engine-output function pointwise and keeps the dep index inside `order`
(state-independent engine; coherent store; stale entries only outside the
record set). -/
theorem recompute_spec {State Eval : Type} [DecidableEq Eval]
    {E : ContestEngine State Eval} {f : QsoRecord → EngineApplied Eval}
    (hf : ∀ st r, (E.apply st r).2 = f r) {store : QsoStore}
    (hkeys : store.core.records.map Prod.fst = store.core.order)
    (hnd : store.core.order.Nodup)
    {pr : Projector State Eval} {impacted : List Nat} {changed_id : Nat}
    {old₁ : Option QsoRecord}
    (hpre1 : ∀ id, id ∉ impacted
      → alookup pr.applied id = targetAt f store id)
    (hpre2 : ∀ id ∈ impacted, alookup store.core.records id = none
      → alookup pr.applied id = none)
    (hdep : diOK pr.dep_index store.core.order) :
    ∃ pr' keys,
      recompute_impacted E store pr impacted changed_id old₁
        = .ok (pr', keys)
      ∧ (∀ id, alookup pr'.applied id = targetAt f store id)
      ∧ diOK pr'.dep_index store.core.order := by
  have hsome : ∀ id ∈ store.core.order,
      (alookup store.core.records id).isSome := by
    intro id hid
    exact alookup_isSome_of_mem_keys (by rw [hkeys]; exact hid)
  obtain ⟨st₁, ap₁, di₁, olds, heq1, hap1, hdi1⟩ :=
    pass1_spec E store impacted changed_id old₁ store.core.order
      pr.state pr.applied pr.dep_index [] hsome
  obtain ⟨st₂, ap₂, di₂, news, heq2, hap2, hdi2⟩ :=
    pass2_spec hf store impacted store.core.order st₁ ap₁ di₁ [] hsome hnd
  refine ⟨⟨st₂, ap₂, di₂⟩, changedKeys E impacted olds news, ?_, ?_, ?_⟩
  · unfold recompute_impacted
    rw [heq1]
    dsimp only
    rw [heq2]
  · intro id
    show alookup ap₂ id = targetAt f store id
    rw [hap2 id]
    by_cases h2 : id ∈ store.core.order ∧ id ∈ impacted
    · rw [if_pos h2]
      obtain ⟨rec, hrec⟩ := Option.isSome_iff_exists.mp (hsome id h2.1)
      rw [hrec]
      dsimp only
      by_cases hv : rec.flags.is_void
      · rw [if_pos hv]
        rw [hap1 id, if_pos h2]
        unfold targetAt
        rw [hrec]
        dsimp only
        rw [if_pos hv]
      · rw [if_neg hv]
        unfold targetAt
        rw [hrec]
        dsimp only
        rw [if_neg hv]
    · rw [if_neg h2]
      rw [hap1 id, if_neg h2]
      by_cases him : id ∈ impacted
      · have hio : id ∉ store.core.order := fun ho => h2 ⟨ho, him⟩
        have hrn : alookup store.core.records id = none := by
          rw [alookup_none_iff, hkeys]
          exact hio
        rw [hpre2 id him hrn]
        unfold targetAt
        rw [hrn]
      · exact hpre1 id him
  · intro k ids id h hx
    rcases hdi2 k ids id h hx with ⟨ids₁, h₁, hx₁⟩ | hxl
    · obtain ⟨ids₀, h₀, hx₀⟩ := hdi1 k ids₁ id h₁ hx₁
      exact hdep k ids₀ id h₀ hx₀
    · exact hxl

end Qsolog

namespace Qsolog

/-- The reconcile loop, run with enough fuel over any impacted set drawn
from the changed id, the order and the dep index, terminates with the cache
pointwise equal to the engine-output function. -/
theorem reconcileLoop_spec {State Eval : Type} [DecidableEq Eval]
    {E : ContestEngine State Eval} {f : QsoRecord → EngineApplied Eval}
    (hf : ∀ st r, (E.apply st r).2 = f r) {store : QsoStore}
    (hkeys : store.core.records.map Prod.fst = store.core.order)
    (hnd : store.core.order.Nodup) {changed_id : Nat} :
    ∀ (fuel : Nat) (pr : Projector State Eval) (impacted : List Nat)
      (old₁ : Option QsoRecord),
    (∀ id, id ∉ impacted → alookup pr.applied id = targetAt f store id) →
    (∀ id ∈ impacted, alookup store.core.records id = none
      → alookup pr.applied id = none) →
    diOK pr.dep_index store.core.order →
    impacted.Nodup →
    (∀ id ∈ impacted, id = changed_id ∨ id ∈ store.core.order) →
    store.core.order.length + 2 ≤ fuel + impacted.length →
    ∃ pr', reconcileLoop E store changed_id fuel pr impacted old₁ = .ok pr'
      ∧ (∀ id, alookup pr'.applied id = targetAt f store id)
      ∧ diOK pr'.dep_index store.core.order := by
  intro fuel
  induction fuel with
  | zero =>
    intro pr impacted old₁ hpre1 hpre2 hdep hnodup hbound hfuel
    exfalso
    have hsub : impacted ⊆ changed_id :: store.core.order := by
      intro x hx
      rcases hbound x hx with rfl | h
      · exact List.mem_cons_self x _
      · exact List.mem_cons_of_mem _ h
    have hle : impacted.length ≤ store.core.order.length + 1 := by
      have := (hnodup.subperm hsub).length_le
      simpa using this
    omega
  | succ n ih =>
    intro pr impacted old₁ hpre1 hpre2 hdep hnodup hbound hfuel
    obtain ⟨pr₁, keys, heqR, hap₁, hdep₁⟩ :=
      recompute_spec hf hkeys hnd hpre1 hpre2 hdep
    simp only [reconcileLoop]
    rw [heqR]
    dsimp only
    by_cases hlen : (expandImpacted pr₁.dep_index keys impacted).length
        = impacted.length
    · rw [if_pos hlen]
      exact ⟨pr₁, rfl, hap₁, hdep₁⟩
    · rw [if_neg hlen]
      have hgrow : impacted.length
          ≤ (expandImpacted pr₁.dep_index keys impacted).length :=
        expand_length
      refine ih pr₁ (expandImpacted pr₁.dep_index keys impacted) none
        (fun id _ => hap₁ id) ?_ hdep₁ (expand_nodup hnodup) ?_ (by omega)
      · intro id hid hrn
        rw [hap₁ id]
        unfold targetAt
        rw [hrn]
      · intro id hid
        rcases expand_mem hid with h | ⟨k, ids, hk, hmem⟩
        · exact hbound id h
        · exact Or.inr (hdep₁ k ids id hk hmem)

end Qsolog

namespace Qsolog

/-- The id an op targets. -/
def Op.changedId : Op → Nat
  | .insert qso => qso.id
  | .patch id _ _ => id
  | .void id _ => id

/-- The store transition an emitted op performs on records and order. -/
inductive OpStep : QsoStore → QsoStore → Op → Prop where
  | insert {s s₁ : QsoStore} {qso : QsoRecord}
      (habs : alookup s.core.records qso.id = none)
      (hrec : s₁.core.records = s.core.records ++ [(qso.id, qso)])
      (hord : s₁.core.order = s.core.order ++ [qso.id]) :
      OpStep s s₁ (.insert qso)
  | patch {s s₁ : QsoStore} {id : Nat} {p prev : QsoPatch} {rec : QsoRecord}
      (hl : alookup s.core.records id = some rec)
      (hrec : s₁.core.records
        = aupdate s.core.records id fun _ => p.apply_to rec)
      (hord : s₁.core.order = s.core.order) :
      OpStep s s₁ (.patch id p prev)
  | void {s s₁ : QsoStore} {id : Nat} {pb : Bool} {rec : QsoRecord}
      (hl : alookup s.core.records id = some rec)
      (hrec : s₁.core.records = aupdate s.core.records id fun _ =>
        { rec with flags := { rec.flags with is_void := !pb } })
      (hord : s₁.core.order = s.core.order) :
      OpStep s s₁ (.void id pb)

/-- An op step keeps every other id's record lookup. -/
theorem opStep_lookup_frame {s s₁ : QsoStore} {op : Op}
    (h : OpStep s s₁ op) :
    ∀ id, id ≠ op.changedId
      → alookup s₁.core.records id = alookup s.core.records id := by
  cases h with
  | insert habs hrec hord =>
    intro id hne
    rw [hrec, alookup_append]
    cases hl : alookup s.core.records id with
    | some r => rfl
    | none =>
      dsimp only
      rw [alookup_cons, if_neg fun hh => hne hh.symm]
      rfl
  | patch hl hrec hord =>
    intro id hne
    rw [hrec]
    exact alookup_aupdate_ne _ _ _ _ hne
  | void hl hrec hord =>
    intro id hne
    rw [hrec]
    exact alookup_aupdate_ne _ _ _ _ hne

/-- The changed id has a record after the step. -/
theorem opStep_changed_mem {s s₁ : QsoStore} {op : Op}
    (h : OpStep s s₁ op) :
    ∃ r, alookup s₁.core.records op.changedId = some r := by
  cases h with
  | insert habs hrec hord =>
    rename_i qso
    refine ⟨qso, ?_⟩
    simp only [Op.changedId]
    rw [hrec, alookup_append, habs]
    dsimp only
    rw [alookup_cons, if_pos rfl]
  | patch hl hrec hord =>
    rename_i pid p prev rec
    refine ⟨p.apply_to rec, ?_⟩
    simp only [Op.changedId]
    rw [hrec, alookup_aupdate_self, hl]
    rfl
  | void hl hrec hord =>
    rename_i vid pb rec
    refine ⟨{ rec with flags := { rec.flags with is_void := !pb } }, ?_⟩
    simp only [Op.changedId]
    rw [hrec, alookup_aupdate_self, hl]
    rfl

/-- The order only grows across an op step. -/
theorem opStep_order_mono {s s₁ : QsoStore} {op : Op} (h : OpStep s s₁ op) :
    ∀ id ∈ s.core.order, id ∈ s₁.core.order := by
  cases h with
  | insert habs hrec hord =>
    intro id hid
    rw [hord]
    exact List.mem_append_left _ hid
  | patch hl hrec hord =>
    intro id hid
    rw [hord]
    exact hid
  | void hl hrec hord =>
    intro id hid
    rw [hord]
    exact hid

/-- Applying an emitted op to the projector (with the post-mutation store)
restores the cache to the engine-output function on the new store and keeps
the dep index inside the new order (state-independent engine). -/
theorem apply_stored_op_spec {State Eval : Type} [DecidableEq Eval]
    {E : ContestEngine State Eval} {f : QsoRecord → EngineApplied Eval}
    (hf : ∀ st r, (E.apply st r).2 = f r) {s s₁ : QsoStore} {ω : StoredOp}
    {pr : Projector State Eval} (hstep : OpStep s s₁ ω.op)
    (hkeys : s₁.core.records.map Prod.fst = s₁.core.order)
    (hnd₁ : s₁.core.order.Nodup)
    (hA : ∀ id, alookup pr.applied id = targetAt f s id)
    (hD : diOK pr.dep_index s.core.order) :
    ∃ pr', Projector.apply_stored_op E s₁ pr ω (s₁.core.order.length + 2)
        = .ok pr'
      ∧ (∀ id, alookup pr'.applied id = targetAt f s₁ id)
      ∧ diOK pr'.dep_index s₁.core.order := by
  have hmono := opStep_order_mono hstep
  have hframe := opStep_lookup_frame hstep
  obtain ⟨rc, hrc⟩ := opStep_changed_mem hstep
  have hD₁ : diOK pr.dep_index s₁.core.order :=
    fun k ids id hk hm => hmono id (hD k ids id hk hm)
  have main : ∀ (keys : List DepKey) (old₁ : Option QsoRecord),
      ∃ pr', reconcileLoop E s₁ ω.op.changedId (s₁.core.order.length + 2)
          pr (expandImpacted pr.dep_index keys [ω.op.changedId]) old₁
          = .ok pr'
        ∧ (∀ id, alookup pr'.applied id = targetAt f s₁ id)
        ∧ diOK pr'.dep_index s₁.core.order := by
    intro keys old₁
    have hchg : ω.op.changedId
        ∈ expandImpacted pr.dep_index keys [ω.op.changedId] :=
      expand_sub (List.mem_cons_self _ _)
    have hpre1 : ∀ id,
        id ∉ expandImpacted pr.dep_index keys [ω.op.changedId]
        → alookup pr.applied id = targetAt f s₁ id := by
      intro id hid
      have hne : id ≠ ω.op.changedId := fun hh => hid (hh ▸ hchg)
      rw [hA id]
      unfold targetAt
      rw [hframe id hne]
    have hpre2 : ∀ id ∈ expandImpacted pr.dep_index keys [ω.op.changedId],
        alookup s₁.core.records id = none
        → alookup pr.applied id = none := by
      intro id hid hrn
      by_cases hne : id = ω.op.changedId
      · rw [hne, hrc] at hrn
        exact absurd hrn (by simp)
      · rw [hA id]
        unfold targetAt
        rw [← hframe id hne, hrn]
    have hnodupI : (expandImpacted pr.dep_index keys
        [ω.op.changedId]).Nodup :=
      expand_nodup (List.nodup_cons.mpr ⟨by simp, List.nodup_nil⟩)
    have hbound : ∀ id ∈ expandImpacted pr.dep_index keys
        [ω.op.changedId], id = ω.op.changedId ∨ id ∈ s₁.core.order := by
      intro id hid
      rcases expand_mem hid with hl | ⟨k, ids, hk, hm⟩
      · rw [List.mem_singleton] at hl
        exact Or.inl hl
      · exact Or.inr (hmono id (hD k ids id hk hm))
    exact reconcileLoop_spec hf hkeys hnd₁ _ pr _ old₁ hpre1 hpre2 hD₁
      hnodupI hbound (by omega)
  have hloop : ∀ old₁ : Option QsoRecord,
      ∃ pr', incremental_reconcile E s₁ pr ω.op.changedId old₁
          (s₁.core.order.length + 2) = .ok pr'
        ∧ (∀ id, alookup pr'.applied id = targetAt f s₁ id)
        ∧ diOK pr'.dep_index s₁.core.order := by
    intro old₁
    unfold incremental_reconcile
    dsimp only
    cases hk : alookup pr.applied ω.op.changedId with
    | some oa =>
      dsimp only
      exact main oa.deps old₁
    | none =>
      dsimp only
      exact main [] old₁
  cases hop : ω.op with
  | insert qso =>
    rw [hop] at hloop
    obtain ⟨pr', heq, hap, hdep⟩ := hloop none
    refine ⟨pr', ?_, hap, hdep⟩
    unfold Projector.apply_stored_op
    rw [hop]
    exact heq
  | patch id p prev =>
    rw [hop] at hloop hrc
    obtain ⟨pr', heq, hap, hdep⟩ := hloop (some (prev.apply_to rc))
    refine ⟨pr', ?_, hap, hdep⟩
    unfold Projector.apply_stored_op
    rw [hop]
    dsimp only
    have hrc' : alookup s₁.core.records id = some rc := hrc
    rw [hrc']
    exact heq
  | void id pb =>
    rw [hop] at hloop hrc
    obtain ⟨pr', heq, hap, hdep⟩ :=
      hloop (some { rc with flags := { rc.flags with is_void := pb } })
    refine ⟨pr', ?_, hap, hdep⟩
    unfold Projector.apply_stored_op
    rw [hop]
    dsimp only
    have hrc' : alookup s₁.core.records id = some rc := hrc
    rw [hrc']
    exact heq

end Qsolog

namespace Qsolog

/-- Dropping the emitted op recovers `execCmd`. -/
theorem execCmdOp_execCmd {s s₁ : QsoStore} {c : Cmd} {ω : StoredOp}
    (h : execCmdOp s c = .ok (s₁, ω)) : execCmd s c = .ok s₁ := by
  cases c with
  | ins draft =>
    simp only [execCmdOp] at h
    cases hins : s.insert draft with
    | error e => rw [hins] at h; exact absurd h (by simp [Except.map])
    | ok out =>
      rw [hins] at h
      simp only [Except.map, Except.ok.injEq, Prod.mk.injEq] at h
      simp only [execCmd, hins, Except.map, h.1]
  | pat id p =>
    simp only [execCmdOp] at h
    simp only [execCmd, h, Except.map]
  | vd id =>
    simp only [execCmdOp] at h
    simp only [execCmd, h, Except.map]
  | und =>
    simp only [execCmdOp] at h
    simp only [execCmd, h, Except.map]
  | red =>
    simp only [execCmdOp] at h
    simp only [execCmd, h, Except.map]

/-- Every successful command emits exactly one op. -/
theorem execCmd_execCmdOp {s s₁ : QsoStore} {c : Cmd}
    (h : execCmd s c = .ok s₁) : ∃ ω, execCmdOp s c = .ok (s₁, ω) := by
  cases c with
  | ins draft =>
    simp only [execCmd] at h
    cases hins : s.insert draft with
    | error e => rw [hins] at h; exact absurd h (by simp [Except.map])
    | ok out =>
      obtain ⟨a, id0, st0⟩ := out
      rw [hins] at h
      simp only [Except.map, Except.ok.injEq] at h
      subst h
      exact ⟨st0, by simp only [execCmdOp, hins, Except.map]⟩
  | pat id p =>
    simp only [execCmd] at h
    cases hp : s.patch id p with
    | error e => rw [hp] at h; exact absurd h (by simp [Except.map])
    | ok out =>
      obtain ⟨a, st0⟩ := out
      rw [hp] at h
      simp only [Except.map, Except.ok.injEq] at h
      subst h
      exact ⟨st0, hp⟩
  | vd id =>
    simp only [execCmd] at h
    cases hv : s.void id with
    | error e => rw [hv] at h; exact absurd h (by simp [Except.map])
    | ok out =>
      obtain ⟨a, st0⟩ := out
      rw [hv] at h
      simp only [Except.map, Except.ok.injEq] at h
      subst h
      exact ⟨st0, hv⟩
  | und =>
    simp only [execCmd] at h
    cases hv : s.undo_step with
    | error e => rw [hv] at h; exact absurd h (by simp [Except.map])
    | ok out =>
      obtain ⟨a, st0⟩ := out
      rw [hv] at h
      simp only [Except.map, Except.ok.injEq] at h
      subst h
      exact ⟨st0, hv⟩
  | red =>
    simp only [execCmd] at h
    cases hv : s.redo_step with
    | error e => rw [hv] at h; exact absurd h (by simp [Except.map])
    | ok out =>
      obtain ⟨a, st0⟩ := out
      rw [hv] at h
      simp only [Except.map, Except.ok.injEq] at h
      subst h
      exact ⟨st0, hv⟩

/-- A successful `apply_op` is an op step for its emitted op. -/
theorem apply_op_opStep {s s₁ : QsoStore} {op₀ : Op} {c' : StoreCore}
    {ω : StoredOp} {inv : Op}
    (happ : apply_op s.core op₀ = .ok (c', ω, inv)) (hcore : s₁.core = c') :
    OpStep s s₁ ω.op := by
  cases op₀ with
  | insert qso =>
    simp only [apply_op, apply_insert_eq] at happ
    obtain ⟨habs, hst, -, hrec, hord, -, -, -, -⟩ :=
      apply_insert_with_seq_ok happ
    rw [hst]
    exact OpStep.insert habs (by rw [hcore]; exact hrec)
      (by rw [hcore]; exact hord)
  | patch pid pp pq =>
    simp only [apply_op, apply_patch_eq] at happ
    obtain ⟨rec, hrecL, hst, -, hrec, hord, -, -, -, -⟩ :=
      apply_patch_with_seq_ok happ
    rw [hst]
    exact OpStep.patch hrecL (by rw [hcore]; exact hrec)
      (by rw [hcore]; exact hord)
  | void vid vb =>
    simp only [apply_op, apply_void_eq] at happ
    obtain ⟨rec, hrecL, hst, -, hrec, hord, -, -, -, -⟩ :=
      apply_void_with_seq_ok happ
    rw [hst]
    exact OpStep.void hrecL (by rw [hcore]; exact hrec)
      (by rw [hcore]; exact hord)

/-- Every successful command's emitted op is an op step. -/
theorem execCmdOp_opStep {s s₁ : QsoStore} {c : Cmd} {ω : StoredOp}
    (h : execCmdOp s c = .ok (s₁, ω)) : OpStep s s₁ ω.op := by
  cases c with
  | ins draft =>
    simp only [execCmdOp] at h
    cases hins : s.insert draft with
    | error e => rw [hins] at h; exact absurd h (by simp [Except.map])
    | ok out =>
      obtain ⟨a, id0, st0⟩ := out
      rw [hins] at h
      simp only [Except.map, Except.ok.injEq, Prod.mk.injEq] at h
      obtain ⟨h1, h2⟩ := h
      subst h1 h2
      obtain ⟨cx, inv, happO, -, hs1⟩ := insert_shape hins
      obtain ⟨habs, hst, -, hrec, hord, -, -, -, -⟩ :=
        apply_insert_with_seq_ok happO
      rw [hst]
      exact OpStep.insert habs (by rw [hs1]; exact hrec)
        (by rw [hs1]; exact hord)
  | pat id p =>
    simp only [execCmdOp] at h
    obtain ⟨cx, inv, happO, hs1⟩ := patch_shape h
    obtain ⟨rec, hrecL, hst, -, hrec, hord, -, -, -, -⟩ :=
      apply_patch_with_seq_ok happO
    rw [hst]
    exact OpStep.patch hrecL (by rw [hs1]; exact hrec)
      (by rw [hs1]; exact hord)
  | vd id =>
    simp only [execCmdOp] at h
    obtain ⟨rec0, cx, inv, hrec0, happO, hs1⟩ := void_shape h
    obtain ⟨rec, hrecL, hst, -, hrec, hord, -, -, -, -⟩ :=
      apply_void_with_seq_ok happO
    rw [hst]
    exact OpStep.void hrecL (by rw [hs1]; exact hrec)
      (by rw [hs1]; exact hord)
  | und =>
    simp only [execCmdOp] at h
    obtain ⟨op, rest, cx, inv, hu, happO, hs1⟩ := undo_step_shape h
    exact apply_op_opStep happO (by rw [hs1])
  | red =>
    simp only [execCmdOp] at h
    obtain ⟨op, rest, cx, inv, hu, happO, hs1⟩ := redo_step_shape h
    exact apply_op_opStep happO (by rw [hs1])

/-- Successful runs end in reachable stores. -/
theorem reachable_of_execList {cmds : List Cmd} :
    ∀ {s₀ s : QsoStore}, Reachable s₀ → execList s₀ cmds = .ok s
      → Reachable s := by
  induction cmds with
  | nil =>
    intro s₀ s hre h
    simp only [execList, Except.ok.injEq] at h
    subst h
    exact hre
  | cons c rest ih =>
    intro s₀ s hre h
    simp only [execList] at h
    cases hc : execCmd s₀ c with
    | error e => rw [hc] at h; exact absurd h (by simp)
    | ok s₁ =>
      rw [hc] at h
      exact ih (Reachable.cmd c hre hc) h

end Qsolog

namespace Qsolog

/-- Running commands while feeding every emitted op to the projector keeps
the cache pointwise equal to the engine-output function on the current
store (state-independent engine). -/
theorem feedCmds_spec {State Eval : Type} [DecidableEq Eval]
    {E : ContestEngine State Eval} {f : QsoRecord → EngineApplied Eval}
    (hf : ∀ st r, (E.apply st r).2 = f r) :
    ∀ (cmds : List Cmd) (s₀ : QsoStore) (pr₀ : Projector State Eval)
      (s : QsoStore),
    execList s₀ cmds = .ok s → Reachable s₀ →
    (∀ id, alookup pr₀.applied id = targetAt f s₀ id) →
    diOK pr₀.dep_index s₀.core.order →
    ∃ pr, feedCmds E s₀ pr₀ cmds = some (s, pr)
      ∧ (∀ id, alookup pr.applied id = targetAt f s id)
      ∧ diOK pr.dep_index s.core.order := by
  intro cmds
  induction cmds with
  | nil =>
    intro s₀ pr₀ s h hre hA hD
    simp only [execList, Except.ok.injEq] at h
    subst h
    exact ⟨pr₀, rfl, hA, hD⟩
  | cons c rest ih =>
    intro s₀ pr₀ s h hre hA hD
    simp only [execList] at h
    cases hc : execCmd s₀ c with
    | error e => rw [hc] at h; exact absurd h (by simp)
    | ok s₁ =>
      rw [hc] at h
      obtain ⟨ω, hop⟩ := execCmd_execCmdOp hc
      have hstep := execCmdOp_opStep hop
      have hre₁ : Reachable s₁ := Reachable.cmd c hre hc
      have hCI := reachable_coreInv hre₁
      obtain ⟨pr₁, heqP, hA₁, hD₁⟩ := apply_stored_op_spec hf hstep
        hCI.keysOrder hCI.orderNodup hA hD
      obtain ⟨pr, heqF, hA₂, hD₂⟩ := ih s₁ pr₁ s h hre₁ hA₁ hD₁
      refine ⟨pr, ?_, hA₂, hD₂⟩
      show feedCmds E s₀ pr₀ (c :: rest) = _
      unfold feedCmds
      rw [hop]
      dsimp only
      rw [heqP]
      exact heqF

/-- C1 (amended): for every engine whose cached output is a function of the
record alone (so retract/apply touch only internal state), feeding every
emitted StoredOp of a successful run, in emission order and with the
post-mutation store, to `Projector::apply_stored_op` succeeds, and the
projector's applied map afterwards equals pointwise the applied map of a
full recompute from scratch over the final store. (Unrestricted over
engines with exact-inverse retract the claim is false: see the counter
engine above.) -/
theorem projector_incremental_equals_full_recompute {State Eval : Type}
    [DecidableEq Eval] {E : ContestEngine State Eval}
    {f : QsoRecord → EngineApplied Eval}
    (hf : ∀ st r, (E.apply st r).2 = f r)
    {cmds : List Cmd} {s : QsoStore}
    (h : execList QsoStore.new cmds = .ok s) :
    ∃ pr, feedCmds E QsoStore.new (Projector.mkNew E) cmds = some (s, pr)
      ∧ ∀ id, alookup pr.applied id = alookup (full_recompute E s) id := by
  have hA0 : ∀ id, alookup (Projector.mkNew E).applied id
      = targetAt f QsoStore.new id := fun id => rfl
  have hD0 : diOK (Projector.mkNew E).dep_index QsoStore.new.core.order := by
    intro k ids id hk hm
    exact absurd hk (by simp [Projector.mkNew, alookup])
  obtain ⟨pr, heq, hA, hD⟩ := feedCmds_spec hf cmds QsoStore.new
    (Projector.mkNew E) s h Reachable.base hA0 hD0
  have hCI := reachable_coreInv (reachable_of_execList Reachable.base h)
  refine ⟨pr, heq, ?_⟩
  intro id
  rw [hA id, full_recompute_lookup hf hCI.keysOrder hCI.orderNodup id]

/-- A state-independent engine with nontrivial dependency keys: evaluations
report the record's frequency and depend on its normalized callsign. -/
def depEngine : ContestEngine Nat Nat where
  new_state := 0
  apply := fun s r => (s + 1, ⟨r.freq_hz, [DepKey.custom r.callsign_norm]⟩)
  retract := fun s _ _ => s - 1
  diff_invalidation := fun o n => o.deps ++ n.deps

/-- The record-level output function of `depEngine`. -/
def depF : QsoRecord → EngineApplied Nat :=
  fun r => ⟨r.freq_hz, [DepKey.custom r.callsign_norm]⟩

/-- The command list of the C1 witness run. -/
def c1Cmds : List Cmd :=
  [Cmd.ins sampleDraft, Cmd.ins sampleDraft, Cmd.pat 1 idxPatch, Cmd.vd 2]

/-- The store produced by the C1 witness run. -/
def c1Store : QsoStore :=
  stepOr (stepOr (stepOr (stepOr QsoStore.new (Cmd.ins sampleDraft))
    (Cmd.ins sampleDraft)) (Cmd.pat 1 idxPatch)) (Cmd.vd 2)

/-- Concrete instance of the amended C1 theorem: a four-command run under
`depEngine` whose incremental projector cache matches the full recompute. -/
theorem projector_incremental_equals_full_recompute_witness :
    ((∀ st r, (depEngine.apply st r).2 = depF r)
      ∧ execList QsoStore.new c1Cmds = .ok c1Store)
    ∧ ∃ pr, feedCmds depEngine QsoStore.new (Projector.mkNew depEngine)
        c1Cmds = some (c1Store, pr)
      ∧ ∀ id, alookup pr.applied id
        = alookup (full_recompute depEngine c1Store) id :=
  ⟨⟨fun st r => rfl, by decide⟩,
    @projector_incremental_equals_full_recompute Nat Nat _ depEngine depF
      (fun st r => rfl) c1Cmds c1Store (by decide)⟩

end Qsolog
